import Mathlib

/-!
# recruitment-os: CSV ingestion, edit overlay and aggregation

A shallow embedding of the data-shaping code of `app.js` and
`hiring-signals.js`, followed by theorems about it.

Modelling conventions.

* A JavaScript string is the list of its characters (`Str`). The parsers
  dispatch on single characters of the Basic Multilingual Plane only.
* A plain JavaScript object with string keys is the list of its own
  properties in property order (`JSObj`): array-index keys in ascending
  numeric order first, then the other keys in order of creation.
* An expression that raises a `TypeError` in JavaScript (a member access on
  `undefined`) is modelled in `Except JSError`.
-/

namespace RecruitmentOS

/-- A JavaScript string. -/
abbrev Str := List Char

/-- Errors a script can raise in the modelled fragment. -/
inductive JSError where
  | typeError
  deriving DecidableEq, Repr

deriving instance DecidableEq for Except

/-! ## Strings -/

/-- The characters matched by the regular-expression class `\s` and removed by
`String.prototype.trim`: the ECMAScript WhiteSpace and LineTerminator
code points. -/
def isWhiteSpace (c : Char) : Bool :=
  let n := c.toNat
  n == 0x09 || n == 0x0A || n == 0x0B || n == 0x0C || n == 0x0D || n == 0x20 ||
  n == 0xA0 || n == 0x1680 || (0x2000 ≤ n && n ≤ 0x200A) || n == 0x2028 ||
  n == 0x2029 || n == 0x202F || n == 0x205F || n == 0x3000 || n == 0xFEFF

/-- Drop leading white space. -/
def trimStart (s : Str) : Str := s.dropWhile isWhiteSpace

/-- Drop trailing white space. -/
def trimEnd (s : Str) : Str := (s.reverse.dropWhile isWhiteSpace).reverse

/-- The method `String.prototype.trim`. -/
def trim (s : Str) : Str := trimEnd (trimStart s)

/-- The call `s.replace(/\s+/g, ' ')`; the flag records that the previous
character belonged to the white-space run being replaced. -/
def collapseWhiteSpace : Bool → Str → Str
  | _, [] => []
  | inRun, c :: cs =>
    if isWhiteSpace c then
      if inRun then collapseWhiteSpace true cs else ' ' :: collapseWhiteSpace true cs
    else c :: collapseWhiteSpace false cs

/-- The call `s.replace(/\\e/g, r)` for a letter `e`: every occurrence of the
two characters backslash, `e` becomes the single character `r`. -/
def replaceEscape (e r : Char) : Str → Str
  | [] => []
  | a :: rest =>
    match rest with
    | [] => [a]
    | b :: rest2 =>
      if a = '\\' ∧ b = e then r :: replaceEscape e r rest2
      else a :: replaceEscape e r (b :: rest2)

/-- The method `toLowerCase`, as far as a test for the letters `a-z` can tell:
the characters whose lower-case form contains a letter `a-z` are `A-Z`, U+0130
(to `i` followed by U+0307) and U+212A (to `k`); every other character has a
lower-case form without letter `a-z`, digit or space, and is left as it is.
The result is the JavaScript result on text whose cased letters are ASCII. -/
def toLowerCase (s : Str) : Str :=
  s.flatMap fun c =>
    if c.toNat = 0x130 then ['i', Char.ofNat 0x307]
    else if c.toNat = 0x212A then ['k']
    else if 65 ≤ c.toNat ∧ c.toNat ≤ 90 then [Char.ofNat (c.toNat + 32)]
    else [c]

/-- The test `hay.includes(needle)`. -/
def includes (hay needle : Str) : Bool := decide (needle <:+: hay)

/-- The property `length`: the number of UTF-16 code units. -/
def utf16Length (s : Str) : Nat := (s.map fun c => if c.toNat < 0x10000 then 1 else 2).sum

/-- The call `s.substring(0, n)`: the characters that lie within the first `n`
UTF-16 code units. When position `n` falls inside a surrogate pair the
JavaScript result ends with the first half of the pair, which no `Char`
stands for; that half is left out here. -/
def substring : Nat → Str → Str
  | _, [] => []
  | n, c :: cs =>
    if (if c.toNat < 0x10000 then 1 else 2) ≤ n then
      c :: substring (n - (if c.toNat < 0x10000 then 1 else 2)) cs
    else []

/-- The decimal text of a number, as a template literal prints it. -/
def numberText (n : Nat) : Str := (Nat.repr n).toList

/-- The call `s.indexOf(c)`: the position, in UTF-16 code units, of the first
occurrence of the character, and `none` for the result -1. -/
def indexOf (c : Char) : Str → Option Nat
  | [] => none
  | d :: ds =>
    if d = c then some 0
    else (indexOf c ds).map fun i => i + (if d.toNat < 0x10000 then 1 else 2)

/-! ## Numbers -/

/-- The integer nearest to a rational number, a tie going to the even one. -/
def roundHalfEven (y : ℚ) : ℤ :=
  if y - ⌊y⌋ < 1 / 2 then ⌊y⌋
  else if 1 / 2 < y - ⌊y⌋ then ⌊y⌋ + 1
  else if ⌊y⌋ % 2 = 0 then ⌊y⌋ else ⌊y⌋ + 1

/-- The distance between neighbouring binary64 numbers around `x`: `2 ^ (e - 52)`
for `2 ^ e ≤ |x| < 2 ^ (e + 1)`, and `2 ^ -1074` below `2 ^ -1022`, where the
numbers are subnormal. -/
def ulp (x : ℚ) : ℚ := 2 ^ (max (Int.log 2 |x|) (-1022) - 52)

/-- The binary64 number that a real result is rounded to (to nearest, a tie
going to the even significand); `none` when the rounded result is beyond the
largest binary64 number, where the language gives an infinity. -/
def toBinary64 (x : ℚ) : Option ℚ :=
  if |(roundHalfEven (x / ulp x) : ℚ) * ulp x| < 2 ^ (1024 : ℕ) then
    some ((roundHalfEven (x / ulp x) : ℚ) * ulp x)
  else none

/-! ## Plain objects -/

/-- The own properties of a plain object, in property order. -/
abbrev JSObj (α : Type) := List (Str × α)

/-- The value of a canonical numeric string: `some n` when the key is the
decimal numeral of `n` without sign or leading zero. -/
def canonicalNumeric (k : Str) : Option Nat :=
  match k with
  | [] => none
  | c :: cs =>
    if (c :: cs).all Char.isDigit ∧ (c ≠ '0' ∨ cs = []) then
      some ((c :: cs).foldl (fun n d => 10 * n + (d.toNat - 48)) 0)
    else none

/-- An array index is a canonical numeric string below `2^32 - 1`; such keys
are enumerated before all others, in ascending numeric order. -/
def arrayIndex (k : Str) : Option Nat :=
  match canonicalNumeric k with
  | some n => if n < 2 ^ 32 - 1 then some n else none
  | none => none

namespace JSObj

variable {α : Type}

/-- The read `o[k]` of an own property (`none` for `undefined`). -/
def get : JSObj α → Str → Option α
  | [], _ => none
  | (k1, v1) :: rest, k => if k1 = k then some v1 else get rest k

/-- Overwrite the value of an existing own property, keeping its place. -/
def replace : JSObj α → Str → α → JSObj α
  | [], _, _ => []
  | (k1, v1) :: rest, k, v =>
    if k1 = k then (k, v) :: rest else (k1, v1) :: replace rest k v

/-- Create an array-index property: it goes before the first own property
that is not an array index or has a larger index. -/
def insertIndex (n : Nat) (k : Str) (v : α) : JSObj α → JSObj α
  | [] => [(k, v)]
  | (k1, v1) :: rest =>
    match arrayIndex k1 with
    | some m => if m < n then (k1, v1) :: insertIndex n k v rest else (k, v) :: (k1, v1) :: rest
    | none => (k, v) :: (k1, v1) :: rest

/-- The assignment `o[k] = v` of a data property (for a key other than
`__proto__`, which no assignment of the modelled code can receive: see
`App.mappedKey`, `App.editKey`, `App.countLabel` and `HiringSignals.slug`). -/
def set (o : JSObj α) (k : Str) (v : α) : JSObj α :=
  match get o k with
  | some _ => replace o k v
  | none =>
    match arrayIndex k with
    | some n => insertIndex n k v o
    | none => o ++ [(k, v)]

/-- The call `Object.keys(o)`. -/
def keys (o : JSObj α) : List Str := o.map Prod.fst

/-- The call `Object.values(o)`. -/
def values (o : JSObj α) : List α := o.map Prod.snd

/-- The object spread `{ ...a, ...b }`: a copy of `a` (objects are values
here) on which every own property of `b` is then defined, in order. -/
def spread (a b : JSObj α) : JSObj α :=
  b.foldl (fun o kv => set o kv.1 kv.2) a

end JSObj

/-- A record: a mapping from field key to field value. -/
abbrev Record := JSObj Str

/-- The assignment `o[k] = v` of a text to a property of a record. For the
key `__proto__` the assignment reaches the setter inherited from
`Object.prototype`, which ignores a value that is not an object: the record
is left as it is. -/
def assignText (o : Record) (k v : Str) : Record :=
  if k = "__proto__".toList then o else o.set k v

/-- The names of the members every plain object inherits from
`Object.prototype`. A read `o[k]` of such a key on an object without an own
property `k` yields the inherited member instead of `undefined`. -/
def objectPrototypeKeys : List Str :=
  ["constructor", "__defineGetter__", "__defineSetter__", "hasOwnProperty",
   "__lookupGetter__", "__lookupSetter__", "isPrototypeOf", "propertyIsEnumerable",
   "toString", "valueOf", "__proto__", "toLocaleString"].map String.toList

/-! ## General variant (`app.js`) -/

namespace App

/-- The table `COLUMN_MAPPING` of `app.js`: sheet header to field key. -/
def COLUMN_MAPPING : JSObj Str :=
  [("Company name", "companyName"),
   ("Job type", "jobType"),
   ("City", "city"),
   ("JD", "jd"),
   ("Company job url", "companyJobUrl"),
   ("Salary", "salary"),
   ("Company descriptions", "companyDescription"),
   ("Title", "title"),
   ("Match score analysis", "matchScore"),
   ("Website", "website"),
   ("Decision maker email", "decisionMakerEmail"),
   ("Outreach email text", "outreachEmailText")].map
    (fun p => (p.1.toList, p.2.toList))

/-- The test `currentRow.length > 0 || currentField !== ''` followed by
`currentRow.push(currentField); rows.push(currentRow)`. -/
def pushRow (rows : List (List Str)) (currentRow : List Str) (currentField : Str) :
    List (List Str) :=
  if currentRow.length > 0 ∨ currentField ≠ [] then rows ++ [currentRow ++ [currentField]]
  else rows

/-- The character loop of `parseCSV`, from position `i` on: the first argument
is `content.slice(i)`. A step that executes `i++` continues two characters
further on. -/
def scanRows : List Char → Bool → Str → List Str → List (List Str) → List (List Str)
  | [], _, currentField, currentRow, rows => pushRow rows currentRow currentField
  | char :: rest, inQuotes, currentField, currentRow, rows =>
    if char = '"' then
      match rest with
      | [] => scanRows [] (!inQuotes) currentField currentRow rows
      | nextChar :: rest2 =>
        if inQuotes = true ∧ nextChar = '"' then
          scanRows rest2 inQuotes (currentField ++ ['"']) currentRow rows
        else scanRows (nextChar :: rest2) (!inQuotes) currentField currentRow rows
    else if char = ',' ∧ inQuotes = false then
      scanRows rest inQuotes [] (currentRow ++ [currentField]) rows
    else if (char = '\r' ∨ char = '\n') ∧ inQuotes = false then
      let rows1 := pushRow rows currentRow currentField
      let emitted : Bool := currentRow.length > 0 ∨ currentField ≠ []
      let currentRow1 := if emitted then [] else currentRow
      let currentField1 := if emitted then [] else currentField
      match rest with
      | [] => scanRows [] inQuotes currentField1 currentRow1 rows1
      | nextChar :: rest2 =>
        if char = '\r' ∧ nextChar = '\n' then
          scanRows rest2 inQuotes currentField1 currentRow1 rows1
        else scanRows (nextChar :: rest2) inQuotes currentField1 currentRow1 rows1
    else scanRows rest inQuotes (currentField ++ [char]) currentRow rows

/-- The call `csvText.replace(/^﻿/, '')`. -/
def stripBOM : Str → Str
  | c :: cs => if c.toNat = 0xFEFF then cs else c :: cs
  | [] => []

/-- The rows of fields that the first half of `parseCSV` collects. -/
def tokenize (csvText : Str) : List (List Str) :=
  scanRows (stripBOM csvText) false [] [] []

/-- The header clean-up `header.trim().replace(/\s+/g, ' ')`. -/
def cleanHeader (header : Str) : Str := collapseWhiteSpace false (trim header)

/-- The expression `COLUMN_MAPPING[header] || header`, converted to a property
key. For a header that names a member inherited from `Object.prototype` the
lookup yields that member, and the key is the text `host header` the engine
prints for it. -/
def mappedKey (host : Str → Str) (header : Str) : Str :=
  match COLUMN_MAPPING.get header with
  | some key => if key = [] then header else key
  | none => if header ∈ objectPrototypeKeys then host header else header

/-- The value stored for one column:
`values[index] ? values[index].trim() : ''`, then the two `replace` calls. -/
def cellValue (cell : Option Str) : Str :=
  let value := match cell with
    | some v => if v = [] then [] else trim v
    | none => []
  replaceEscape 'r' '\r' (replaceEscape 'n' '\n' value)

/-- The body of `headers.forEach((header, index) => ...)`, from column `index`
on: the third argument is `values.slice(index)`. -/
def fillRow (host : Str → Str) : Record → List Str → List Str → Record
  | row, [], _ => row
  | row, header :: headers, values =>
    fillRow host (row.set (mappedKey host header) (cellValue values.head?)) headers values.tail

/-- The test `Object.values(row).some(val => val !== '')`. -/
def hasValue (row : Record) : Bool := row.values.any (fun val => val ≠ [])

/-- The function `parseCSV` of `app.js`. -/
def parseCSV (host : Str → Str) (csvText : Str) : Except JSError (List Record) :=
  let rows := tokenize csvText
  if rows.length < 2 then .ok []
  else
    match rows[0]? with
    | none => .error .typeError
    | some headerRow =>
      let headers := headerRow.map cleanHeader
      .ok (((rows.drop 1).map (fun values => fillRow host [] headers values)).filter hasValue)

/-! ### Dataset store and edit overlay -/

/-- A property read inside a template literal: `undefined` prints as the
text `undefined`. -/
def interpolate (v : Option Str) : Str := v.getD "undefined".toList

/-- The composite key `${item.companyName}|${item.title}`. It contains a
vertical bar, so it names no member of `Object.prototype`. -/
def editKey (item : Record) : Str :=
  interpolate (item.get "companyName".toList) ++ "|".toList ++ interpolate (item.get "title".toList)

/-- The callback of `data.map` in `loadSheetData`: an entry of `localEdits`
is an object, hence truthy whenever it exists. -/
def mergeItem (localEdits : JSObj Record) (item : Record) : Record :=
  match localEdits.get (editKey item) with
  | some edits => JSObj.spread item edits
  | none => item

/-- The overlay merge of `loadSheetData`:
`sheetData = data.map(item => ...)`. -/
def mergeLocalEdits (localEdits : JSObj Record) (data : List Record) : List Record :=
  data.map (mergeItem localEdits)

/-- The session state that `saveChanges` reads and writes. -/
structure State where
  sheetData : List Record
  localEdits : JSObj Record

/-- The read `sheetData[dataIndex]` (`none` for `undefined`). -/
def itemAt (sheetData : List Record) (dataIndex : Int) : Option Record :=
  if 0 ≤ dataIndex then sheetData[dataIndex.toNat]? else none

/-- The state change of `saveChanges` for the modal context
`(dataIndex, columnKey)` and the edited text. The empty `columnKey` stands for
both falsy values the context can hold, `''` and `undefined`. Reading
`item.companyName` on `undefined` raises a `TypeError`. The two assignments
of the text go through `assignText`; the composite key holds a vertical bar,
so the assignment of the new entry `{}` creates or finds an own property. -/
def saveChanges (st : State) (dataIndex : Int) (columnKey newText : Str) : Except JSError State :=
  if dataIndex ≠ -1 ∧ columnKey ≠ [] then
    match itemAt st.sheetData dataIndex with
    | none => .error .typeError
    | some item =>
      let editKey := editKey item
      let localEdits1 :=
        match st.localEdits.get editKey with
        | some _ => st.localEdits
        | none => st.localEdits.set editKey []
      let entry := (localEdits1.get editKey).getD []
      let localEdits2 := localEdits1.set editKey (assignText entry columnKey newText)
      .ok { sheetData := st.sheetData.set dataIndex.toNat (assignText item columnKey newText),
            localEdits := localEdits2 }
  else .ok st

/-! ### Aggregation -/

/-- The label `item.jobType || 'Other'`. -/
def jobTypeLabel (item : Record) : Str :=
  match item.get "jobType".toList with
  | some type => if type = [] then "Other".toList else type
  | none => "Other".toList

/-- One step `acc[type] = (acc[type] || 0) + 1` of the counting reducers on an
accumulator that starts as `{}`. For the label `__proto__` the read yields
`Object.prototype` and the assignment of a text to `__proto__` is ignored,
so the accumulator is unchanged. For any other label that names a member
inherited from `Object.prototype` the read yields that member, the sum is a
text and not a count, and the numeric comparator of the later sort is no
longer consistent: such datasets are outside the fragment modelled here
(`none`). -/
def countLabel (acc : JSObj Nat) (type : Str) : Option (JSObj Nat) :=
  match acc.get type with
  | some n => some (acc.set type (n + 1))
  | none =>
    if type = "__proto__".toList then some acc
    else if type ∈ objectPrototypeKeys then none
    else some (acc.set type 1)

/-- The reducer `data.reduce((acc, item) => ..., start)` over the labels. -/
def countLabels : JSObj Nat → List Str → Option (JSObj Nat)
  | acc, [] => some acc
  | acc, type :: rest =>
    match countLabel acc type with
    | some acc1 => countLabels acc1 rest
    | none => none

/-- The object `jobTypeCounts`, built by the same reducer in
`calculateMetrics` and in `renderCharts`. -/
def jobTypeCounts (data : List Record) : Option (JSObj Nat) :=
  countLabels [] (data.map jobTypeLabel)

/-- The call `entries.sort((a, b) => b[1] - a[1])`: `Array.prototype.sort` is
stable, so for this consistent comparator the result is the stable sort by
descending count. -/
def sortByCountDesc (entries : List (Str × Nat)) : List (Str × Nat) :=
  entries.insertionSort (fun a b => b.2 ≤ a.2)

/-- The expression `entries.sort(...)[0]?.[0] || 'N/A'`. -/
def topOf (entries : List (Str × Nat)) : Str :=
  match (sortByCountDesc entries).head? with
  | some first => if first.1 = [] then "N/A".toList else first.1
  | none => "N/A".toList

/-- The field `topJobType` of `calculateMetrics`. -/
def topJobType (data : List Record) : Option Str :=
  (jobTypeCounts data).map topOf

/-- The labels `Object.keys(jobTypeCounts)` and the values
`Object.values(jobTypeCounts)` that `renderCharts` passes to
`createBarChart('jobTypeChart', ...)`. -/
def jobTypeSeries (data : List Record) : Option (List Str × List Nat) :=
  (jobTypeCounts data).map (fun counts => (counts.keys, counts.values))

/-- The test `item.decisionMakerEmail && item.decisionMakerEmail.trim() !== ''`. -/
def hasEmail (item : Record) : Bool :=
  match item.get "decisionMakerEmail".toList with
  | some email => email ≠ [] && trim email ≠ []
  | none => false

/-- The field `outreachReady` of `calculateMetrics`. -/
def outreachReady (data : List Record) : Nat := (data.filter hasEmail).length

/-- The statement `counts[key]++` on an object created with that key. -/
def increment (counts : JSObj Nat) (key : Str) : JSObj Nat :=
  counts.set key ((counts.get key).getD 0 + 1)

/-- The object `coverage` of `renderCharts` after the `forEach` loop. -/
def outreachCoverage (data : List Record) : JSObj Nat :=
  data.foldl
    (fun coverage item =>
      if hasEmail item then increment coverage "With Email".toList
      else increment coverage "Without Email".toList)
    [("With Email".toList, 0), ("Without Email".toList, 0)]

/-- The labels and values passed to `createBarChart('outreachChart', ...)`. -/
def outreachSeries (data : List Record) : List Str × List Nat :=
  ((outreachCoverage data).keys, (outreachCoverage data).values)

/-- The number `parseFloat(item.matchScore)`, `none` standing for `NaN`. The
host function `parseFloat` is a parameter; a finite number is held as the
rational it stands for, and an infinite result is outside the model. A
missing field reads as `undefined`, which parses to `NaN`. -/
def scoreOf (parseFloat : Str → Option ℚ) (item : Record) : Option ℚ :=
  match item.get "matchScore".toList with
  | some text => parseFloat text
  | none => none

/-- The function `Math.round`: the nearest integer, a half rounding up. -/
def mathRound (x : ℚ) : Int := ⌊x + 1 / 2⌋

/-- The list `scores` of `calculateMetrics`: the parsed scores that are not
`NaN`. -/
def numericScores (parseFloat : Str → Option ℚ) (data : List Record) : List ℚ :=
  data.filterMap (scoreOf parseFloat)

/-- The call `scores.reduce((a, b) => a + b, start)`: every sum is rounded to
binary64 (`none` when a sum is infinite). -/
def sumScores : List ℚ → ℚ → Option ℚ
  | [], a => some a
  | b :: rest, a =>
    match toBinary64 (a + b) with
    | some total => sumScores rest total
    | none => none

/-- The field `avgMatchScore` of `calculateMetrics`: the binary64 sum of the
scores, divided by their number in binary64, and rounded by `Math.round`
(`none` when the sum or the quotient is infinite). -/
def avgMatchScore (parseFloat : Str → Option ℚ) (data : List Record) : Option Int :=
  let scores := numericScores parseFloat data
  if scores.length > 0 then
    match sumScores scores 0 with
    | some total => (toBinary64 (total / scores.length)).map mathRound
    | none => none
  else some 0

/-- The object `scoreBuckets` of `renderCharts` after the `forEach` loop. -/
def scoreBuckets (parseFloat : Str → Option ℚ) (data : List Record) : JSObj Nat :=
  data.foldl
    (fun buckets item =>
      match scoreOf parseFloat item with
      | none => buckets
      | some score =>
        if score ≤ 60 then increment buckets "0-60".toList
        else if score ≤ 75 then increment buckets "61-75".toList
        else if score ≤ 85 then increment buckets "76-85".toList
        else increment buckets "86-100".toList)
    [("0-60".toList, 0), ("61-75".toList, 0), ("76-85".toList, 0), ("86-100".toList, 0)]

/-- The labels and values passed to `createBarChart('matchScoreChart', ...)`. -/
def matchScoreSeries (parseFloat : Str → Option ℚ) (data : List Record) : List Str × List Nat :=
  ((scoreBuckets parseFloat data).keys, (scoreBuckets parseFloat data).values)

/-- The text `(item.title || '').toLowerCase()`. -/
def lowerTitle (item : Record) : Str := toLowerCase ((item.get "title".toList).getD [])

/-- The object `categories` of `renderCharts` after the `forEach` loop. -/
def roleCategories (data : List Record) : JSObj Nat :=
  data.foldl
    (fun categories item =>
      let title := lowerTitle item
      if includes title "seo".toList then increment categories "SEO".toList
      else if includes title "software engineer".toList || includes title "swe".toList then
        increment categories "Software Engineer".toList
      else if includes title "backend".toList then increment categories "Backend".toList
      else if includes title "founding engineer".toList then
        increment categories "Founding Engineer".toList
      else increment categories "Other".toList)
    [("SEO".toList, 0), ("Software Engineer".toList, 0), ("Backend".toList, 0),
     ("Founding Engineer".toList, 0), ("Other".toList, 0)]

/-- The labels and values passed to `createBarChart('roleChart', ...)`. -/
def roleSeries (data : List Record) : List Str × List Nat :=
  ((roleCategories data).keys, (roleCategories data).values)

/-- The call `s.split(' ')`. -/
def splitOnSpace : Str → List Str
  | [] => [[]]
  | c :: cs =>
    if c = ' ' then [] :: splitOnSpace cs
    else
      match splitOnSpace cs with
      | w :: ws => (c :: w) :: ws
      | [] => [[c]]

/-- The call `words.join(' ')`. -/
def joinWithSpace : List Str → Str
  | [] => []
  | w :: ws =>
    w ++
      (match ws with
       | [] => []
       | _ :: _ => ' ' :: joinWithSpace ws)

/-- The engine's methods `String.prototype.toUpperCase` and
`String.prototype.toLowerCase` on well-formed text. The label of a city is
the result of these conversions, so they are taken from the environment
whole: no table of the Unicode case mappings is part of the embedding. -/
structure CaseHost where
  toUpperCase : Str → Str
  toLowerCase : Str → Str

/-- The callback `w => w.charAt(0).toUpperCase() + w.slice(1).toLowerCase()`.
The empty word gives the empty word. `charAt(0)` is the first UTF-16 code
unit: for a word that starts with a character outside the Basic Multilingual
Plane it is the first half of a surrogate pair, which `toUpperCase` leaves as
it is, and the second half, at the head of `slice(1)`, is neither changed by
`toLowerCase` nor a cased letter for the characters after it; so that
character is kept and the rest of the word is lower-cased. -/
def capitalize (host : CaseHost) (w : Str) : Str :=
  match w with
  | [] => []
  | c :: rest =>
    if c.toNat < 0x10000 then host.toUpperCase [c] ++ host.toLowerCase rest
    else c :: host.toLowerCase rest

/-- The key under which the city reducer of `renderCharts` counts a record:
`(item.city || 'Remote/Unknown').trim()` with each word of `split(' ')`
capitalised. -/
def cityLabel (host : CaseHost) (item : Record) : Str :=
  let city := trim (match item.get "city".toList with
    | some c => if c = [] then "Remote/Unknown".toList else c
    | none => "Remote/Unknown".toList)
  joinWithSpace ((splitOnSpace city).map (capitalize host))

/-- The property key `item.companyName` of the company reducer: `undefined`
is converted to the key `undefined`. -/
def companyLabel (item : Record) : Str := interpolate (item.get "companyName".toList)

/-- The object `companyCounts` of `renderCharts`. -/
def companyCounts (data : List Record) : Option (JSObj Nat) :=
  countLabels [] (data.map companyLabel)

/-- The entries `topCompanies`: sorted by descending count, first ten. -/
def topCompanies (data : List Record) : Option (List (Str × Nat)) :=
  (companyCounts data).map (fun counts => (sortByCountDesc counts).take 10)

/-- The labels and values passed to `createBarChart('companyChart', ...)`. -/
def companySeries (data : List Record) : Option (List Str × List Nat) :=
  (topCompanies data).map (fun top => (top.map Prod.fst, top.map Prod.snd))

/-- The size of `new Set(values.filter(Boolean))`: the number of distinct
values that are neither `undefined` nor empty. -/
def uniqueCount (values : List (Option Str)) : Nat :=
  ((values.filterMap id).filter (fun v => v ≠ [])).dedup.length

/-- The object that `calculateMetrics` returns. -/
structure Metrics where
  totalJobs : Nat
  uniqueCompanies : Nat
  topJobType : Str
  uniqueCities : Nat
  avgMatchScore : Int
  outreachReady : Nat
  deriving DecidableEq

/-- The function `calculateMetrics` (`none` when the job-type labels leave
the fragment that `countLabel` models, or the average is infinite). -/
def calculateMetrics (parseFloat : Str → Option ℚ) (data : List Record) : Option Metrics :=
  match topJobType data, avgMatchScore parseFloat data with
  | some top, some avg =>
    some
      { totalJobs := data.length
        uniqueCompanies := uniqueCount (data.map (fun item => item.get "companyName".toList))
        topJobType := top
        uniqueCities := uniqueCount (data.map (fun item => item.get "city".toList))
        avgMatchScore := avg
        outreachReady := outreachReady data }
  | _, _ => none

/-! ### Table rendering -/

/-- The function `escapeHtml` of `app.js`: the text becomes the text content
of an element and is read back as `innerHTML`, which writes a text node with
`&`, `<`, `>` and the no-break space replaced by their entities. The empty
text gives the empty text. -/
def escapeHtml (text : Str) : Str :=
  text.flatMap fun c =>
    if c = '&' then "&amp;".toList
    else if c = '<' then "&lt;".toList
    else if c = '>' then "&gt;".toList
    else if c.toNat = 0xA0 then "&nbsp;".toList
    else [c]

/-- The function `truncateText`. -/
def truncateText (text : Str) (maxLength : Nat) : Str :=
  if text = [] then []
  else if utf16Length text ≤ maxLength then escapeHtml text
  else escapeHtml (substring maxLength text) ++ "...".toList

/-- The function `formatUrl`. -/
def formatUrl (url : Str) : Str :=
  if url = [] then []
  else
    let displayUrl := if utf16Length url > 30 then substring 30 url ++ "...".toList else url
    "<a href=\"".toList ++
    escapeHtml url ++
    "\" target=\"_blank\" rel=\"noopener noreferrer\">".toList ++
    escapeHtml displayUrl ++
    "</a>".toList

/-- The text that `renderExpandableCell` shows in the `truncated-text` block
of a long text: `escapedText.substring(0, maxLength)` followed by three
dots. -/
def displayedTruncation (text : Str) (maxLength : Nat) : Str :=
  substring maxLength (escapeHtml text) ++ "...".toList

/-- The block that `renderExpandableCell` returns for a long text, given the
escaped text and the truncation it displays (three dots included). -/
def expandableBlock (escapedText truncated : Str) : Str :=
  "\n        <div class=\"expandable-text\" title=\"Click to view full text\">\n            <div class=\"text-content\" style=\"display:none;\">".toList ++
    escapedText ++
    "</div>\n            <div class=\"truncated-text\">".toList ++
    truncated ++
    "</div>\n            <div class=\"expand-hint\">Click to expand</div>\n        </div>\n    ".toList

/-- The function `renderExpandableCell`. -/
def renderExpandableCell (text : Str) (maxLength : Nat) : Str :=
  if text = [] then []
  else if utf16Length text ≤ maxLength then escapeHtml text
  else expandableBlock (escapeHtml text) (displayedTruncation text maxLength)

/-- The expression `row.key || ''`. -/
def field (row : Record) (key : String) : Str := (row.get key.toList).getD []

/-- The table row that `renderTable` writes for a record. -/
def renderRow (row : Record) : Str :=
  "\n        <tr>\n            <td>".toList ++
  escapeHtml (field row "companyName") ++
  "</td>\n            <td>".toList ++
  escapeHtml (field row "jobType") ++
  "</td>\n            <td>".toList ++
  escapeHtml (field row "city") ++
  "</td>\n            <td class=\"wrap\">".toList ++
  renderExpandableCell (field row "jd") 100 ++
  "</td>\n            <td>".toList ++
  formatUrl (field row "companyJobUrl") ++
  "</td>\n            <td>".toList ++
  escapeHtml (field row "salary") ++
  "</td>\n            <td class=\"wrap\">".toList ++
  renderExpandableCell (field row "companyDescription") 80 ++
  "</td>\n            <td>".toList ++
  escapeHtml (field row "title") ++
  "</td>\n            <td>".toList ++
  escapeHtml (field row "matchScore") ++
  "</td>\n            <td>".toList ++
  formatUrl (field row "website") ++
  "</td>\n            <td>".toList ++
  escapeHtml (field row "decisionMakerEmail") ++
  "</td>\n            <td class=\"wrap outreach-cell\">\n                ".toList ++
  renderExpandableCell (field row "outreachEmailText") 100 ++
  "\n                <button class=\"btn-send-email\" title=\"Send Email\">Send</button>\n            </td>\n        </tr>\n    ".toList

/-- The parts of the page that `renderTable` writes, as a call leaves them. -/
structure Page where
  tableBody : Str
  emptyState : Str
  tableError : Str
  tableCount : Str
  deriving DecidableEq

/-- The function `renderTable`: the fields stand for
`elements.tableBody.innerHTML`, `elements.emptyState.style.display`,
`elements.tableError.style.display` and `elements.tableCount.textContent`. -/
def renderTable (data : List Record) : Page :=
  if data.length = 0 then
    { tableBody := [], emptyState := "block".toList, tableError := "none".toList,
      tableCount := "0 records".toList }
  else
    { tableBody := (data.map renderRow).flatten, emptyState := "none".toList,
      tableError := "none".toList,
      tableCount := numberText data.length ++ " records".toList }

end App

/-! ## Hiring-signal variant (`hiring-signals.js`) -/

namespace HiringSignals

/-- The first loop of `parseCSV`, from position `i` on: it cuts the text into
lines at the line feeds met outside double quotes. -/
def splitLines : List Char → Bool → Str → List Str → List Str
  | [], _, current, lines => if trim current ≠ [] then lines ++ [current] else lines
  | ch :: rest, inQuotes, current, lines =>
    if ch = '"' then splitLines rest (!inQuotes) (current ++ [ch]) lines
    else if ch = '\n' ∧ inQuotes = false then splitLines rest inQuotes [] (lines ++ [current])
    else splitLines rest inQuotes (current ++ [ch]) lines

/-- The loop of `parseCSVLine`, from position `i` on. -/
def scanLine : List Char → Bool → Str → List Str → List Str
  | [], _, current, result => result ++ [current]
  | ch :: rest, inQuotes, current, result =>
    if ch = '"' then
      match rest with
      | [] => scanLine [] (!inQuotes) current result
      | next :: rest2 =>
        if inQuotes = true ∧ next = '"' then scanLine rest2 inQuotes (current ++ ['"']) result
        else scanLine (next :: rest2) (!inQuotes) current result
    else if ch = ',' ∧ inQuotes = false then scanLine rest inQuotes [] (result ++ [current])
    else scanLine rest inQuotes (current ++ [ch]) result

/-- The function `parseCSVLine`. -/
def parseCSVLine (line : Str) : List Str := scanLine line false [] []

/-- The class `[a-z0-9]`, by code point. -/
def isSlugChar (c : Char) : Bool :=
  (97 ≤ c.toNat && c.toNat ≤ 122) || (48 ≤ c.toNat && c.toNat ≤ 57)

/-- The call `s.replace(/[^a-z0-9]+/g, '_')`; the flag records that the
previous character belonged to the run being replaced. -/
def replaceRuns : Bool → Str → Str
  | _, [] => []
  | inRun, c :: cs =>
    if isSlugChar c then c :: replaceRuns false cs
    else if inRun then replaceRuns true cs else '_' :: replaceRuns true cs

/-- Remove an underscore at the start of a text. -/
def dropUnderscore : Str → Str
  | [] => []
  | c :: rest => if c = '_' then rest else c :: rest

/-- The call `s.replace(/^_|_$/g, '')`: one underscore is removed at the
start, and one at the end of what is left. -/
def stripUnderscores (s : Str) : Str := (dropUnderscore (dropUnderscore s).reverse).reverse

/-- The key `h.trim().toLowerCase().replace(/[^a-z0-9]+/g, '_').replace(/^_|_$/g, '')`.
It never starts with an underscore, so it is never `__proto__`. -/
def slug (h : Str) : Str := stripUnderscores (replaceRuns false (toLowerCase (trim h)))

/-- The body of `headers.forEach((h, idx) => ...)`, from column `idx` on: the
value stored is `(values[idx] || '').trim()`. -/
def fillRow : Record → List Str → List Str → Record
  | row, [], _ => row
  | row, h :: headers, values =>
    fillRow (row.set (slug h) (trim (values.head?.getD []))) headers values.tail

/-- The function `parseCSV` of `hiring-signals.js`. Reading `line.length` on
`undefined` raises a `TypeError`. -/
def parseCSV (text : Str) : Except JSError (List Record) :=
  let lines := splitLines text false [] []
  if lines.length = 0 then .ok []
  else
    match lines[0]? with
    | none => .error .typeError
    | some headerLine =>
      let headers := parseCSVLine headerLine
      .ok (((lines.drop 1).filter (fun line => trim line ≠ [])).map
        (fun line => fillRow [] headers (parseCSVLine line)))

/-- The table `COLUMN_MAP` of `hiring-signals.js`: header slug (`csv`) and
field key (`key`), in column order. -/
def COLUMN_MAP : List (Str × Str) :=
  [("company_name", "companyName"),
   ("company_website", "companyWebsite"),
   ("funding_amount", "fundingAmount"),
   ("funding_date", "fundingDate"),
   ("company_size", "companySize"),
   ("industry", "industry"),
   ("company_description", "companyDescription"),
   ("target_decision_maker", "targetDecisionMaker"),
   ("contact_email", "contactEmail"),
   ("url_company_linkedin", "companyLinkedin"),
   ("comapany_recent_news", "companyRecentNews"),
   ("outreach_message", "outreachMessage"),
   ("predicted_hiring_score", "hiringScore"),
   ("hiring_impact_level", "impactLevel"),
   ("hiring_impact_type", "impactType"),
   ("senior_employee_linkedin_profile", "seniorLinkedin")].map
    (fun p => (p.1.toList, p.2.toList))

/-- The expression `raw[col.csv] || ''`: none of the sixteen slugs names an
inherited member, so a missing key reads as `undefined`. -/
def orEmpty (v : Option Str) : Str := v.getD []

/-- The function `mapRow`. -/
def mapRow (raw : Record) : Record :=
  COLUMN_MAP.foldl (fun mapped col => mapped.set col.2 (orEmpty (raw.get col.1))) []

/-! ### Table rendering -/

/-- The functions that the renderer takes from its environment: the host
functions `encodeURIComponent` and `parseFloat` (`none` for `NaN`), the text
of a number in a template literal, and the number of matches that the
regular expression of `parseEmployees` finds in a text. -/
structure Host where
  encodeURIComponent : Str → Str
  parseFloat : Str → Option ℚ
  numberString : ℚ → Str
  employeeCount : Str → Nat

/-- The function `escapeHtml` of `hiring-signals.js`: a dash for an empty
text, else the five replacements, which amount to replacing each character
on its own. -/
def escapeHtml (str : Str) : Str :=
  if str = [] then "-".toList
  else
    str.flatMap fun c =>
      if c = '&' then "&amp;".toList
      else if c = '<' then "&lt;".toList
      else if c = '>' then "&gt;".toList
      else if c = '"' then "&quot;".toList
      else if c.toNat = 0x27 then "&#039;".toList
      else [c]

/-- The function `isUrl`. -/
def isUrl (str : Str) : Bool :=
  "http://".toList.isPrefixOf str || "https://".toList.isPrefixOf str

/-- The function `renderViewButton`; an empty `email` stands for a missing or
empty argument. -/
def renderViewButton (host : Host) (content title label email : Str) : Str :=
  if content = [] ∨ content = "-".toList then "<span class=\"text-muted\">-</span>".toList
  else
    let emailAttr :=
      if email ≠ [] then
        "data-contact-email=\"".toList ++
      escapeHtml email ++
      "\"".toList
      else []
    "<button class=\"btn-view\" \n            data-full-text=\"".toList ++
      host.encodeURIComponent content ++
      "\" \n            data-modal-title=\"".toList ++
      title ++
      "\"\n            ".toList ++
      emailAttr ++
      ">".toList ++
      label ++
      "</button>".toList

/-- The function `renderUrlButton`. -/
def renderUrlButton (url label : Str) : Str :=
  if url = [] ∨ isUrl url = false then "<span class=\"text-muted\">-</span>".toList
  else
    "<a href=\"".toList ++
      escapeHtml url ++
      "\" target=\"_blank\" rel=\"noopener\" class=\"btn-url\">".toList ++
      label ++
      "</a>".toList

/-- The function `renderMatchScore`. -/
def renderMatchScore (host : Host) (score : Str) : Str :=
  if score = [] then []
  else
    match host.parseFloat score with
    | none => escapeHtml score
    | some numScore =>
      let colorClass :=
        if numScore ≥ 85 then "score-high".toList
        else if numScore ≥ 70 then "score-medium".toList
        else "score-low".toList
      "<span class=\"match-score-badge ".toList ++
        colorClass ++
        "\">".toList ++
        host.numberString numScore ++
        "%</span>".toList

/-- The short label that `renderCell` derives from an `impactLevel` value:
the text before a colon found at a position from 1 to 29, else the first
twenty code units and an ellipsis when the value is longer, else the
value. -/
def impactLabel (value : Str) : Str :=
  match indexOf ':' value with
  | some colonIndex =>
    if colonIndex > 0 ∧ colonIndex < 30 then trim (substring colonIndex value)
    else if utf16Length value > 20 then trim (substring 20 value) ++ [Char.ofNat 0x2026]
    else value
  | none =>
    if utf16Length value > 20 then trim (substring 20 value) ++ [Char.ofNat 0x2026]
    else value

/-- The function `renderCell`; an empty `value` stands for a missing or empty
field. -/
def renderCell (host : Host) (value key : Str) (row : Record) : Str :=
  if value = [] ∨ value = "-".toList then "<td class=\"hs-cell\">-</td>".toList
  else if key = "seniorLinkedin".toList then
    if host.employeeCount value > 0 then
      "<td class=\"hs-cell\">\n                    <button class=\"btn-view\" \n                        data-type=\"employees\"\n                        data-full-text=\"".toList ++
        host.encodeURIComponent value ++
        "\" \n                        data-modal-title=\"Senior Team (".toList ++
        numberText (host.employeeCount value) ++
        ")\">\n                        View Team (".toList ++
        numberText (host.employeeCount value) ++
        ")\n                    </button>\n                </td>".toList
    else
      "<td class=\"hs-cell\">\n                    <button class=\"btn-view\" \n                        data-type=\"raw\"\n                        data-full-text=\"".toList ++
        host.encodeURIComponent value ++
        "\" \n                        data-modal-title=\"Senior LinkedIn Profiles\">\n                        View Profiles\n                    </button>\n                </td>".toList
  else if key = "companyWebsite".toList then
    "<td class=\"hs-cell\">".toList ++ renderUrlButton value "Website".toList ++ "</td>".toList
  else if key = "companyLinkedin".toList then
    "<td class=\"hs-cell\">".toList ++ renderUrlButton value "LinkedIn".toList ++ "</td>".toList
  else if key = "contactEmail".toList then
    "<td class=\"hs-cell\"><a href=\"mailto:".toList ++
      escapeHtml value ++
      "\" class=\"hs-link\">".toList ++
      escapeHtml value ++
      "</a></td>".toList
  else if key = "companyDescription".toList then
    "<td class=\"hs-cell\">".toList ++
      renderViewButton host value "Company Description".toList "Info".toList [] ++
      "</td>".toList
  else if key = "companyRecentNews".toList then
    "<td class=\"hs-cell\">".toList ++
      renderViewButton host value "Recent News".toList "News".toList [] ++ "</td>".toList
  else if key = "hiringScore".toList then
    "<td class=\"hs-cell\">".toList ++ renderMatchScore host value ++ "</td>".toList
  else if key = "impactLevel".toList then
    "<td class=\"hs-cell\">".toList ++
      renderViewButton host value "Impact Details".toList (impactLabel value) [] ++
      "</td>".toList
  else if key = "outreachMessage".toList then
    let email := orEmpty (row.get "contactEmail".toList)
    let companyName := orEmpty (row.get "companyName".toList)
    let viewBtn := renderViewButton host value "Outreach Message".toList "Email".toList email
    let sendBtn :=
      if email ≠ [] then
        "<button class=\"btn-send-email\" \n                    data-email=\"".toList ++
        escapeHtml email ++
        "\" \n                    data-full-text=\"".toList ++
        host.encodeURIComponent value ++
        "\"\n                    data-company-name=\"".toList ++
        escapeHtml companyName ++
        "\"\n                    title=\"Send Email\">\n                    <svg width=\"12\" height=\"12\" viewBox=\"0 0 12 12\" fill=\"none\" xmlns=\"http://www.w3.org/2000/svg\">\n                        <path d=\"M1 3L6 6.5L11 3\" stroke=\"currentColor\" stroke-width=\"1.5\" stroke-linecap=\"round\"/>\n                        <rect x=\"1\" y=\"2\" width=\"10\" height=\"8\" rx=\"1\" stroke=\"currentColor\" stroke-width=\"1.5\"/>\n                    </svg>\n                    Send\n                </button>".toList
      else []
    "<td class=\"hs-cell\">\n                <div class=\"outreach-cell\">\n                    ".toList ++
      viewBtn ++
      "\n                    ".toList ++
      sendBtn ++
      "\n                </div>\n             </td>".toList
  else "<td class=\"hs-cell\">".toList ++ escapeHtml value ++ "</td>".toList

/-- The table row written for a record: one cell per column of
`COLUMN_MAP`, between `<tr>` and `</tr>`. -/
def renderRow (host : Host) (row : Record) : Str :=
  "<tr>".toList ++
    (COLUMN_MAP.map fun col => renderCell host (orEmpty (row.get col.2)) col.2 row).flatten ++
    "</tr>".toList

/-- The state of the view that `renderTable` and `applyFilter` write: the
markup assigned to `tbody.innerHTML`, the `display` styles of the empty-state
and error elements, the text of the record count, and the variable
`_allData`. The statistic cards that `updateStats` fills are not part of
it. -/
structure View where
  tableBody : Str
  emptyState : Str
  errorState : Str
  recordCount : Str
  allData : List Record

/-- The function `renderTable`, with the assignment `_allData = data` of
`updateStats`. -/
def renderTable (host : Host) (data : List Record) : View :=
  if data.length = 0 then
    { tableBody := [], emptyState := "block".toList, errorState := "none".toList,
      recordCount := "0 signals".toList, allData := [] }
  else
    { tableBody := (data.map (renderRow host)).flatten, emptyState := "none".toList,
      errorState := "none".toList,
      recordCount := numberText data.length ++ " signals".toList, allData := data }

/-- The test `r.f && r.f !== '-' && r.f.trim() !== ''` on a field. -/
def hasText (v : Option Str) : Bool :=
  match v with
  | some t => decide (t ≠ [] ∧ t ≠ "-".toList ∧ trim t ≠ [])
  | none => false

/-- The test `r.impactType && r.impactType.toLowerCase().includes('job')`. -/
def mentionsJob (v : Option Str) : Bool :=
  match v with
  | some t => decide (t ≠ []) && includes (toLowerCase t) "job".toList
  | none => false

/-- The records that `applyFilter` keeps for a filter name. -/
def filterRecords (filter : Str) (allData : List Record) : List Record :=
  if filter = "news".toList then
    allData.filter fun r => hasText (r.get "companyRecentNews".toList)
  else if filter = "funded".toList then
    allData.filter fun r => hasText (r.get "fundingAmount".toList)
  else if filter = "jobchange".toList then
    allData.filter fun r =>
      mentionsJob (r.get "impactType".toList) || hasText (r.get "seniorLinkedin".toList)
  else allData

/-- The function `applyFilter`. -/
def applyFilter (host : Host) (filter : Str) (view : View) : View :=
  if view.allData.length = 0 then view
  else
    let filtered := filterRecords filter view.allData
    { view with
      tableBody := (filtered.map (renderRow host)).flatten
      recordCount :=
        if filter = "all".toList then numberText filtered.length ++ " signals".toList
        else
          numberText filtered.length ++ " of ".toList ++ numberText view.allData.length ++
            " signals".toList }

end HiringSignals

/-! ## Reference descriptions used in the statements -/

/-- The distinct labels of a list in the order in which they are first met,
each with its number of occurrences in the list. -/
def firstEncounterCounts : List Str → List (Str × Nat)
  | [] => []
  | l :: ls => (l, ls.count l + 1) :: (firstEncounterCounts ls).filter (fun e => e.1 ≠ l)

/-- The position at which a label is first met in a list (the length of the
list when it does not occur). -/
def firstIndex (l : Str) : List Str → Nat
  | [] => 0
  | a :: rest => if a = l then 0 else firstIndex l rest + 1

/-- The label `top` occurs in the list, no label occurs more often, and every
label that occurs as often is first met at the same place or later. -/
def IsFirstMostFrequent (labels : List Str) (top : Str) : Prop :=
  top ∈ labels ∧ (∀ l ∈ labels, labels.count l ≤ labels.count top) ∧
  (∀ l ∈ labels, labels.count l = labels.count top → firstIndex top labels ≤ firstIndex l labels)

/-- A label that is safe as a key of the counting object: it is not an
array index and names no member of `Object.prototype`. -/
def PlainLabel (l : Str) : Prop := arrayIndex l = none ∧ l ∉ objectPrototypeKeys

instance (labels : List Str) (top : Str) : Decidable (IsFirstMostFrequent labels top) := by
  unfold IsFirstMostFrequent; infer_instance

instance (l : Str) : Decidable (PlainLabel l) := by
  unfold PlainLabel; infer_instance

/-- A field as a CSV writer emits it: its text, and whether it is written
between double quotes. -/
structure Cell where
  text : Str
  quoted : Bool
  deriving DecidableEq, Repr

/-- The characters a field written without quotes cannot hold. -/
def isSpecial (c : Char) : Bool := c = '"' || c = ',' || c = '\r' || c = '\n'

/-- A field is written correctly when it is quoted or holds no double quote,
comma, carriage return or line feed. -/
def Cell.WellFormed (c : Cell) : Prop := c.quoted = true ∨ ∀ ch ∈ c.text, isSpecial ch = false

instance (c : Cell) : Decidable c.WellFormed := by
  unfold Cell.WellFormed; infer_instance

/-- Double each double quote. -/
def escapeQuotes : Str → Str
  | [] => []
  | ch :: rest => if ch = '"' then '"' :: '"' :: escapeQuotes rest else ch :: escapeQuotes rest

/-- A field written by the CSV convention: each double quote doubled, the
result wrapped in double quotes. -/
def quoteField (s : Str) : Str := '"' :: (escapeQuotes s ++ ['"'])

/-- The text of one field. -/
def writeCell (c : Cell) : Str := if c.quoted then quoteField c.text else c.text

/-- The text of one row: its fields, separated by commas. -/
def writeRow : List Cell → Str
  | [] => []
  | c :: cs =>
    writeCell c ++
      (match cs with
       | [] => []
       | _ :: _ => ',' :: writeRow cs)

/-- The text of a table: its rows, separated by line feeds, with or without a
line feed after the last row. -/
def writeRows (finalLF : Bool) : List (List Cell) → Str
  | [] => []
  | row :: rows =>
    writeRow row ++
      (match rows with
       | [] => if finalLF then ['\n'] else []
       | _ :: _ => '\n' :: writeRows finalLF rows)

/-- A row is not blank when one of its fields holds more than white space. -/
def NonBlankRow (row : List Cell) : Prop := ∃ c ∈ row, trim c.text ≠ []

instance (row : List Cell) : Decidable (NonBlankRow row) := by
  unfold NonBlankRow; infer_instance

/-- A row that the parser emits: it has a field, and is not a single empty
field. -/
def VisibleRow (row : List Cell) : Prop := row.map Cell.text ≠ [] ∧ row.map Cell.text ≠ [[]]

/-- The first field of a text as it is after the byte-order mark has been
removed from the text: only an unquoted field can lose a leading mark. -/
def cellAfterBOM (c : Cell) : Cell := if c.quoted then c else ⟨App.stripBOM c.text, false⟩

/-- The header row once the parser has removed a leading byte-order mark. -/
def headerAfterBOM : List Cell → List Cell
  | [] => []
  | c :: cs => cellAfterBOM c :: cs

/-- The byte-order mark U+FEFF. -/
def byteOrderMark : Char := Char.ofNat 0xFEFF

/-- The text in which every line feed is replaced by carriage return, line
feed. -/
def lfToCrlf : Str → Str
  | [] => []
  | c :: cs => if c = '\n' then '\r' :: '\n' :: lfToCrlf cs else c :: lfToCrlf cs

/-- The text in which every line feed is replaced by a carriage return. -/
def lfToCr : Str → Str
  | [] => []
  | c :: cs => if c = '\n' then '\r' :: lfToCr cs else c :: lfToCr cs

/-- The text that current engines print for a member inherited from
`Object.prototype`: `[object Object]` for the prototype object read through
`__proto__`, and the native-function text for the built-in functions, of
which `constructor` is the function named `Object`. -/
def engineText (name : Str) : Str :=
  if name = "__proto__".toList then "[object Object]".toList
  else if name = "constructor".toList then
    "function Object() \x7b [native code] \x7d".toList
  else "function ".toList ++ name ++ "() \x7b [native code] \x7d".toList

/-- No two neighbours are both underscores. -/
def NoDoubleUnderscore (s : Str) : Prop := List.Chain' (fun a b => ¬ (a = '_' ∧ b = '_')) s

/-- The shape of a slug: only `a-z`, `0-9` and underscore, no underscore at
either end, no two underscores in a row. -/
def SlugForm (s : Str) : Prop :=
  (∀ c ∈ s, HiringSignals.isSlugChar c = true ∨ c = '_') ∧
  s.head? ≠ some '_' ∧ s.getLast? ≠ some '_' ∧ ¬ ['_', '_'] <:+: s

/-- The five role categories, in the order of the `categories` object. -/
def roleLabels : List Str :=
  ["SEO", "Software Engineer", "Backend", "Founding Engineer", "Other"].map String.toList

/-- The category of a lower-cased title: the first of SEO, Software Engineer,
Backend and Founding Engineer whose keyword occurs in it, and Other when none
occurs. -/
def roleCategory (title : Str) : Str :=
  if includes title "seo".toList then "SEO".toList
  else if includes title "software engineer".toList || includes title "swe".toList then
    "Software Engineer".toList
  else if includes title "backend".toList then "Backend".toList
  else if includes title "founding engineer".toList then "Founding Engineer".toList
  else "Other".toList

/-- The text with each word capitalised, character by character: the first
character of a word in upper case and its other characters in lower case.
The test `isSep` tells the characters that separate words, which are kept as
they are, and the flag tells whether the next character starts a word. -/
def capitalizeWords (host : App.CaseHost) (isSep : Char → Bool) : Bool → Str → Str
  | _, [] => []
  | atStart, c :: cs =>
    (if isSep c then [c]
      else if atStart then host.toUpperCase [c] else host.toLowerCase [c])
      ++ capitalizeWords host isSep (isSep c) cs

/-- Two characters that differ at most in letter case: they are equal, or
they are two characters of the Basic Multilingual Plane, neither of them
white space, with the same upper-case form and the same lower-case form. -/
def CaseVariant (host : App.CaseHost) (c d : Char) : Prop :=
  c = d ∨ (isWhiteSpace c = false ∧ isWhiteSpace d = false ∧
    c.toNat < 0x10000 ∧ d.toNat < 0x10000 ∧
    host.toUpperCase [c] = host.toUpperCase [d] ∧
    host.toLowerCase [c] = host.toLowerCase [d])

instance (host : App.CaseHost) (c d : Char) : Decidable (CaseVariant host c d) := by
  unfold CaseVariant
  infer_instance

/-- Two texts that differ only in letter case, character by character. -/
def SameUpToCase (host : App.CaseHost) (a b : Str) : Prop :=
  List.Forall₂ (CaseVariant host) a b

/-- The lower-case conversion does not tell apart two texts that differ only
in letter case. -/
def LowerCaseBlind (host : App.CaseHost) : Prop :=
  ∀ s t, SameUpToCase host s t → host.toLowerCase s = host.toLowerCase t

/-- The number of places at which a text occurs in another. -/
def countOccurrences (needle : Str) : Str → Nat
  | [] => if needle = [] then 1 else 0
  | c :: cs => (if needle.isPrefixOf (c :: cs) then 1 else 0) + countOccurrences needle cs

/-- The text made of the given lines: consecutive lines are separated by one
line feed. -/
def joinLines : List Str → Str
  | [] => []
  | [l] => l
  | l :: l2 :: ls => l ++ '\n' :: joinLines (l2 :: ls)

/-- A line is blank when it is empty or holds white space only. -/
def isBlank (line : Str) : Bool := trim line = []

/-- The lines that the first loop of the hiring-signal parser collects from
the lines `l :: ls` of a text: all of them, except a blank last one. -/
def collectedLines : Str → List Str → List Str
  | l, [] => if trim l ≠ [] then [l] else []
  | l, l2 :: ls => l :: collectedLines l2 ls

/-- A sample host `parseFloat`, for the decimal numerals of binary64 numbers
(such as the integers up to `2 ^ 53`): the value of the digits, and `NaN` for
a text that is no decimal numeral. -/
def parseDigits (text : Str) : Option ℚ :=
  if text ≠ [] ∧ text.all Char.isDigit then
    some ((text.foldl (fun n d => 10 * n + (d.toNat - 48)) 0 : Nat) : ℚ)
  else none

/-! ## Sample data -/

/-- A record written with string literals. -/
def mkRecord (fields : List (String × String)) : Record :=
  fields.map (fun p => (p.1.toList, p.2.toList))

/-- A record of the general variant. -/
def sampleItem : Record :=
  mkRecord [("companyName", "Acme"), ("title", "Eng"), ("outreachEmailText", "Hi")]

/-- A second record of the general variant. -/
def sampleItem2 : Record :=
  mkRecord [("companyName", "Globex"), ("title", "SEO Lead"), ("outreachEmailText", "Dear")]

/-- An overlay with one entry, which overrides one field of `sampleItem`. -/
def sampleEdits : JSObj Record :=
  [("Acme|Eng".toList, mkRecord [("outreachEmailText", "Hello")])]

/-- Overlay entries under keys that match neither sample record. -/
def sampleExtra : List (Str × Record) :=
  [("Initech|CTO".toList, mkRecord [("title", "Chief")]),
   ("Acme|Ops".toList, mkRecord [("jd", "none")])]

/-- Records that carry only a job type. -/
def jobTypeData (types : List String) : List Record :=
  types.map (fun type => mkRecord [("jobType", type)])

/-- An unquoted field. -/
def plain (text : String) : Cell := ⟨text.toList, false⟩

/-- A quoted field. -/
def quoted (text : String) : Cell := ⟨text.toList, true⟩

/-- Records that carry only a match score. -/
def scoreData (scores : List String) : List Record :=
  scores.map (fun score => mkRecord [("matchScore", score)])

/-- A sample environment of the hiring-signal renderer. -/
def sampleHost : HiringSignals.Host :=
  { encodeURIComponent := fun text => text
    parseFloat := parseDigits
    numberString := fun _ => []
    employeeCount := fun _ => 0 }

/-- Two hiring-signal records, the second without recent news. -/
def sampleSignals : List Record :=
  [mkRecord [("companyName", "Acme"), ("companyRecentNews", "Raised a round")],
   mkRecord [("companyName", "Globex"), ("companyRecentNews", "-")]]

/-- A text of 81 characters with an ampersand at position 78. -/
def longText : Str := List.replicate 78 'a' ++ "&bc".toList

/-- A source with one record. -/
def driftSource : List Record := [mkRecord [("companyName", "A"), ("title", "X")]]

/-- An overlay whose entry for the record of `driftSource` overrides the
title, and with it the composite key of the merged record. -/
def driftEdits : JSObj Record := [("A|X".toList, mkRecord [("title", "Y")])]

/-- The table body for the one record whose `impactLevel` is
`</td></tr><tr><td>:x`, up to the encoded value. -/
def rowBreakerBefore : Str :=
  "<tr>".toList ++ (List.replicate 13 "<td class=\"hs-cell\">-</td>".toList).flatten ++
    "<td class=\"hs-cell\"><button class=\"btn-view\" \n            data-full-text=\"".toList

/-- The table body for the same record, after the encoded value. -/
def rowBreakerAfter : Str :=
  "\" \n            data-modal-title=\"Impact Details\"\n            >".toList ++
    "</td></tr><tr><td>".toList ++ "</button></td>".toList ++
    (List.replicate 2 "<td class=\"hs-cell\">-</td>".toList).flatten ++ "</tr>".toList

/-- The upper-case conversion of text in Basic Latin and Latin-1 Supplement:
`a-z` and the letters U+00E0 to U+00FE (the division sign U+00F7 apart) move
32 code points down, the sharp s U+00DF becomes `SS`, U+00FF becomes U+0178
and the micro sign U+00B5 becomes U+039C. -/
def latinUpperCase (s : Str) : Str :=
  s.flatMap fun c =>
    if (97 ≤ c.toNat ∧ c.toNat ≤ 122) ∨
        (0xE0 ≤ c.toNat ∧ c.toNat ≤ 0xFE ∧ c.toNat ≠ 0xF7) then
      [Char.ofNat (c.toNat - 32)]
    else if c.toNat = 0xDF then ['S', 'S']
    else if c.toNat = 0xFF then [Char.ofNat 0x178]
    else if c.toNat = 0xB5 then [Char.ofNat 0x39C]
    else [c]

/-- The lower-case conversion of text in Basic Latin and Latin-1 Supplement:
`A-Z` and the letters U+00C0 to U+00DE (the multiplication sign U+00D7
apart) move 32 code points up. -/
def latinLowerCase (s : Str) : Str :=
  s.flatMap fun c =>
    if (65 ≤ c.toNat ∧ c.toNat ≤ 90) ∨
        (0xC0 ≤ c.toNat ∧ c.toNat ≤ 0xDE ∧ c.toNat ≠ 0xD7) then
      [Char.ofNat (c.toNat + 32)]
    else [c]

/-- A sample of the case conversions: what the engine returns on text of
Basic Latin and Latin-1 Supplement characters. -/
def latinCase : App.CaseHost :=
  { toUpperCase := latinUpperCase
    toLowerCase := latinLowerCase }

/-! ## Theorems -/

/-! ### Reading and writing properties -/

namespace JSObj

variable {α : Type}

theorem get_replace_self (o : JSObj α) (k : Str) (v w : α) (h : get o k = some w) :
    get (replace o k v) k = some v := by
  induction o with
  | nil => simp [get] at h
  | cons p rest ih =>
    obtain ⟨k1, v1⟩ := p
    by_cases hk : k1 = k
    · simp [replace, get, hk]
    · simp only [get, hk, if_false] at h
      simp [replace, get, hk, ih h]

theorem get_replace_other (o : JSObj α) (k k2 : Str) (v : α) (h : k2 ≠ k) :
    get (replace o k v) k2 = get o k2 := by
  induction o with
  | nil => simp [replace]
  | cons p rest ih =>
    obtain ⟨k1, v1⟩ := p
    by_cases hk : k1 = k
    · subst hk
      simp [replace, get, Ne.symm h]
    · by_cases hk2 : k1 = k2
      · subst hk2
        simp [replace, get, hk]
      · simp [replace, get, hk, hk2, ih]

theorem get_insertIndex_self (n : Nat) (o : JSObj α) (k : Str) (v : α) (h : get o k = none) :
    get (insertIndex n k v o) k = some v := by
  induction o with
  | nil => simp [insertIndex, get]
  | cons p rest ih =>
    obtain ⟨k1, v1⟩ := p
    by_cases hk : k1 = k
    · simp [get, hk] at h
    · simp only [get, hk, if_false] at h
      simp only [insertIndex]
      split
      · split
        · simp [get, hk, ih h]
        · simp [get]
      · simp [get]

theorem get_insertIndex_other (n : Nat) (o : JSObj α) (k k2 : Str) (v : α) (h : k2 ≠ k) :
    get (insertIndex n k v o) k2 = get o k2 := by
  induction o with
  | nil => simp [insertIndex, get, Ne.symm h]
  | cons p rest ih =>
    obtain ⟨k1, v1⟩ := p
    simp only [insertIndex]
    split
    · split
      · by_cases hk2 : k1 = k2
        · simp [get, hk2]
        · simp [get, hk2, ih]
      · simp [get, Ne.symm h]
    · simp [get, Ne.symm h]

theorem get_append_self (o : JSObj α) (k : Str) (v : α) (h : get o k = none) :
    get (o ++ [(k, v)]) k = some v := by
  induction o with
  | nil => simp [get]
  | cons p rest ih =>
    obtain ⟨k1, v1⟩ := p
    by_cases hk : k1 = k
    · simp [get, hk] at h
    · simp only [get, hk, if_false] at h
      simp [get, hk, ih h]

theorem get_append_other (o : JSObj α) (k k2 : Str) (v : α) (h : k2 ≠ k) :
    get (o ++ [(k, v)]) k2 = get o k2 := by
  induction o with
  | nil => simp [get, Ne.symm h]
  | cons p rest ih =>
    obtain ⟨k1, v1⟩ := p
    by_cases hk2 : k1 = k2
    · simp [get, hk2]
    · simp [get, hk2, ih]

theorem get_set_self (o : JSObj α) (k : Str) (v : α) : get (set o k v) k = some v := by
  unfold set
  cases h : get o k with
  | some w => exact get_replace_self o k v w h
  | none =>
    cases arrayIndex k with
    | some n => exact get_insertIndex_self n o k v h
    | none => exact get_append_self o k v h

theorem get_set_other (o : JSObj α) (k k2 : Str) (v : α) (h : k2 ≠ k) :
    get (set o k v) k2 = get o k2 := by
  unfold set
  cases get o k with
  | some w => exact get_replace_other o k k2 v h
  | none =>
    cases arrayIndex k with
    | some n => exact get_insertIndex_other n o k k2 v h
    | none => exact get_append_other o k k2 v h

/-- Assigning a list of properties one after the other leaves every key
outside the list as it was. -/
theorem get_foldl_set_other (b : List (Str × α)) (o : JSObj α) (k2 : Str)
    (h : ∀ kv ∈ b, kv.1 ≠ k2) :
    get (b.foldl (fun o kv => set o kv.1 kv.2) o) k2 = get o k2 := by
  induction b generalizing o with
  | nil => rfl
  | cons kv rest ih =>
    simp only [List.foldl_cons]
    rw [ih _ (fun kv2 hkv2 => h kv2 (List.mem_cons_of_mem _ hkv2))]
    exact get_set_other o kv.1 k2 kv.2 (Ne.symm (h kv (List.mem_cons_self _ _)))

end JSObj

/-! ### Overlay merge and edits -/

/-- C6: in the overlay merge, a record whose composite key has an overlay
entry overriding exactly one field is merged into a record that holds the
overlay value for that field and agrees with the base record on every other
field. -/
theorem mergeLocalEdits_one_field (localEdits : JSObj Record) (data : List Record) (i : Nat)
    (item : Record) (k v : Str) (hitem : data[i]? = some item)
    (hentry : localEdits.get (App.editKey item) = some [(k, v)]) :
    ∃ merged, (App.mergeLocalEdits localEdits data)[i]? = some merged ∧
      merged.get k = some v ∧ ∀ k2, k2 ≠ k → merged.get k2 = item.get k2 := by
  refine ⟨item.set k v, ?_, JSObj.get_set_self item k v,
    fun k2 hk2 => JSObj.get_set_other item k k2 v hk2⟩
  simp [App.mergeLocalEdits, hitem, App.mergeItem, hentry, JSObj.spread]

/-- C7: the overlay merge keeps length and order, passes a record without
overlay entry through unchanged, and is not affected by overlay entries added
under keys that match no record of the dataset. -/
theorem mergeLocalEdits_frame (localEdits : JSObj Record) (data : List Record)
    (extra : List (Str × Record))
    (hextra : ∀ e ∈ extra, ∀ item ∈ data, e.1 ≠ App.editKey item) :
    (App.mergeLocalEdits localEdits data).length = data.length ∧
    (∀ (i : Nat) (item : Record), data[i]? = some item →
      ∃ merged, (App.mergeLocalEdits localEdits data)[i]? = some merged ∧
        merged = App.mergeItem localEdits item ∧
        (localEdits.get (App.editKey item) = none → merged = item)) ∧
    App.mergeLocalEdits (extra.foldl (fun o e => o.set e.1 e.2) localEdits) data
      = App.mergeLocalEdits localEdits data := by
  refine ⟨by simp [App.mergeLocalEdits], ?_, ?_⟩
  · intro i item hitem
    refine ⟨App.mergeItem localEdits item, by simp [App.mergeLocalEdits, hitem], rfl, ?_⟩
    intro hnone
    simp [App.mergeItem, hnone]
  · unfold App.mergeLocalEdits
    apply List.map_congr_left
    intro item hmem
    unfold App.mergeItem
    rw [JSObj.get_foldl_set_other extra localEdits (App.editKey item)
      (fun e he => hextra e he item hmem)]

/-- C8 (as amended): for a valid index and a non-empty field key other than
`__proto__`, `saveChanges` sets the field of the record and of the overlay
entry under the record's composite key (taken before the edit, created when
absent) and leaves every other field, record and overlay entry as it was;
for index -1 or an empty key it changes nothing. -/
theorem saveChanges_frame (st : App.State) (i : Nat) (item : Record) (k v : Str)
    (hitem : st.sheetData[i]? = some item) (hk : k ≠ [])
    (hproto : k ≠ "__proto__".toList) :
    (∃ st2 item2 entry2, App.saveChanges st (i : Int) k v = .ok st2 ∧
      st2.sheetData.length = st.sheetData.length ∧
      st2.sheetData[i]? = some item2 ∧ item2.get k = some v ∧
      (∀ k2, k2 ≠ k → item2.get k2 = item.get k2) ∧
      (∀ j : Nat, j ≠ i → st2.sheetData[j]? = st.sheetData[j]?) ∧
      st2.localEdits.get (App.editKey item) = some entry2 ∧ entry2.get k = some v ∧
      (∀ k2, k2 ≠ k →
        entry2.get k2 = ((st.localEdits.get (App.editKey item)).getD []).get k2) ∧
      (∀ key, key ≠ App.editKey item → st2.localEdits.get key = st.localEdits.get key)) ∧
    (∀ (dataIndex : Int) (columnKey : Str), dataIndex = -1 ∨ columnKey = [] →
      App.saveChanges st dataIndex columnKey v = .ok st) := by
  constructor
  · have hi : i < st.sheetData.length := by
      rcases List.getElem?_eq_some.mp hitem with ⟨h, _⟩
      exact h
    have hne : ((i : Nat) : Int) ≠ -1 := by omega
    have hat : App.itemAt st.sheetData (i : Int) = some item := by
      simp [App.itemAt, hitem]
    have hassign : ∀ o : Record, assignText o k v = o.set k v := fun o => by
      unfold assignText
      rw [if_neg hproto]
    cases hold : st.localEdits.get (App.editKey item) with
    | none =>
      refine ⟨⟨st.sheetData.set i (item.set k v),
        (st.localEdits.set (App.editKey item) []).set (App.editKey item)
          (JSObj.set ([] : Record) k v)⟩, item.set k v, JSObj.set ([] : Record) k v,
        ?_, ?_, ?_, JSObj.get_set_self item k v,
        fun k2 hk2 => JSObj.get_set_other item k k2 v hk2, ?_, ?_,
        JSObj.get_set_self [] k v, ?_, ?_⟩
      · simp only [App.saveChanges, hne, hk, ne_eq, not_false_eq_true, and_self, if_true, hat,
          hold, JSObj.get_set_self, Option.getD_some, Int.toNat_ofNat, hassign]
      · simp
      · simp [hi]
      · intro j hj
        simp [List.getElem?_set_ne (Ne.symm hj)]
      · simp [JSObj.get_set_self]
      · intro k2 hk2
        simpa using JSObj.get_set_other ([] : Record) k k2 v hk2
      · intro key hkey
        simp [JSObj.get_set_other _ _ key _ hkey]
    | some entry =>
      refine ⟨⟨st.sheetData.set i (item.set k v),
        st.localEdits.set (App.editKey item) (entry.set k v)⟩, item.set k v, entry.set k v,
        ?_, ?_, ?_, JSObj.get_set_self item k v,
        fun k2 hk2 => JSObj.get_set_other item k k2 v hk2, ?_, ?_,
        JSObj.get_set_self entry k v, ?_, ?_⟩
      · simp only [App.saveChanges, hne, hk, ne_eq, not_false_eq_true, and_self, if_true, hat,
          hold, Option.getD_some, Int.toNat_ofNat, hassign]
      · simp
      · simp [hi]
      · intro j hj
        simp [List.getElem?_set_ne (Ne.symm hj)]
      · simp [JSObj.get_set_self]
      · intro k2 hk2
        simp [JSObj.get_set_other _ k k2 v hk2]
      · intro key hkey
        simp [JSObj.get_set_other _ _ key _ hkey]
  · intro dataIndex columnKey h
    rcases h with h | h
    · simp [App.saveChanges, h]
    · simp [App.saveChanges, h]

theorem mergeLocalEdits_one_field_witness :
    [sampleItem2, sampleItem][1]? = some sampleItem ∧
    sampleEdits.get (App.editKey sampleItem)
      = some [("outreachEmailText".toList, "Hello".toList)] ∧
    ∃ merged, (App.mergeLocalEdits sampleEdits [sampleItem2, sampleItem])[1]? = some merged ∧
      merged.get "outreachEmailText".toList = some "Hello".toList ∧
      ∀ k2, k2 ≠ "outreachEmailText".toList → merged.get k2 = sampleItem.get k2 :=
  ⟨by decide, by decide,
    mergeLocalEdits_one_field sampleEdits [sampleItem2, sampleItem] 1 sampleItem
      "outreachEmailText".toList "Hello".toList (by decide) (by decide)⟩

theorem mergeLocalEdits_frame_witness :
    (∀ e ∈ sampleExtra, ∀ item ∈ [sampleItem2, sampleItem], e.1 ≠ App.editKey item) ∧
    App.mergeLocalEdits (sampleExtra.foldl (fun o e => o.set e.1 e.2) sampleEdits)
        [sampleItem2, sampleItem]
      = App.mergeLocalEdits sampleEdits [sampleItem2, sampleItem] :=
  ⟨by decide,
    (mergeLocalEdits_frame sampleEdits [sampleItem2, sampleItem] sampleExtra (by decide)).2.2⟩

theorem saveChanges_frame_witness :
    [sampleItem2, sampleItem][1]? = some sampleItem ∧ "jd".toList ≠ [] ∧
    "jd".toList ≠ "__proto__".toList ∧
    ∃ st2 item2 entry2,
      App.saveChanges ⟨[sampleItem2, sampleItem], sampleEdits⟩ ((1 : Nat) : Int) "jd".toList
        "New text".toList = .ok st2 ∧
      st2.sheetData[1]? = some item2 ∧ item2.get "jd".toList = some "New text".toList ∧
      st2.localEdits.get (App.editKey sampleItem) = some entry2 ∧
      entry2.get "jd".toList = some "New text".toList :=
  ⟨by decide, by decide, by decide, by
    obtain ⟨⟨st2, item2, entry2, h1, _, h3, h4, _, _, h7, h8, _⟩, _⟩ :=
      saveChanges_frame ⟨[sampleItem2, sampleItem], sampleEdits⟩ 1 sampleItem "jd".toList
        "New text".toList (by decide) (by decide) (by decide)
    exact ⟨st2, item2, entry2, h1, h3, h4, h7, h8⟩⟩

/-- C8 (counterexample): for the field key `__proto__` the two assignments of
`saveChanges` are ignored: the record has no field `__proto__` afterwards, it
is as it was, and the overlay is as it was. -/
theorem saveChanges_proto_ignored :
    ∃ st2, App.saveChanges ⟨[sampleItem], sampleEdits⟩ 0 "__proto__".toList "v".toList
        = .ok st2 ∧
      st2.sheetData = [sampleItem] ∧
      st2.sheetData.map (fun r => r.get "__proto__".toList) = [none] ∧
      st2.localEdits = sampleEdits :=
  ⟨_, rfl, by decide, by decide, by decide⟩

/-! ### Counting labels -/

theorem JSObj.get_eq_none_iff {α : Type} (o : JSObj α) (k : Str) :
    JSObj.get o k = none ↔ k ∉ JSObj.keys o := by
  induction o with
  | nil => simp [JSObj.get, JSObj.keys]
  | cons p rest ih =>
    obtain ⟨k1, v1⟩ := p
    by_cases hk : k1 = k
    · subst hk
      simp only [JSObj.get, if_true, JSObj.keys, List.map_cons, List.mem_cons, true_or,
        not_true_eq_false, reduceCtorEq]
    · have hk2 : ¬ k = k1 := fun h => hk h.symm
      simp only [JSObj.keys] at ih
      simp only [JSObj.get, hk, if_false, ih, JSObj.keys, List.map_cons, List.mem_cons, hk2,
        false_or]

theorem JSObj.keys_replace {α : Type} (o : JSObj α) (k : Str) (v : α) :
    JSObj.keys (JSObj.replace o k v) = JSObj.keys o := by
  induction o with
  | nil => rfl
  | cons p rest ih =>
    obtain ⟨k1, v1⟩ := p
    by_cases hk : k1 = k
    · subst hk
      simp only [JSObj.replace, if_true, JSObj.keys, List.map_cons]
    · simp only [JSObj.keys] at ih
      simp only [JSObj.replace, hk, if_false, JSObj.keys, List.map_cons, ih]

theorem JSObj.keys_insertIndex_perm {α : Type} (n : Nat) (o : JSObj α) (k : Str) (v : α) :
    (JSObj.keys (JSObj.insertIndex n k v o)).Perm (k :: JSObj.keys o) := by
  induction o with
  | nil => exact List.Perm.refl _
  | cons q rest ih =>
    obtain ⟨k1, v1⟩ := q
    simp only [JSObj.insertIndex]
    split
    · split
      · simp only [JSObj.keys, List.map_cons] at ih ⊢
        exact (List.Perm.cons k1 ih).trans (List.Perm.swap k k1 _)
      · exact List.Perm.refl _
    · exact List.Perm.refl _

theorem JSObj.keys_set_perm {α : Type} (o : JSObj α) (k : Str) (v : α)
    (hget : JSObj.get o k = none) :
    (JSObj.keys (JSObj.set o k v)).Perm (k :: JSObj.keys o) := by
  unfold JSObj.set
  simp only [hget]
  cases hidx : arrayIndex k with
  | some n => exact JSObj.keys_insertIndex_perm n o k v
  | none =>
    simp only [JSObj.keys, List.map_append, List.map_cons, List.map_nil]
    exact List.perm_append_singleton k _

theorem JSObj.keys_set_nodup {α : Type} (o : JSObj α) (k : Str) (v : α)
    (hnd : (JSObj.keys o).Nodup) : (JSObj.keys (JSObj.set o k v)).Nodup := by
  cases hget : JSObj.get o k with
  | some w =>
    unfold JSObj.set
    simp only [hget, JSObj.keys_replace]
    exact hnd
  | none =>
    rw [(JSObj.keys_set_perm o k v hget).nodup_iff, List.nodup_cons]
    exact ⟨(JSObj.get_eq_none_iff o k).mp hget, hnd⟩

theorem JSObj.mem_keys_iff {α : Type} (o : JSObj α) (k : Str) :
    k ∈ JSObj.keys o ↔ ∃ v, JSObj.get o k = some v := by
  constructor
  · intro h
    cases hget : JSObj.get o k with
    | none => exact absurd h ((JSObj.get_eq_none_iff o k).mp hget)
    | some v => exact ⟨v, rfl⟩
  · rintro ⟨v, hv⟩
    by_contra h
    rw [← JSObj.get_eq_none_iff] at h
    rw [h] at hv
    cases hv

theorem JSObj.get_of_mem {α : Type} (o : JSObj α) (hnd : (JSObj.keys o).Nodup) (p : Str × α)
    (hp : p ∈ o) : JSObj.get o p.1 = some p.2 := by
  induction o with
  | nil => cases hp
  | cons q rest ih =>
    obtain ⟨k1, v1⟩ := q
    simp only [JSObj.keys, List.map_cons, List.nodup_cons] at hnd
    rcases List.mem_cons.mp hp with h | h
    · subst h
      simp [JSObj.get]
    · have hne : k1 ≠ p.1 := by
        intro heq
        exact hnd.1 (heq ▸ List.mem_map_of_mem Prod.fst h)
      simp only [JSObj.get, hne, if_false]
      exact ih hnd.2 h

/-- With distinct keys, raising the count of a label that is present amounts
to counting one more occurrence of it. -/
theorem replace_map_count (ls : List Str) (l : Str) (acc : JSObj Nat) (n : Nat)
    (hnd : (JSObj.keys acc).Nodup) (hget : JSObj.get acc l = some n) :
    (JSObj.replace acc l (n + 1)).map (fun e => (e.1, e.2 + ls.count e.1))
      = acc.map (fun e => (e.1, e.2 + (l :: ls).count e.1)) := by
  induction acc with
  | nil => simp [JSObj.get] at hget
  | cons p rest ih =>
    obtain ⟨k1, v1⟩ := p
    simp only [JSObj.keys, List.map_cons, List.nodup_cons] at hnd
    by_cases hk : k1 = l
    · subst hk
      simp only [JSObj.get, if_true, Option.some.injEq] at hget
      subst hget
      simp only [JSObj.replace, if_true, List.map_cons, List.count_cons_self]
      congr 1
      · simp only [Prod.mk.injEq, true_and]; omega
      · apply List.map_congr_left
        intro e he
        have hne : e.1 ≠ k1 := by
          intro h
          exact hnd.1 (h ▸ List.mem_map_of_mem Prod.fst he)
        simp [List.count_cons_of_ne hne]
    · simp only [JSObj.get, hk, if_false] at hget
      simp only [JSObj.replace, hk, if_false, List.map_cons]
      congr 1
      · simp [List.count_cons_of_ne hk]
      · exact ih hnd.2 hget

theorem countLabel_plain (acc : JSObj Nat) (l : Str) (hl : PlainLabel l) :
    App.countLabel acc l = some (match JSObj.get acc l with
      | some n => JSObj.replace acc l (n + 1)
      | none => acc ++ [(l, 1)]) := by
  obtain ⟨hidx, hproto⟩ := hl
  have hne : l ≠ "__proto__".toList := by
    intro h
    apply hproto
    rw [h]
    decide
  unfold App.countLabel
  cases hget : JSObj.get acc l with
  | some n => simp [JSObj.set, hget]
  | none =>
    simp only [JSObj.set, hget, hidx, hproto, if_false]
    rw [if_neg hne]

/-- The reducer, started from any accumulator with distinct keys, adds the
occurrences of each label it already holds and appends the new labels in order
of first encounter. -/
theorem countLabels_eq (ls : List Str) (acc : JSObj Nat) (hnd : (JSObj.keys acc).Nodup)
    (hplain : ∀ l ∈ ls, PlainLabel l) :
    App.countLabels acc ls
      = some (acc.map (fun e => (e.1, e.2 + ls.count e.1))
          ++ (firstEncounterCounts ls).filter (fun e => e.1 ∉ JSObj.keys acc)) := by
  induction ls generalizing acc with
  | nil => simp [App.countLabels, firstEncounterCounts]
  | cons l ls ih =>
    have hl := hplain l (List.mem_cons_self _ _)
    have hrest : ∀ x ∈ ls, PlainLabel x := fun x hx => hplain x (List.mem_cons_of_mem _ hx)
    simp only [App.countLabels, countLabel_plain acc l hl]
    cases hget : JSObj.get acc l with
    | some n =>
      have hmem : l ∈ JSObj.keys acc := by
        by_contra h
        rw [← JSObj.get_eq_none_iff] at h
        simp [h] at hget
      simp only []
      rw [ih _ (by rw [JSObj.keys_replace]; exact hnd) hrest, replace_map_count ls l acc n hnd hget,
        JSObj.keys_replace]
      congr 2
      simp only [firstEncounterCounts, List.filter_cons, hmem, not_true_eq_false, decide_False,
        List.filter_filter]
      simp only [Bool.false_eq_true, if_false]
      apply List.filter_congr
      intro e _
      by_cases he : e.1 ∈ JSObj.keys acc
      · simp [he]
      · have : e.1 ≠ l := fun h => he (h ▸ hmem)
        simp [he, this]
    | none =>
      have hmem : l ∉ JSObj.keys acc := (JSObj.get_eq_none_iff acc l).mp hget
      have hnd2 : (JSObj.keys (acc ++ [(l, 1)])).Nodup := by
        simp only [JSObj.keys, List.map_append, List.map_cons, List.map_nil]
        simp only [JSObj.keys] at hnd hmem
        rw [List.nodup_append]
        refine ⟨hnd, List.nodup_singleton _, ?_⟩
        intro a ha hb
        simp only [List.mem_singleton] at hb
        exact hmem (hb ▸ ha)
      simp only []
      rw [ih _ hnd2 hrest]
      have hmap : acc.map (fun e => (e.1, e.2 + ls.count e.1))
          = acc.map (fun e => (e.1, e.2 + (l :: ls).count e.1)) := by
        apply List.map_congr_left
        intro e he
        have hne : e.1 ≠ l := by
          intro h
          exact hmem (h ▸ List.mem_map_of_mem Prod.fst he)
        simp [List.count_cons_of_ne hne]
      simp only [List.map_append, List.map_cons, List.map_nil, List.append_assoc, hmap,
        List.singleton_append, firstEncounterCounts, List.filter_cons, hmem, not_false_eq_true,
        decide_True, if_true, List.filter_filter]
      have hf : (firstEncounterCounts ls).filter
            (fun e => decide (e.1 ∉ JSObj.keys (acc ++ [(l, 1)])))
          = (firstEncounterCounts ls).filter
            (fun a => decide (a.1 ∉ JSObj.keys acc) && decide (a.1 ≠ l)) := by
        apply List.filter_congr
        intro e _
        simp only [JSObj.keys, List.map_append, List.map_cons, List.map_nil, List.mem_append,
          List.mem_singleton]
        by_cases he : e.1 ∈ List.map Prod.fst acc
        · simp [he]
        · by_cases hel : e.1 = l
          · simp [hel]
          · simp [he, hel]
      rw [hf, Nat.add_comm 1]

theorem firstEncounterCounts_mem (ls : List Str) (e : Str × Nat)
    (he : e ∈ firstEncounterCounts ls) : e.1 ∈ ls ∧ e.2 = ls.count e.1 := by
  induction ls with
  | nil => simp [firstEncounterCounts] at he
  | cons l ls ih =>
    simp only [firstEncounterCounts, List.mem_cons, List.mem_filter, ne_eq,
      decide_eq_true_eq] at he
    rcases he with he | ⟨he, hne⟩
    · subst he
      simp
    · obtain ⟨h1, h2⟩ := ih he
      exact ⟨List.mem_cons_of_mem _ h1, by rw [List.count_cons_of_ne hne]; exact h2⟩

theorem firstEncounterCounts_complete (ls : List Str) (l : Str) (hl : l ∈ ls) :
    (l, ls.count l) ∈ firstEncounterCounts ls := by
  induction ls with
  | nil => simp at hl
  | cons a ls ih =>
    by_cases hla : l = a
    · subst hla
      simp [firstEncounterCounts]
    · have hmem : l ∈ ls := by
        rcases List.mem_cons.mp hl with h | h
        · exact absurd h hla
        · exact h
      simp only [firstEncounterCounts, List.mem_cons, List.mem_filter, ne_eq, decide_eq_true_eq]
      right
      rw [List.count_cons_of_ne hla]
      exact ⟨ih hmem, hla⟩

theorem firstEncounterCounts_pairwise (ls : List Str) :
    (firstEncounterCounts ls).Pairwise (fun a b => firstIndex a.1 ls < firstIndex b.1 ls) := by
  induction ls with
  | nil => simp [firstEncounterCounts]
  | cons l ls ih =>
    simp only [firstEncounterCounts, List.pairwise_cons]
    constructor
    · intro b hb
      simp only [List.mem_filter, ne_eq, decide_eq_true_eq] at hb
      have hne : ¬ l = b.1 := fun h => hb.2 h.symm
      simp [firstIndex, hne]
    · apply List.Pairwise.imp_of_mem _ (List.Pairwise.filter _ ih)
      intro a b ha hb hab
      simp only [List.mem_filter, ne_eq, decide_eq_true_eq] at ha hb
      have hna : ¬ l = a.1 := fun h => ha.2 h.symm
      have hnb : ¬ l = b.1 := fun h => hb.2 h.symm
      simp only [firstIndex, hna, hnb, if_false]
      exact Nat.succ_lt_succ hab

theorem head_orderedInsert (r : Str × Nat → Str × Nat → Prop) [DecidableRel r]
    (a : Str × Nat) (l : List (Str × Nat)) :
    (List.orderedInsert r a l).head?
      = some (match l.head? with
        | none => a
        | some c => if r a c then a else c) := by
  cases l with
  | nil => rfl
  | cons c cs =>
    by_cases h : r a c
    · simp [List.orderedInsert, h]
    · simp [List.orderedInsert, h]

/-- The first entry of the stable descending sort is the first entry of the
list whose count is the highest. -/
theorem sortByCountDesc_head (es : List (Str × Nat)) (hne : es ≠ []) :
    ∃ pre e post, es = pre ++ e :: post ∧ (App.sortByCountDesc es).head? = some e ∧
      (∀ x ∈ pre, x.2 < e.2) ∧ (∀ x ∈ post, x.2 ≤ e.2) := by
  induction es with
  | nil => exact absurd rfl hne
  | cons a es ih =>
    cases es with
    | nil =>
      exact ⟨[], a, [], rfl, by simp [App.sortByCountDesc], by simp, by simp⟩
    | cons b es2 =>
      obtain ⟨pre, c, post, heq, hhead, hpre, hpost⟩ := ih (by simp)
      have hhead2 : (List.insertionSort (fun a b : Str × Nat => b.2 ≤ a.2) (b :: es2)).head?
          = some c := hhead
      have hsort : App.sortByCountDesc (a :: b :: es2)
          = List.orderedInsert (fun a b : Str × Nat => b.2 ≤ a.2) a
              (List.insertionSort (fun a b : Str × Nat => b.2 ≤ a.2) (b :: es2)) := rfl
      rw [hsort, head_orderedInsert, hhead2]
      by_cases hle : c.2 ≤ a.2
      · refine ⟨[], a, b :: es2, rfl, by simp [hle], by simp, ?_⟩
        intro x hx
        rw [heq] at hx
        rcases List.mem_append.mp hx with h | h
        · exact Nat.le_trans (Nat.le_of_lt (hpre x h)) hle
        · rcases List.mem_cons.mp h with h | h
          · rw [h]; exact hle
          · exact Nat.le_trans (hpost x h) hle
      · refine ⟨a :: pre, c, post, by rw [heq]; rfl, by simp [hle], ?_, hpost⟩
        intro x hx
        rcases List.mem_cons.mp hx with h | h
        · rw [h]; omega
        · exact hpre x h

theorem jobTypeLabel_ne_nil (item : Record) : App.jobTypeLabel item ≠ [] := by
  unfold App.jobTypeLabel
  cases JSObj.get item "jobType".toList with
  | none => decide
  | some type =>
    by_cases h : type = []
    · simp only [h, if_true]; decide
    · simp [h]

theorem jobTypeCounts_eq (data : List Record)
    (hplain : ∀ l ∈ data.map App.jobTypeLabel, PlainLabel l) :
    App.jobTypeCounts data = some (firstEncounterCounts (data.map App.jobTypeLabel)) := by
  unfold App.jobTypeCounts
  rw [countLabels_eq _ [] (by simp [JSObj.keys]) hplain]
  simp [JSObj.keys]

/-- C9, the claim as stated fails: for the job types `2` then `1`, one record
each, the counting object lists the key `1` before the key `2` (array-index
keys come first, in ascending order), so `topJobType` is `1` although `2` is
met first among the labels with the highest count. -/
theorem topJobType_not_first_met :
    App.topJobType (jobTypeData ["2", "1"]) = some "1".toList ∧
    ¬ IsFirstMostFrequent ((jobTypeData ["2", "1"]).map App.jobTypeLabel) "1".toList := by
  decide

/-- C9, amended: for every non-empty dataset whose job-type labels are
neither array indices nor names of members of `Object.prototype`,
`topJobType` is a label with the highest occurrence count, and among the
labels with that count the one met first in dataset order. -/
theorem topJobType_first_most_frequent (data : List Record) (hne : data ≠ [])
    (hplain : ∀ l ∈ data.map App.jobTypeLabel, PlainLabel l) :
    ∃ top, App.topJobType data = some top ∧
      IsFirstMostFrequent (data.map App.jobTypeLabel) top := by
  have hcounts := jobTypeCounts_eq data hplain
  have hlabels : data.map App.jobTypeLabel ≠ [] := by simpa using hne
  have hfilled : ∀ l ∈ data.map App.jobTypeLabel, l ≠ [] := by
    intro l hl
    obtain ⟨item, _, hitem⟩ := List.mem_map.mp hl
    rw [← hitem]
    exact jobTypeLabel_ne_nil item
  generalize data.map App.jobTypeLabel = labels at hcounts hlabels hplain hfilled
  have hfec : firstEncounterCounts labels ≠ [] := by
    cases labels with
    | nil => exact absurd rfl hlabels
    | cons l ls => simp [firstEncounterCounts]
  obtain ⟨pre, e, post, heq, hhead, hpre, hpost⟩ := sortByCountDesc_head _ hfec
  have he : e ∈ firstEncounterCounts labels := by rw [heq]; simp
  obtain ⟨hmem, hcount⟩ := firstEncounterCounts_mem labels e he
  have hnil : e.1 ≠ [] := hfilled e.1 hmem
  refine ⟨e.1, ?_, hmem, ?_, ?_⟩
  · simp [App.topJobType, hcounts, App.topOf, hhead, hnil]
  · intro l hl
    have hin := firstEncounterCounts_complete labels l hl
    rw [heq] at hin
    rw [← hcount]
    rcases List.mem_append.mp hin with h | h
    · exact Nat.le_of_lt (hpre _ h)
    · rcases List.mem_cons.mp h with h | h
      · rw [← h]
      · exact hpost _ h
  · intro l hl hsame
    have hin := firstEncounterCounts_complete labels l hl
    have hpw := firstEncounterCounts_pairwise labels
    rw [heq] at hin hpw
    rw [← hcount] at hsame
    rcases List.mem_append.mp hin with h | h
    · have := hpre _ h
      simp only at this
      omega
    · rcases List.mem_cons.mp h with h | h
      · rw [← h]
      · have h2 := (List.pairwise_cons.mp (List.pairwise_append.mp hpw).2.1).1 _ h
        exact Nat.le_of_lt h2

theorem topJobType_first_most_frequent_witness :
    jobTypeData ["B", "A", "", "A", "B"] ≠ [] ∧
    (∀ l ∈ (jobTypeData ["B", "A", "", "A", "B"]).map App.jobTypeLabel, PlainLabel l) ∧
    ∃ top, App.topJobType (jobTypeData ["B", "A", "", "A", "B"]) = some top ∧
      IsFirstMostFrequent ((jobTypeData ["B", "A", "", "A", "B"]).map App.jobTypeLabel) top :=
  ⟨by decide, by decide,
    topJobType_first_most_frequent (jobTypeData ["B", "A", "", "A", "B"]) (by decide)
      (by decide)⟩

/-- C10, the claim as stated fails: for the job types `A`, `B`, `B` the series
handed to the chart is `A`, `B` with the counts 1, 2, which is not in
descending order of count. -/
theorem jobTypeSeries_not_sorted :
    App.jobTypeSeries (jobTypeData ["A", "B", "B"])
      = some (["A".toList, "B".toList], [1, 2]) ∧
    ¬ List.Sorted (fun a b : Nat => a ≥ b) [1, 2] := by
  decide

/-- C10, amended: for every dataset whose job-type labels are neither array
indices nor names of members of `Object.prototype`, the job-type series lists
each distinct label once, in the order in which the labels are first met,
with its number of occurrences; it is not reordered by count. -/
theorem jobTypeSeries_first_encounter (data : List Record)
    (hplain : ∀ l ∈ data.map App.jobTypeLabel, PlainLabel l) :
    App.jobTypeSeries data
      = some ((firstEncounterCounts (data.map App.jobTypeLabel)).map Prod.fst,
          (firstEncounterCounts (data.map App.jobTypeLabel)).map Prod.snd) := by
  simp [App.jobTypeSeries, jobTypeCounts_eq data hplain, JSObj.keys, JSObj.values]

theorem jobTypeSeries_first_encounter_witness :
    (∀ l ∈ (jobTypeData ["A", "B", "B", "A", "C"]).map App.jobTypeLabel, PlainLabel l) ∧
    App.jobTypeSeries (jobTypeData ["A", "B", "B", "A", "C"])
      = some ((firstEncounterCounts
            ((jobTypeData ["A", "B", "B", "A", "C"]).map App.jobTypeLabel)).map Prod.fst,
          (firstEncounterCounts
            ((jobTypeData ["A", "B", "B", "A", "C"]).map App.jobTypeLabel)).map Prod.snd) :=
  ⟨by decide, jobTypeSeries_first_encounter (jobTypeData ["A", "B", "B", "A", "C"]) (by decide)⟩

/-! ### Hiring-signal parser: lines and records -/

/-- Scanning one line, which holds no line feed, appends it to the pending
text and flips the quote state once per double quote. -/
theorem splitLines_line (l rest : Str) (q : Bool) (cur : Str) (lines : List Str)
    (hlf : '\n' ∉ l) :
    HiringSignals.splitLines (l ++ rest) q cur lines
      = HiringSignals.splitLines rest (if l.count '"' % 2 = 0 then q else !q) (cur ++ l) lines := by
  induction l generalizing q cur with
  | nil => simp
  | cons c l ih =>
    have hc : c ≠ '\n' := fun h => hlf (h ▸ List.mem_cons_self _ _)
    have hl : '\n' ∉ l := fun h => hlf (List.mem_cons_of_mem _ h)
    by_cases hq : c = '"'
    · subst hq
      simp only [List.cons_append, HiringSignals.splitLines, if_true, List.count_cons_self,
        List.append_eq]
      rw [ih _ _ hl]
      by_cases hpar : l.count '"' % 2 = 0
      · have h2 : ¬ (l.count '"' + 1) % 2 = 0 := by omega
        simp [hpar, h2]
      · have h2 : (l.count '"' + 1) % 2 = 0 := by omega
        simp [hpar, h2]
    · have hq2 : ('"' : Char) ≠ c := fun h => hq h.symm
      simp only [List.cons_append, HiringSignals.splitLines, hq, hc, if_false, false_and,
        List.count_cons_of_ne hq2, List.append_eq]
      rw [ih _ _ hl]
      simp

theorem splitLines_joinLines (l : Str) (ls : List Str) (acc : List Str)
    (hlf : ∀ x ∈ l :: ls, '\n' ∉ x) (hq : ∀ x ∈ l :: ls, x.count '"' % 2 = 0) :
    HiringSignals.splitLines (joinLines (l :: ls)) false [] acc = acc ++ collectedLines l ls := by
  induction ls generalizing l acc with
  | nil =>
    have h := splitLines_line l [] false [] acc (hlf l (List.mem_cons_self _ _))
    simp only [List.append_nil, hq l (List.mem_cons_self _ _), if_true, List.nil_append] at h
    rw [joinLines, h, HiringSignals.splitLines, collectedLines]
    by_cases hb : trim l = []
    · simp [hb]
    · simp [hb]
  | cons l2 ls ih =>
    have h := splitLines_line l ('\n' :: joinLines (l2 :: ls)) false [] acc
      (hlf l (List.mem_cons_self _ _))
    simp only [hq l (List.mem_cons_self _ _), if_true, List.nil_append] at h
    rw [joinLines, h, HiringSignals.splitLines]
    simp only [Char.reduceEq, if_false, and_self, if_true]
    rw [ih l2 (acc ++ [l]) (fun x hx => hlf x (List.mem_cons_of_mem _ hx))
      (fun x hx => hq x (List.mem_cons_of_mem _ hx)), collectedLines]
    simp

theorem filter_collectedLines (l : Str) (ls : List Str) :
    (collectedLines l ls).filter (fun line => trim line ≠ [])
      = (l :: ls).filter (fun line => trim line ≠ []) := by
  induction ls generalizing l with
  | nil =>
    by_cases hb : trim l = []
    · simp [collectedLines, hb]
    · simp [collectedLines, hb]
  | cons l2 ls ih => simp only [collectedLines, List.filter_cons, ih l2]

theorem length_filter_not_blank (ls : List Str) :
    (ls.filter (fun l => !isBlank l)).length = ls.length - (ls.filter isBlank).length := by
  induction ls with
  | nil => rfl
  | cons l ls ih =>
    have hle : (ls.filter isBlank).length ≤ ls.length := List.length_filter_le _ _
    cases hb : isBlank l with
    | true =>
      simp only [List.filter_cons, hb, Bool.not_true, Bool.false_eq_true, if_false, if_true,
        List.length_cons, ih]
      omega
    | false =>
      simp only [List.filter_cons, hb, Bool.not_false, Bool.false_eq_true, if_true, if_false,
        List.length_cons, ih]
      omega

/-- C3, the claim as stated fails: the text of the three lines `h`, `"a` and
`b"` has two non-blank lines after the header, but the line feed between them
lies inside double quotes and the parser returns a single record. -/
theorem hiringParseCSV_quoted_line_feed :
    joinLines ["h".toList, "\"a".toList, "b\"".toList] = "h\n\"a\nb\"".toList ∧
    (["\"a".toList, "b\"".toList].filter (fun l => !isBlank l)).length = 2 ∧
    HiringSignals.parseCSV "h\n\"a\nb\"".toList = .ok [[("h".toList, "a\nb".toList)]] := by
  decide

/-- C3, amended: for every text whose lines (the first being the header) each
hold an even number of double quotes, so that every line feed lies outside
quotes, the hiring-signal `parseCSV` returns one record per non-blank line
after the header, in source order: as many records as there are further lines
minus the blank ones. -/
theorem hiringParseCSV_records (l0 : Str) (ls : List Str)
    (hlf : ∀ x ∈ l0 :: ls, '\n' ∉ x) (hq : ∀ x ∈ l0 :: ls, x.count '"' % 2 = 0) :
    ∃ records, HiringSignals.parseCSV (joinLines (l0 :: ls)) = .ok records ∧
      records = (ls.filter (fun l => !isBlank l)).map
        (fun l => HiringSignals.fillRow [] (HiringSignals.parseCSVLine l0)
          (HiringSignals.parseCSVLine l)) ∧
      records.length = ls.length - (ls.filter isBlank).length := by
  refine ⟨_, ?_, rfl, by rw [List.length_map, length_filter_not_blank]⟩
  have hsplit := splitLines_joinLines l0 ls [] hlf hq
  simp only [List.nil_append] at hsplit
  unfold HiringSignals.parseCSV
  rw [hsplit]
  cases ls with
  | nil =>
    by_cases hb : trim l0 = []
    · simp [collectedLines, hb]
    · simp [collectedLines, hb]
  | cons l1 ls2 =>
    have hf := filter_collectedLines l1 ls2
    simp only [collectedLines, List.length_cons, Nat.add_one_ne_zero, if_false,
      List.getElem?_cons_zero, List.drop_succ_cons, List.drop_zero, hf]
    simp [isBlank]

theorem hiringParseCSV_records_witness :
    (∀ x ∈ "name,q".toList :: ["a,\"x,y\"".toList, "  ".toList, "b,".toList, "".toList],
      '\n' ∉ x) ∧
    (∀ x ∈ "name,q".toList :: ["a,\"x,y\"".toList, "  ".toList, "b,".toList, "".toList],
      x.count '"' % 2 = 0) ∧
    ∃ records,
      HiringSignals.parseCSV
        (joinLines ("name,q".toList ::
          ["a,\"x,y\"".toList, "  ".toList, "b,".toList, "".toList])) = .ok records ∧
      records.length = 2 := by
  refine ⟨by decide, by decide, ?_⟩
  obtain ⟨records, h1, _, h3⟩ := hiringParseCSV_records "name,q".toList
    ["a,\"x,y\"".toList, "  ".toList, "b,".toList, "".toList] (by decide) (by decide)
  exact ⟨records, h1, by rw [h3]; decide⟩

/-! ### General parser: single steps of the character loop -/

theorem scanRows_open (cs : Str) (fld : Str) (row : List Str) (rows : List (List Str)) :
    App.scanRows ('"' :: cs) false fld row rows = App.scanRows cs true fld row rows := by
  cases cs <;> simp [App.scanRows]

theorem scanRows_close (cs : Str) (fld : Str) (row : List Str) (rows : List (List Str))
    (h : cs.head? ≠ some '"') :
    App.scanRows ('"' :: cs) true fld row rows = App.scanRows cs false fld row rows := by
  cases cs with
  | nil => simp [App.scanRows]
  | cons c cs =>
    have hc : c ≠ '"' := by simpa using h
    simp [App.scanRows, hc]

theorem scanRows_doubled (cs : Str) (fld : Str) (row : List Str) (rows : List (List Str)) :
    App.scanRows ('"' :: '"' :: cs) true fld row rows
      = App.scanRows cs true (fld ++ ['"']) row rows := by
  simp [App.scanRows]

theorem scanRows_inside (c : Char) (cs : Str) (fld : Str) (row : List Str)
    (rows : List (List Str)) (hc : c ≠ '"') :
    App.scanRows (c :: cs) true fld row rows = App.scanRows cs true (fld ++ [c]) row rows := by
  cases cs <;> simp [App.scanRows, hc]

theorem scanRows_plain (c : Char) (cs : Str) (fld : Str) (row : List Str)
    (rows : List (List Str)) (hc : isSpecial c = false) :
    App.scanRows (c :: cs) false fld row rows = App.scanRows cs false (fld ++ [c]) row rows := by
  simp only [isSpecial, Bool.or_eq_false_iff, decide_eq_false_iff_not] at hc
  obtain ⟨⟨⟨h1, h2⟩, h3⟩, h4⟩ := hc
  cases cs <;> simp [App.scanRows, h1, h2, h3, h4]

theorem scanRows_comma (cs : Str) (fld : Str) (row : List Str) (rows : List (List Str)) :
    App.scanRows (',' :: cs) false fld row rows
      = App.scanRows cs false [] (row ++ [fld]) rows := by
  cases cs <;> simp [App.scanRows]

theorem scanRows_lineFeed (cs : Str) (fld : Str) (row : List Str) (rows : List (List Str)) :
    App.scanRows ('\n' :: cs) false fld row rows
      = App.scanRows cs false [] [] (App.pushRow rows row fld) := by
  by_cases h : row.length > 0 ∨ fld ≠ []
  · cases cs <;> simp [App.scanRows, h]
  · have h2 : row = [] ∧ fld = [] := by
      constructor
      · cases row with
        | nil => rfl
        | cons a l => exact absurd (Or.inl (by simp)) h
      · by_contra hf
        exact h (Or.inr hf)
    obtain ⟨hr, hf⟩ := h2
    subst hr hf
    cases cs <;> simp [App.scanRows]

theorem pushRow_eq (rows : List (List Str)) (row : List Str) (fld : Str) :
    App.pushRow rows row fld
      = if row ++ [fld] = [[]] then rows else rows ++ [row ++ [fld]] := by
  cases row with
  | nil =>
    by_cases hf : fld = []
    · simp [App.pushRow, hf]
    · simp [App.pushRow, hf]
  | cons a l => simp [App.pushRow]

/-! ### General parser: reading back what a CSV writer wrote -/

theorem scanRows_escaped (s rest : Str) (fld : Str) (row : List Str) (rows : List (List Str))
    (h : rest.head? ≠ some '"') :
    App.scanRows (escapeQuotes s ++ '"' :: rest) true fld row rows
      = App.scanRows rest false (fld ++ s) row rows := by
  induction s generalizing fld with
  | nil => simpa [escapeQuotes] using scanRows_close rest fld row rows h
  | cons c s ih =>
    by_cases hc : c = '"'
    · subst hc
      simp only [escapeQuotes, if_true, List.cons_append]
      rw [scanRows_doubled, ih]
      simp
    · simp only [escapeQuotes, hc, if_false, List.cons_append]
      rw [scanRows_inside _ _ _ _ _ hc, ih]
      simp

theorem scanRows_plainText (t rest : Str) (fld : Str) (row : List Str)
    (rows : List (List Str)) (hall : ∀ ch ∈ t, isSpecial ch = false) :
    App.scanRows (t ++ rest) false fld row rows
      = App.scanRows rest false (fld ++ t) row rows := by
  induction t generalizing fld with
  | nil => simp
  | cons c t ih =>
    simp only [List.cons_append]
    rw [scanRows_plain _ _ _ _ _ (hall c (List.mem_cons_self _ _)),
      ih _ (fun ch hch => hall ch (List.mem_cons_of_mem _ hch))]
    simp

theorem scanRows_cell (c : Cell) (rest : Str) (fld : Str) (row : List Str)
    (rows : List (List Str)) (hwf : c.WellFormed) (h : rest.head? ≠ some '"') :
    App.scanRows (writeCell c ++ rest) false fld row rows
      = App.scanRows rest false (fld ++ c.text) row rows := by
  unfold writeCell
  cases hq : c.quoted with
  | true =>
    simp only [if_true, quoteField, List.cons_append, List.append_assoc, List.singleton_append,
      List.nil_append]
    rw [scanRows_open, scanRows_escaped _ _ _ _ _ h]
  | false =>
    have hall : ∀ ch ∈ c.text, isSpecial ch = false := by
      rcases hwf with hw | hw
      · rw [hq] at hw; exact absurd hw (by simp)
      · exact hw
    simp only [Bool.false_eq_true, if_false]
    exact scanRows_plainText _ _ _ _ _ hall

/-- Scanning one written row up to the text that follows it leaves the last
field pending and the fields before it in the current row. -/
theorem scanRows_row (c : Cell) (cs : List Cell) (rest : Str) (fld : Str) (row : List Str)
    (rows : List (List Str)) (hwf : ∀ x ∈ c :: cs, x.WellFormed)
    (h : rest.head? ≠ some '"') :
    ∃ front last, (fld ++ c.text) :: cs.map Cell.text = front ++ [last] ∧
      App.scanRows (writeRow (c :: cs) ++ rest) false fld row rows
        = App.scanRows rest false last (row ++ front) rows := by
  induction cs generalizing c fld row with
  | nil =>
    refine ⟨[], fld ++ c.text, by simp, ?_⟩
    simp only [writeRow, List.append_nil]
    rw [scanRows_cell c rest fld row rows (hwf c (List.mem_cons_self _ _)) h]
  | cons c2 cs ih =>
    obtain ⟨front, last, hsplit, hscan⟩ := ih c2 [] (row ++ [fld ++ c.text])
      (fun x hx => hwf x (List.mem_cons_of_mem _ hx))
    refine ⟨(fld ++ c.text) :: front, last, ?_, ?_⟩
    · simp only [List.nil_append] at hsplit
      simp [hsplit]
    · have hw : writeRow (c :: c2 :: cs) ++ rest
          = writeCell c ++ (',' :: (writeRow (c2 :: cs) ++ rest)) := by
        simp [writeRow]
      rw [hw, scanRows_cell c _ fld row rows (hwf c (List.mem_cons_self _ _)) (by simp),
        scanRows_comma, hscan]
      simp

theorem scanRows_rows (finalLF : Bool) (table : List (List Cell)) (acc : List (List Str))
    (hwf : ∀ row ∈ table, ∀ c ∈ row, c.WellFormed) (hvis : ∀ row ∈ table, VisibleRow row) :
    App.scanRows (writeRows finalLF table) false [] [] acc
      = acc ++ table.map (fun row => row.map Cell.text) := by
  induction table generalizing acc with
  | nil => simp [writeRows, App.scanRows, App.pushRow]
  | cons row table ih =>
    have hv := hvis row (List.mem_cons_self _ _)
    cases row with
    | nil => exact absurd rfl hv.1
    | cons c cs =>
      have hpush : ∀ front last, ([] ++ c.text) :: cs.map Cell.text = front ++ [last] →
          App.pushRow acc front last = acc ++ [(c :: cs).map Cell.text] := by
        intro front last hsplit
        rw [pushRow_eq, ← hsplit]
        have h2 := hv.2
        simp only [List.map_cons] at h2
        simp only [List.nil_append, List.map_cons]
        rw [if_neg h2]
      cases table with
      | nil =>
        cases finalLF with
        | false =>
          obtain ⟨front, last, hsplit, hscan⟩ := scanRows_row c cs [] [] [] acc
            (hwf _ (List.mem_cons_self _ _)) (by simp)
          simp only [writeRows, Bool.false_eq_true, if_false]
          rw [hscan]
          simp only [App.scanRows, List.nil_append, List.map_cons, List.map_nil]
          simpa using hpush front last hsplit
        | true =>
          obtain ⟨front, last, hsplit, hscan⟩ := scanRows_row c cs ['\n'] [] [] acc
            (hwf _ (List.mem_cons_self _ _)) (by simp)
          simp only [writeRows, if_true]
          rw [hscan, scanRows_lineFeed]
          simp only [App.scanRows, List.nil_append, List.map_cons, List.map_nil]
          rw [hpush front last hsplit]
          simp [App.pushRow]
      | cons row2 table2 =>
        obtain ⟨front, last, hsplit, hscan⟩ := scanRows_row c cs
          ('\n' :: writeRows finalLF (row2 :: table2)) [] [] acc
          (hwf _ (List.mem_cons_self _ _)) (by simp)
        have hw : writeRows finalLF ((c :: cs) :: row2 :: table2)
            = writeRow (c :: cs) ++ '\n' :: writeRows finalLF (row2 :: table2) := by
          simp [writeRows]
        rw [hw, hscan, scanRows_lineFeed]
        simp only [List.nil_append]
        rw [hpush front last hsplit, ih _ (fun r hr => hwf r (List.mem_cons_of_mem _ hr))
          (fun r hr => hvis r (List.mem_cons_of_mem _ hr))]
        simp

/-! ### General parser: byte-order mark, headers and values -/

theorem trimStart_whiteSpace (c : Char) (t : Str) (hc : isWhiteSpace c = true) :
    trimStart (c :: t) = trimStart t := by
  simp [trimStart, List.dropWhile, hc]

theorem cleanHeader_stripBOM (t : Str) : App.cleanHeader (App.stripBOM t) = App.cleanHeader t := by
  cases t with
  | nil => rfl
  | cons c t =>
    by_cases hc : c.toNat = 0xFEFF
    · have hw : isWhiteSpace c = true := by simp [isWhiteSpace, hc]
      simp only [App.stripBOM, hc, if_true, App.cleanHeader, trim, trimStart_whiteSpace c t hw]
    · simp only [App.stripBOM, hc, if_false]

theorem stripBOM_append_cell (c : Cell) (rest : Str) (hrest : App.stripBOM rest = rest) :
    App.stripBOM (writeCell c ++ rest) = writeCell (cellAfterBOM c) ++ rest := by
  unfold cellAfterBOM writeCell
  cases hq : c.quoted with
  | true => simp [hq, quoteField, App.stripBOM]
  | false =>
    simp only [Bool.false_eq_true, if_false]
    cases ht : c.text with
    | nil => simpa [App.stripBOM] using hrest
    | cons ch t =>
      by_cases hc : ch.toNat = 0xFEFF
      · simp [App.stripBOM, hc]
      · simp [App.stripBOM, hc]

theorem stripBOM_writeRows (finalLF : Bool) (hdr : List Cell) (table : List (List Cell))
    (hne : hdr ≠ []) :
    App.stripBOM (writeRows finalLF (hdr :: table))
      = writeRows finalLF (headerAfterBOM hdr :: table) := by
  cases hdr with
  | nil => exact absurd rfl hne
  | cons c cs =>
    clear hne
    have hshape : ∀ (x : Cell), writeRows finalLF ((x :: cs) :: table)
        = writeCell x ++ ((match cs with
            | [] => []
            | _ :: _ => ',' :: writeRow cs) ++
          (match table with
            | [] => if finalLF then ['\n'] else []
            | _ :: _ => '\n' :: writeRows finalLF table)) := by
      intro x
      simp [writeRows, writeRow]
    rw [hshape c, headerAfterBOM, hshape (cellAfterBOM c)]
    apply stripBOM_append_cell
    cases cs with
    | cons c2 cs2 => simp [App.stripBOM]
    | nil =>
      cases table with
      | cons r rs => simp [App.stripBOM]
      | nil => cases finalLF <;> simp [App.stripBOM]

theorem headerAfterBOM_clean (hdr : List Cell) :
    (headerAfterBOM hdr).map (fun c => App.cleanHeader c.text)
      = hdr.map (fun c => App.cleanHeader c.text) := by
  cases hdr with
  | nil => rfl
  | cons c cs =>
    simp only [headerAfterBOM, List.map_cons, cellAfterBOM]
    cases hq : c.quoted with
    | true => simp
    | false => simp [cleanHeader_stripBOM]

theorem cellAfterBOM_wellFormed (c : Cell) (hwf : c.WellFormed) :
    (cellAfterBOM c).WellFormed := by
  unfold cellAfterBOM
  cases hq : c.quoted with
  | true => simpa [hq] using hwf
  | false =>
    right
    have hall : ∀ ch ∈ c.text, isSpecial ch = false := by
      rcases hwf with hw | hw
      · rw [hq] at hw; exact absurd hw (by simp)
      · exact hw
    intro ch hch
    apply hall
    simp only [Bool.false_eq_true, if_false] at hch
    cases ht : c.text with
    | nil => simp [ht, App.stripBOM] at hch
    | cons a t =>
      rw [ht] at hch
      by_cases ha : a.toNat = 0xFEFF
      · simp only [App.stripBOM, ha, if_true] at hch
        exact List.mem_cons_of_mem _ hch
      · simpa [App.stripBOM, ha] using hch

theorem trim_nil : trim [] = [] := rfl

theorem visibleRow_of_nonBlank (row : List Cell) (h : NonBlankRow row) : VisibleRow row := by
  obtain ⟨c, hc, ht⟩ := h
  constructor
  · intro hnil
    simp only [List.map_eq_nil_iff] at hnil
    rw [hnil] at hc
    simp at hc
  · intro hone
    cases row with
    | nil => simp at hc
    | cons a rest =>
      simp only [List.map_cons, List.cons.injEq, List.map_eq_nil_iff] at hone
      obtain ⟨ha, hrest⟩ := hone
      subst hrest
      simp only [List.mem_singleton] at hc
      subst hc
      rw [ha] at ht
      exact ht trim_nil

theorem headerAfterBOM_nonBlank (hdr : List Cell) (h : NonBlankRow hdr) :
    NonBlankRow (headerAfterBOM hdr) := by
  obtain ⟨c, hc, ht⟩ := h
  cases hdr with
  | nil => simp at hc
  | cons a rest =>
    rcases List.mem_cons.mp hc with h1 | h1
    · subst h1
      refine ⟨cellAfterBOM c, List.mem_cons_self _ _, ?_⟩
      unfold cellAfterBOM
      cases hq : c.quoted with
      | true => simpa using ht
      | false =>
        simp only [Bool.false_eq_true, if_false]
        cases hct : c.text with
        | nil => rw [hct] at ht; exact absurd trim_nil ht
        | cons x t =>
          rw [hct] at ht
          by_cases hx : x.toNat = 0xFEFF
          · have hw : isWhiteSpace x = true := by simp [isWhiteSpace, hx]
            simp only [App.stripBOM, hx, if_true]
            simpa [trim, trimStart_whiteSpace x t hw] using ht
          · simpa [App.stripBOM, hx] using ht
    · exact ⟨c, List.mem_cons_of_mem _ h1, ht⟩

theorem tokenize_writeRows (finalLF : Bool) (hdr : List Cell) (table : List (List Cell))
    (hwf : ∀ row ∈ hdr :: table, ∀ c ∈ row, c.WellFormed) (hhdr : NonBlankRow hdr)
    (hvis : ∀ row ∈ table, VisibleRow row) :
    App.tokenize (writeRows finalLF (hdr :: table))
      = (headerAfterBOM hdr).map Cell.text :: table.map (fun row => row.map Cell.text) := by
  have hne : hdr ≠ [] := by
    obtain ⟨c, hc, _⟩ := hhdr
    intro h
    rw [h] at hc
    simp at hc
  unfold App.tokenize
  rw [stripBOM_writeRows finalLF hdr table hne, scanRows_rows]
  · simp
  · intro row hrow c hc
    rcases List.mem_cons.mp hrow with h | h
    · subst h
      cases hdr with
      | nil => simp [headerAfterBOM] at hc
      | cons a rest =>
        rcases List.mem_cons.mp hc with h1 | h1
        · rw [h1]
          exact cellAfterBOM_wellFormed a (hwf _ (List.mem_cons_self _ _) a
            (List.mem_cons_self _ _))
        · exact hwf _ (List.mem_cons_self _ _) c (List.mem_cons_of_mem _ h1)
    · exact hwf row (List.mem_cons_of_mem _ h) c hc
  · intro row hrow
    rcases List.mem_cons.mp hrow with h | h
    · subst h
      exact visibleRow_of_nonBlank _ (headerAfterBOM_nonBlank hdr hhdr)
    · exact hvis row h

/-- What the general parser returns for a written table: the records built
from the data rows, in order, without those that hold no value. -/
theorem parseCSV_writeRows (host : Str → Str) (finalLF : Bool) (hdr : List Cell)
    (table : List (List Cell))
    (hwf : ∀ row ∈ hdr :: table, ∀ c ∈ row, c.WellFormed) (hhdr : NonBlankRow hdr)
    (hvis : ∀ row ∈ table, VisibleRow row) :
    App.parseCSV host (writeRows finalLF (hdr :: table))
      = .ok ((table.map (fun row => App.fillRow host []
          (hdr.map (fun c => App.cleanHeader c.text)) (row.map Cell.text))).filter
            App.hasValue) := by
  unfold App.parseCSV
  rw [tokenize_writeRows finalLF hdr table hwf hhdr hvis]
  cases table with
  | nil => simp
  | cons row rest =>
    have hlen : ¬ ((headerAfterBOM hdr).map Cell.text ::
        ((row :: rest).map (fun row => row.map Cell.text))).length < 2 := by
      simp
    simp only [hlen, if_false, List.getElem?_cons_zero, List.drop_succ_cons, List.drop_zero,
      List.map_map]
    have hclean := headerAfterBOM_clean hdr
    simp only [← List.map_map] at hclean ⊢
    have h2 : List.map App.cleanHeader (List.map Cell.text (headerAfterBOM hdr))
        = List.map (fun c => App.cleanHeader c.text) hdr := by
      rw [List.map_map]
      exact hclean
    rw [h2, List.map_map]
    rfl

/-! ### General parser: the record built from a row -/

theorem fillRow_get_untouched (host : Str → Str) (hs vs : List Str) (row0 : Record) (k : Str)
    (h : ∀ x ∈ hs, App.mappedKey host x ≠ k) :
    (App.fillRow host row0 hs vs).get k = row0.get k := by
  induction hs generalizing row0 vs with
  | nil => rfl
  | cons x hs ih =>
    simp only [App.fillRow]
    rw [ih _ _ (fun y hy => h y (List.mem_cons_of_mem _ hy))]
    exact JSObj.get_set_other _ _ _ _ (Ne.symm (h x (List.mem_cons_self _ _)))

/-- The value a record holds under the key of column `j`, when no later
column has the same key, is the cleaned value of that column. -/
theorem fillRow_get (host : Str → Str) (hs vs : List Str) (row0 : Record) (j : Nat) (hj : Str)
    (hcol : hs[j]? = some hj)
    (hlater : ∀ x ∈ hs.drop (j + 1), App.mappedKey host x ≠ App.mappedKey host hj) :
    (App.fillRow host row0 hs vs).get (App.mappedKey host hj) = some (App.cellValue vs[j]?) := by
  induction hs generalizing row0 vs j with
  | nil => simp at hcol
  | cons x hs ih =>
    cases j with
    | zero =>
      simp only [List.getElem?_cons_zero, Option.some.injEq] at hcol
      subst hcol
      simp only [App.fillRow]
      rw [fillRow_get_untouched host hs _ _ _ (by simpa using hlater), JSObj.get_set_self]
      cases vs <;> simp
    | succ j =>
      simp only [List.getElem?_cons_succ] at hcol
      simp only [App.fillRow]
      rw [ih _ _ j hcol (by simpa using hlater)]
      cases vs <;> simp

theorem hasValue_of_get (row : Record) (k v : Str) (hget : row.get k = some v) (hv : v ≠ []) :
    App.hasValue row = true := by
  induction row with
  | nil => simp [JSObj.get] at hget
  | cons p rest ih =>
    obtain ⟨k1, v1⟩ := p
    by_cases hk : k1 = k
    · simp only [JSObj.get, hk, if_true, Option.some.injEq] at hget
      subst hget
      simp [App.hasValue, JSObj.values, hv]
    · simp only [JSObj.get, hk, if_false] at hget
      have := ih hget
      simp only [App.hasValue, JSObj.values, List.map_cons, List.any_cons] at this ⊢
      rw [this, Bool.or_true]

theorem replaceEscape_ne_nil (e r : Char) (s : Str) (hs : s ≠ []) :
    replaceEscape e r s ≠ [] := by
  cases s with
  | nil => exact absurd rfl hs
  | cons a rest =>
    cases rest with
    | nil => simp [replaceEscape]
    | cons b rest2 =>
      simp only [replaceEscape]
      split <;> simp

theorem cellValue_ne_nil (t : Str) (ht : trim t ≠ []) : App.cellValue (some t) ≠ [] := by
  have hne : t ≠ [] := fun h => ht (h ▸ trim_nil)
  simp only [App.cellValue, hne, if_false]
  exact replaceEscape_ne_nil _ _ _ (replaceEscape_ne_nil _ _ _ ht)

theorem replaceEscape_id (e r : Char) (s : Str) (h : ¬ ['\\', e] <:+: s) :
    replaceEscape e r s = s := by
  induction s with
  | nil => rfl
  | cons a t ih =>
    cases t with
    | nil => rfl
    | cons b rest =>
      have htail : ¬ ['\\', e] <:+: b :: rest := fun hin =>
        h (List.IsInfix.trans hin (List.suffix_cons a (b :: rest)).isInfix)
      have hhead : ¬ (a = '\\' ∧ b = e) := by
        rintro ⟨ha, hb⟩
        apply h
        subst ha hb
        exact ⟨[], rest, by simp⟩
      simp only [replaceEscape, hhead, if_false, ih htail]

theorem cellValue_id (s : Str) (hne : s ≠ []) (htrim : trim s = s)
    (hn : ¬ ['\\', 'n'] <:+: s) (hr : ¬ ['\\', 'r'] <:+: s) : App.cellValue (some s) = s := by
  simp only [App.cellValue, hne, if_false, htrim]
  rw [replaceEscape_id 'n' '\n' s hn, replaceEscape_id 'r' '\r' s hr]

theorem later_keys_ne {β : Type} (f : Str → β) (l : List Str) (j : Nat) (a : Str)
    (hnd : (l.map f).Nodup) (ha : l[j]? = some a) : ∀ x ∈ l.drop (j + 1), f x ≠ f a := by
  induction l generalizing j with
  | nil => simp at ha
  | cons b l ih =>
    simp only [List.map_cons, List.nodup_cons] at hnd
    cases j with
    | zero =>
      simp only [List.getElem?_cons_zero, Option.some.injEq] at ha
      subst ha
      intro x hx heq
      simp only [Nat.zero_add, List.drop_succ_cons, List.drop_zero] at hx
      exact hnd.1 (heq ▸ List.mem_map_of_mem f hx)
    | succ j =>
      simp only [List.getElem?_cons_succ] at ha
      simpa using ih j hnd.2 ha

/-- C1, the claim as stated fails: the string made of `a`, a comma, a double
quote and a line feed, written as a quoted field under the header `Title`, is
parsed back without its final line feed, because every value is trimmed. -/
theorem parseCSV_round_trip_trims :
    writeRows true [[plain "Title"], [quoted "a,\"\n"]] = "Title\n\"a,\"\"\n\"\n".toList ∧
    App.parseCSV id "Title\n\"a,\"\"\n\"\n".toList
      = .ok [[("title".toList, "a,\"".toList)]] ∧
    "a,\"".toList ≠ "a,\"\n".toList := by
  decide

/-- C1, amended: for every non-empty string `s` that neither starts nor ends
with white space and holds neither backslash-n nor backslash-r, if `s` is
written as a quoted field (double quotes doubled) in a data row under a
non-blank header row, in a column whose key no later column repeats, then the
general `parseCSV` returns one record, whose value for that column is exactly
`s`. -/
theorem parseCSV_round_trip (host : Str → Str) (finalLF : Bool) (hdr pre post : List Cell)
    (h : Cell) (s : Str)
    (hwf : ∀ row ∈ [hdr, pre, post], ∀ c ∈ row, c.WellFormed) (hhdr : NonBlankRow hdr)
    (hcol : hdr[pre.length]? = some h)
    (hlater : ∀ x ∈ hdr.drop (pre.length + 1),
      App.mappedKey host (App.cleanHeader x.text) ≠ App.mappedKey host (App.cleanHeader h.text))
    (hne : s ≠ []) (htrim : trim s = s)
    (hn : ¬ ['\\', 'n'] <:+: s) (hr : ¬ ['\\', 'r'] <:+: s) :
    ∃ record,
      App.parseCSV host (writeRows finalLF [hdr, pre ++ ⟨s, true⟩ :: post]) = .ok [record] ∧
      record.get (App.mappedKey host (App.cleanHeader h.text)) = some s := by
  have hwf2 : ∀ row ∈ hdr :: [pre ++ ⟨s, true⟩ :: post], ∀ c ∈ row, c.WellFormed := by
    intro row hrow c hc
    simp only [List.mem_cons, List.mem_singleton, List.not_mem_nil, or_false] at hrow
    rcases hrow with hrow | hrow
    · exact hwf row (by simp [hrow]) c hc
    · subst hrow
      simp only [List.mem_append, List.mem_cons] at hc
      rcases hc with hc | hc | hc
      · exact hwf pre (by simp) c hc
      · subst hc
        exact Or.inl rfl
      · exact hwf post (by simp) c hc
  have hts : trim s ≠ [] := by rw [htrim]; exact hne
  have hvis : ∀ row ∈ [pre ++ ⟨s, true⟩ :: post], VisibleRow row := by
    intro row hrow
    simp only [List.mem_singleton] at hrow
    subst hrow
    exact visibleRow_of_nonBlank _ ⟨⟨s, true⟩, by simp, hts⟩
  have hget := fillRow_get host (hdr.map (fun c => App.cleanHeader c.text))
    ((pre ++ ⟨s, true⟩ :: post).map Cell.text) [] pre.length (App.cleanHeader h.text)
    (by simp [hcol])
    (by
      intro x hx
      rw [← List.map_drop] at hx
      obtain ⟨y, hy, hyx⟩ := List.mem_map.mp hx
      rw [← hyx]
      exact hlater y hy)
  have hval : ((pre ++ ⟨s, true⟩ :: post).map Cell.text)[pre.length]? = some s := by
    rw [List.map_append, List.getElem?_append_right (by simp)]
    simp
  rw [hval, cellValue_id s hne htrim hn hr] at hget
  have hhas := hasValue_of_get _ _ _ hget hne
  refine ⟨_, ?_, hget⟩
  rw [parseCSV_writeRows host finalLF hdr _ hwf2 hhdr hvis]
  simp only [List.map_cons, List.map_nil, List.filter_cons, hhas, if_true, List.filter_nil]

theorem parseCSV_round_trip_witness :
    (∀ row ∈ [[plain "Company name", plain " Title ", plain "JD"], [quoted " Acme "],
        [plain "x"]], ∀ c ∈ row, c.WellFormed) ∧
    NonBlankRow [plain "Company name", plain " Title ", plain "JD"] ∧
    [plain "Company name", plain " Title ", plain "JD"][[quoted " Acme "].length]?
      = some (plain " Title ") ∧
    "a,\"\nb".toList ≠ [] ∧ trim "a,\"\nb".toList = "a,\"\nb".toList ∧
    ∃ record,
      App.parseCSV id (writeRows false [[plain "Company name", plain " Title ", plain "JD"],
        [quoted " Acme "] ++ ⟨"a,\"\nb".toList, true⟩ :: [plain "x"]]) = .ok [record] ∧
      record.get (App.mappedKey id (App.cleanHeader (plain " Title ").text))
        = some "a,\"\nb".toList :=
  ⟨by decide, by decide, by decide, by decide, by decide,
    parseCSV_round_trip id false [plain "Company name", plain " Title ", plain "JD"]
      [quoted " Acme "] [plain "x"] (plain " Title ") "a,\"\nb".toList (by decide) (by decide)
      (by decide) (by decide) (by decide) (by decide) (by decide) (by decide)⟩

/-- The record built from a row holds a value as soon as one of the columns
under a header is not empty after trimming, when the header keys are pairwise
distinct. -/
theorem hasValue_fillRow (host : Str → Str) (hdr row : List Cell)
    (hkeys : (hdr.map (fun c => App.mappedKey host (App.cleanHeader c.text))).Nodup)
    (hval : ∃ c ∈ row.take hdr.length, trim c.text ≠ []) :
    App.hasValue (App.fillRow host [] (hdr.map (fun c => App.cleanHeader c.text))
      (row.map Cell.text)) = true := by
  obtain ⟨c, hc, ht⟩ := hval
  obtain ⟨j, hj⟩ := List.mem_iff_getElem?.mp hc
  have hjlt : j < hdr.length := by
    by_contra hge
    rw [List.getElem?_take_eq_none (Nat.le_of_not_lt hge)] at hj
    simp at hj
  rw [List.getElem?_take_of_lt hjlt] at hj
  obtain ⟨h, hh⟩ : ∃ h, hdr[j]? = some h := ⟨hdr[j], by simp [hjlt]⟩
  have hnd : ((hdr.map (fun c => App.cleanHeader c.text)).map (App.mappedKey host)).Nodup := by
    simpa [List.map_map, Function.comp] using hkeys
  have hget := fillRow_get host (hdr.map (fun c => App.cleanHeader c.text))
    (row.map Cell.text) [] j (App.cleanHeader h.text) (by simp [hh])
    (later_keys_ne (App.mappedKey host) _ j _ hnd (by simp [hh]))
  have hv : (row.map Cell.text)[j]? = some c.text := by simp [hj]
  rw [hv] at hget
  exact hasValue_of_get _ _ _ hget (cellValue_ne_nil c.text ht)

/-- C2, the claim as stated fails: under the header row `A`, the data row
`,x` is not blank, yet its only value under a header is empty and the parser
returns no record for it. -/
theorem parseCSV_drops_row_without_value :
    writeRows true [[plain "A"], [plain "", plain "x"]] = "A\n,x\n".toList ∧
    NonBlankRow [plain "A"] ∧ NonBlankRow [plain "", plain "x"] ∧
    App.parseCSV id "A\n,x\n".toList = .ok [] := by
  decide

/-- C2, amended: for every CSV text made of a non-blank header row whose
column keys are pairwise distinct, followed by N data rows each of which
holds, in a column under a header, a value that is not empty after trimming,
the general `parseCSV` returns exactly N records, the i-th built from the
i-th data row. -/
theorem parseCSV_one_record_per_row (host : Str → Str) (finalLF : Bool) (hdr : List Cell)
    (table : List (List Cell))
    (hwf : ∀ row ∈ hdr :: table, ∀ c ∈ row, c.WellFormed) (hhdr : NonBlankRow hdr)
    (hkeys : (hdr.map (fun c => App.mappedKey host (App.cleanHeader c.text))).Nodup)
    (hval : ∀ row ∈ table, ∃ c ∈ row.take hdr.length, trim c.text ≠ []) :
    ∃ records, App.parseCSV host (writeRows finalLF (hdr :: table)) = .ok records ∧
      records = table.map (fun row => App.fillRow host []
        (hdr.map (fun c => App.cleanHeader c.text)) (row.map Cell.text)) ∧
      records.length = table.length := by
  have hvis : ∀ row ∈ table, VisibleRow row := by
    intro row hrow
    obtain ⟨c, hc, ht⟩ := hval row hrow
    exact visibleRow_of_nonBlank row ⟨c, List.mem_of_mem_take hc, ht⟩
  refine ⟨_, ?_, rfl, by simp⟩
  rw [parseCSV_writeRows host finalLF hdr table hwf hhdr hvis]
  congr 1
  rw [List.filter_eq_self]
  intro record hrecord
  obtain ⟨row, hrow, hbuilt⟩ := List.mem_map.mp hrecord
  rw [← hbuilt]
  exact hasValue_fillRow host hdr row hkeys (hval row hrow)

theorem parseCSV_one_record_per_row_witness :
    (∀ row ∈ [plain "Company name", plain "Title", plain "Notes"] ::
        [[plain "Acme", quoted "Eng, senior"], [plain "", plain "", plain "x", plain "y"],
         [quoted "Globex"]], ∀ c ∈ row, c.WellFormed) ∧
    NonBlankRow [plain "Company name", plain "Title", plain "Notes"] ∧
    (∀ row ∈ [[plain "Acme", quoted "Eng, senior"], [plain "", plain "", plain "x", plain "y"],
         [quoted "Globex"]],
      ∃ c ∈ row.take [plain "Company name", plain "Title", plain "Notes"].length,
        trim c.text ≠ []) ∧
    ∃ records,
      App.parseCSV id (writeRows true ([plain "Company name", plain "Title", plain "Notes"] ::
        [[plain "Acme", quoted "Eng, senior"], [plain "", plain "", plain "x", plain "y"],
         [quoted "Globex"]])) = .ok records ∧
      records.length = 3 := by
  refine ⟨by decide, by decide, by decide, ?_⟩
  obtain ⟨records, h1, _, h3⟩ := parseCSV_one_record_per_row id true
    [plain "Company name", plain "Title", plain "Notes"]
    [[plain "Acme", quoted "Eng, senior"], [plain "", plain "", plain "x", plain "y"],
      [quoted "Globex"]] (by decide) (by decide) (by decide) (by decide)
  exact ⟨records, h1, h3⟩

/-! ### General parser: byte-order mark, line ends and short inputs -/

/-- C20: for every text that does not itself begin with a byte-order mark,
the general `parseCSV` returns the same for the text prefixed with one
byte-order mark as for the text. -/
theorem parseCSV_byteOrderMark (host : Str → Str) (s : Str)
    (hs : s.head? ≠ some byteOrderMark) :
    App.parseCSV host (byteOrderMark :: s) = App.parseCSV host s := by
  have h1 : App.stripBOM (byteOrderMark :: s) = s := by
    simp [App.stripBOM, byteOrderMark]
  have h2 : App.stripBOM s = s := by
    cases s with
    | nil => rfl
    | cons c cs =>
      have hc : c.toNat ≠ 0xFEFF := by
        intro h
        apply hs
        have : c = byteOrderMark := by
          apply Char.ext
          apply UInt32.ext
          exact h
        simp [this]
      simp [App.stripBOM, hc]
  unfold App.parseCSV App.tokenize
  rw [h1, h2]

theorem parseCSV_byteOrderMark_witness :
    "Company name,Title\nAcme,Eng\n".toList.head? ≠ some byteOrderMark ∧
    App.parseCSV id (byteOrderMark :: "Company name,Title\nAcme,Eng\n".toList)
      = App.parseCSV id "Company name,Title\nAcme,Eng\n".toList :=
  ⟨by decide, parseCSV_byteOrderMark id "Company name,Title\nAcme,Eng\n".toList (by decide)⟩

theorem pushRow_length_le (rows : List (List Str)) (row : List Str) (fld : Str) :
    (App.pushRow rows row fld).length ≤ rows.length + 1 := by
  unfold App.pushRow
  split <;> simp

/-- Without carriage return and line feed the character loop never closes a
row before the end of the text. -/
theorem scanRows_length_le (n : Nat) :
    ∀ (cs : Str), cs.length ≤ n → (∀ c ∈ cs, c ≠ '\r' ∧ c ≠ '\n') →
      ∀ (q : Bool) (fld : Str) (row : List Str) (rows : List (List Str)),
        (App.scanRows cs q fld row rows).length ≤ rows.length + 1 := by
  induction n with
  | zero =>
    intro cs hlen _ q fld row rows
    have : cs = [] := List.length_eq_zero.mp (Nat.le_zero.mp hlen)
    subst this
    simpa [App.scanRows] using pushRow_length_le rows row fld
  | succ n ih =>
    intro cs hlen hnl q fld row rows
    cases cs with
    | nil => simpa [App.scanRows] using pushRow_length_le rows row fld
    | cons c rest =>
      have hc := hnl c (List.mem_cons_self _ _)
      have hrest : ∀ x ∈ rest, x ≠ '\r' ∧ x ≠ '\n' :=
        fun x hx => hnl x (List.mem_cons_of_mem _ hx)
      have hlen1 : rest.length ≤ n := by simpa using hlen
      cases rest with
      | nil =>
        simp only [App.scanRows, hc.1, hc.2, or_self, false_and, if_false]
        split
        · exact pushRow_length_le _ _ _
        · split
          · exact pushRow_length_le _ _ _
          · exact pushRow_length_le _ _ _
      | cons d rest2 =>
        have hrest2 : ∀ x ∈ rest2, x ≠ '\r' ∧ x ≠ '\n' :=
          fun x hx => hrest x (List.mem_cons_of_mem _ hx)
        have hlen2 : rest2.length ≤ n := by
          simp only [List.length_cons] at hlen1
          omega
        simp only [App.scanRows, hc.1, hc.2, or_self, false_and, if_false]
        split
        · split
          · exact ih rest2 hlen2 hrest2 _ _ _ _
          · exact ih (d :: rest2) hlen1 hrest _ _ _ _
        · split
          · exact ih (d :: rest2) hlen1 hrest _ _ _ _
          · exact ih (d :: rest2) hlen1 hrest _ _ _ _

/-- C21: every text that tokenises to fewer than two rows, in particular
every text without carriage return and line feed, is parsed by the general
`parseCSV` into the empty record sequence. -/
theorem parseCSV_short_input (host : Str → Str) (text : Str) :
    ((App.tokenize text).length < 2 → App.parseCSV host text = .ok []) ∧
    ((∀ c ∈ text, c ≠ '\r' ∧ c ≠ '\n') →
      (App.tokenize text).length < 2 ∧ App.parseCSV host text = .ok []) := by
  have hfirst : (App.tokenize text).length < 2 → App.parseCSV host text = .ok [] := by
    intro h
    simp [App.parseCSV, h]
  refine ⟨hfirst, fun hnl => ?_⟩
  have hstrip : ∀ c ∈ App.stripBOM text, c ≠ '\r' ∧ c ≠ '\n' := by
    intro c hc
    cases text with
    | nil => simp [App.stripBOM] at hc
    | cons a rest =>
      by_cases ha : a.toNat = 0xFEFF
      · simp only [App.stripBOM, ha, if_true] at hc
        exact hnl c (List.mem_cons_of_mem _ hc)
      · simp only [App.stripBOM, ha, if_false] at hc
        exact hnl c hc
  have hlen : (App.tokenize text).length < 2 := by
    have := scanRows_length_le (App.stripBOM text).length (App.stripBOM text) (Nat.le_refl _)
      hstrip false [] [] []
    simp only [List.length_nil] at this
    unfold App.tokenize
    omega
  exact ⟨hlen, hfirst hlen⟩

theorem parseCSV_short_input_witness :
    (∀ c ∈ "Company name,\"Title\",x".toList, c ≠ '\r' ∧ c ≠ '\n') ∧
    (App.tokenize "Company name,\"Title\",x".toList).length < 2 ∧
    App.parseCSV id "Company name,\"Title\",x".toList = .ok [] :=
  ⟨by decide,
    (parseCSV_short_input id "Company name,\"Title\",x".toList).2 (by decide)⟩

theorem scanRows_crlf (cs : Str) (fld : Str) (row : List Str) (rows : List (List Str)) :
    App.scanRows ('\r' :: '\n' :: cs) false fld row rows
      = App.scanRows cs false [] [] (App.pushRow rows row fld) := by
  by_cases h : row.length > 0 ∨ fld ≠ []
  · simp [App.scanRows, h]
  · have hr : row = [] := by
      cases row with
      | nil => rfl
      | cons a l => exact absurd (Or.inl (by simp)) h
    have hf : fld = [] := by
      by_contra hf
      exact h (Or.inr hf)
    subst hr hf
    simp [App.scanRows]

theorem scanRows_cr (cs : Str) (fld : Str) (row : List Str) (rows : List (List Str))
    (hcs : cs.head? ≠ some '\n') :
    App.scanRows ('\r' :: cs) false fld row rows
      = App.scanRows cs false [] [] (App.pushRow rows row fld) := by
  have hstate : (if decide (row.length > 0 ∨ fld ≠ []) = true then ([] : List Str) else row) = []
      ∧ (if decide (row.length > 0 ∨ fld ≠ []) = true then ([] : Str) else fld) = [] := by
    by_cases h : row.length > 0 ∨ fld ≠ []
    · simp [h]
    · have hr : row = [] := by
        cases row with
        | nil => rfl
        | cons a l => exact absurd (Or.inl (by simp)) h
      have hf : fld = [] := by
        by_contra hf
        exact h (Or.inr hf)
      simp [hr, hf]
  cases cs with
  | nil => simp only [App.scanRows, Char.reduceEq, if_false, true_or, and_self, if_true,
      false_and, hstate.1, hstate.2]
  | cons d rest =>
    have hd : d ≠ '\n' := by simpa using hcs
    simp only [App.scanRows, Char.reduceEq, if_false, true_or, and_self, if_true,
      false_and, hd, and_false, hstate.1, hstate.2]

theorem lfToCr_head (text : Str) : (lfToCr text).head? ≠ some '\n' := by
  cases text with
  | nil => simp [lfToCr]
  | cons c cs =>
    by_cases hc : c = '\n'
    · simp [lfToCr, hc]
    · simp [lfToCr, hc]

/-- Outside quotes, a carriage return or the pair carriage return, line feed
ends a row exactly as a line feed does. -/
theorem scanRows_lineEnds (text : Str) (hq : ∀ c ∈ text, c ≠ '"' ∧ c ≠ '\r') :
    ∀ (fld : Str) (row : List Str) (rows : List (List Str)),
      App.scanRows (lfToCrlf text) false fld row rows = App.scanRows text false fld row rows ∧
      App.scanRows (lfToCr text) false fld row rows = App.scanRows text false fld row rows := by
  induction text with
  | nil => intro fld row rows; exact ⟨rfl, rfl⟩
  | cons c cs ih =>
    intro fld row rows
    have hc := hq c (List.mem_cons_self _ _)
    have ih2 := ih (fun x hx => hq x (List.mem_cons_of_mem _ hx))
    by_cases hlf : c = '\n'
    · subst hlf
      simp only [lfToCrlf, lfToCr, if_true]
      rw [scanRows_crlf, scanRows_cr _ _ _ _ (lfToCr_head cs), scanRows_lineFeed]
      exact ih2 _ _ _
    · by_cases hcomma : c = ','
      · subst hcomma
        simp only [lfToCrlf, lfToCr, hlf, if_false]
        rw [scanRows_comma, scanRows_comma, scanRows_comma]
        exact ih2 _ _ _
      · have hsp : isSpecial c = false := by simp [isSpecial, hc.1, hc.2, hlf, hcomma]
        simp only [lfToCrlf, lfToCr, hlf, if_false]
        rw [scanRows_plain _ _ _ _ _ hsp, scanRows_plain _ _ _ _ _ hsp,
          scanRows_plain _ _ _ _ _ hsp]
        exact ih2 _ _ _

theorem stripBOM_lineEnds (text : Str) :
    App.stripBOM (lfToCrlf text) = lfToCrlf (App.stripBOM text) ∧
    App.stripBOM (lfToCr text) = lfToCr (App.stripBOM text) := by
  cases text with
  | nil => exact ⟨rfl, rfl⟩
  | cons c cs =>
    by_cases hb : c.toNat = 0xFEFF
    · have hlf : c ≠ '\n' := by
        intro h
        rw [h] at hb
        revert hb
        decide
      simp [lfToCrlf, lfToCr, hlf, App.stripBOM, hb]
    · by_cases hlf : c = '\n'
      · subst hlf
        simp [lfToCrlf, lfToCr, App.stripBOM]
      · simp [lfToCrlf, lfToCr, hlf, App.stripBOM, hb]

/-- C19: for every text without double quote and carriage return, replacing
every line feed by carriage return and line feed, or by a single carriage
return, leaves the result of the general `parseCSV` unchanged. -/
theorem parseCSV_lineEnds (host : Str → Str) (text : Str)
    (hq : ∀ c ∈ text, c ≠ '"' ∧ c ≠ '\r') :
    App.parseCSV host (lfToCrlf text) = App.parseCSV host text ∧
    App.parseCSV host (lfToCr text) = App.parseCSV host text := by
  have hstrip : ∀ c ∈ App.stripBOM text, c ≠ '"' ∧ c ≠ '\r' := by
    intro c hc
    cases text with
    | nil => simp [App.stripBOM] at hc
    | cons a rest =>
      by_cases ha : a.toNat = 0xFEFF
      · simp only [App.stripBOM, ha, if_true] at hc
        exact hq c (List.mem_cons_of_mem _ hc)
      · simp only [App.stripBOM, ha, if_false] at hc
        exact hq c hc
  have hscan := scanRows_lineEnds (App.stripBOM text) hstrip [] [] []
  have hbom := stripBOM_lineEnds text
  have h1 : App.tokenize (lfToCrlf text) = App.tokenize text := by
    unfold App.tokenize
    rw [hbom.1, hscan.1]
  have h2 : App.tokenize (lfToCr text) = App.tokenize text := by
    unfold App.tokenize
    rw [hbom.2, hscan.2]
  unfold App.parseCSV
  rw [h1, h2]
  exact ⟨rfl, rfl⟩

theorem parseCSV_lineEnds_witness :
    (∀ c ∈ "Company name,Title\n\nAcme,Eng\nGlobex,\n".toList, c ≠ '"' ∧ c ≠ '\r') ∧
    lfToCrlf "Company name,Title\n\nAcme,Eng\nGlobex,\n".toList
      = "Company name,Title\r\n\r\nAcme,Eng\r\nGlobex,\r\n".toList ∧
    App.parseCSV id (lfToCrlf "Company name,Title\n\nAcme,Eng\nGlobex,\n".toList)
      = App.parseCSV id "Company name,Title\n\nAcme,Eng\nGlobex,\n".toList :=
  ⟨by decide, by decide,
    (parseCSV_lineEnds id "Company name,Title\n\nAcme,Eng\nGlobex,\n".toList (by decide)).1⟩

/-! ### General parser: header keys -/

theorem JSObj.mem_of_get {α : Type} (o : JSObj α) (k : Str) (v : α)
    (h : JSObj.get o k = some v) : (k, v) ∈ o := by
  induction o with
  | nil => simp [JSObj.get] at h
  | cons p rest ih =>
    obtain ⟨k1, v1⟩ := p
    by_cases hk : k1 = k
    · simp only [JSObj.get, hk, if_true, Option.some.injEq] at h
      simp [hk, h]
    · simp only [JSObj.get, hk, if_false] at h
      exact List.mem_cons_of_mem _ (ih h)

theorem fillRow_get_isSome (host : Str → Str) (hs vs : List Str) (row0 : Record) (k : Str)
    (h : (row0.get k).isSome = true) : ((App.fillRow host row0 hs vs).get k).isSome = true := by
  induction hs generalizing row0 vs with
  | nil => exact h
  | cons x hs ih =>
    simp only [App.fillRow]
    apply ih
    by_cases hk : k = App.mappedKey host x
    · rw [hk, JSObj.get_set_self]; rfl
    · rw [JSObj.get_set_other _ _ _ _ hk]; exact h

theorem fillRow_key_present (host : Str → Str) (hs vs : List Str) (row0 : Record) (x : Str)
    (hx : x ∈ hs) : ((App.fillRow host row0 hs vs).get (App.mappedKey host x)).isSome = true := by
  induction hs generalizing row0 vs with
  | nil => simp at hx
  | cons y hs ih =>
    simp only [App.fillRow]
    rcases List.mem_cons.mp hx with h | h
    · subst h
      apply fillRow_get_isSome
      rw [JSObj.get_set_self]; rfl
    · exact ih _ _ h

/-- C17 (failing input): the header `toString` is none of the twelve display
names, yet the lookup `COLUMN_MAPPING[header]` finds the method inherited
from `Object.prototype`, and the record key is the text of that function,
not the header. -/
theorem mappedKey_inherited_member :
    App.COLUMN_MAPPING.get (App.cleanHeader " toString ".toList) = none ∧
    App.mappedKey engineText (App.cleanHeader " toString ".toList)
      = "function toString() \x7b [native code] \x7d".toList ∧
    App.mappedKey engineText (App.cleanHeader " toString ".toList)
      ≠ App.cleanHeader " toString ".toList := by
  decide

/-- For every header cell whose cleaned text (trimmed, runs of
white space collapsed to one space) names no member of `Object.prototype`,
the record key is the canonical key of `COLUMN_MAPPING` when the cleaned text
is one of its twelve display names and the cleaned text itself otherwise;
every record built under a header row that holds the cell has that key. -/
theorem mappedKey_spec (host : Str → Str) (header : Str)
    (hplain : App.cleanHeader header ∉ objectPrototypeKeys) :
    (∀ key, App.COLUMN_MAPPING.get (App.cleanHeader header) = some key →
      App.mappedKey host (App.cleanHeader header) = key) ∧
    (App.COLUMN_MAPPING.get (App.cleanHeader header) = none →
      App.mappedKey host (App.cleanHeader header) = App.cleanHeader header) ∧
    (∀ (headerRow values : List Str), header ∈ headerRow →
      ∃ v, (App.fillRow host [] (headerRow.map App.cleanHeader) values).get
        (App.mappedKey host (App.cleanHeader header)) = some v) := by
  refine ⟨?_, ?_, ?_⟩
  · intro key hkey
    have hmem := JSObj.mem_of_get _ _ _ hkey
    have hall : ∀ p ∈ App.COLUMN_MAPPING, p.2 ≠ [] := by decide
    have hne : key ≠ [] := hall _ hmem
    simp [App.mappedKey, hkey, hne]
  · intro hnone
    simp [App.mappedKey, hnone, hplain]
  · intro headerRow values hmem
    have h := fillRow_key_present host (headerRow.map App.cleanHeader) values []
      (App.cleanHeader header) (List.mem_map_of_mem _ hmem)
    exact Option.isSome_iff_exists.mp h

theorem mappedKey_spec_witness :
    App.cleanHeader "  Recruiter   notes ".toList ∉ objectPrototypeKeys ∧
    App.COLUMN_MAPPING.get (App.cleanHeader "  Recruiter   notes ".toList) = none ∧
    App.mappedKey id (App.cleanHeader "  Recruiter   notes ".toList)
      = "Recruiter notes".toList :=
  ⟨by decide, by decide, by
    have h := (mappedKey_spec id "  Recruiter   notes ".toList (by decide)).2.1 (by decide)
    rw [h]
    decide⟩

/-! ### General parser: which rows become records -/

theorem JSObj.mem_set {α : Type} (o : JSObj α) (k : Str) (v : α) (p : Str × α)
    (hp : p ∈ JSObj.set o k v) : p ∈ o ∨ p = (k, v) := by
  unfold JSObj.set at hp
  have hrep : ∀ (o : JSObj α), p ∈ JSObj.replace o k v → p ∈ o ∨ p = (k, v) := by
    intro o
    induction o with
    | nil => intro h; simp [JSObj.replace] at h
    | cons q rest ih =>
      obtain ⟨k1, v1⟩ := q
      intro h
      by_cases hk : k1 = k
      · simp only [JSObj.replace, hk, if_true, List.mem_cons] at h
        rcases h with h | h
        · exact Or.inr h
        · exact Or.inl (List.mem_cons_of_mem _ h)
      · simp only [JSObj.replace, hk, if_false, List.mem_cons] at h
        rcases h with h | h
        · exact Or.inl (h ▸ List.mem_cons_self _ _)
        · rcases ih h with h2 | h2
          · exact Or.inl (List.mem_cons_of_mem _ h2)
          · exact Or.inr h2
  have hins : ∀ (n : Nat) (o : JSObj α), p ∈ JSObj.insertIndex n k v o → p ∈ o ∨ p = (k, v) := by
    intro n o
    induction o with
    | nil => intro h; simp only [JSObj.insertIndex, List.mem_singleton] at h; exact Or.inr h
    | cons q rest ih =>
      obtain ⟨k1, v1⟩ := q
      intro h
      simp only [JSObj.insertIndex] at h
      split at h
      · split at h
        · rcases List.mem_cons.mp h with h | h
          · exact Or.inl (h ▸ List.mem_cons_self _ _)
          · rcases ih h with h2 | h2
            · exact Or.inl (List.mem_cons_of_mem _ h2)
            · exact Or.inr h2
        · rcases List.mem_cons.mp h with h | h
          · exact Or.inr h
          · exact Or.inl h
      · rcases List.mem_cons.mp h with h | h
        · exact Or.inr h
        · exact Or.inl h
  cases hget : JSObj.get o k with
  | some w =>
    simp only [hget] at hp
    exact hrep o hp
  | none =>
    simp only [hget] at hp
    cases hidx : arrayIndex k with
    | some n =>
      simp only [hidx] at hp
      exact hins n o hp
    | none =>
      simp only [hidx, List.mem_append, List.mem_singleton] at hp
      exact hp

/-- Every value of a built record is the cleaned value of a column under a
header. -/
theorem fillRow_mem (host : Str → Str) (hs vs : List Str) (row0 : Record) (p : Str × Str)
    (hp : p ∈ App.fillRow host row0 hs vs) :
    p ∈ row0 ∨ ∃ j, j < hs.length ∧ p.2 = App.cellValue vs[j]? := by
  induction hs generalizing row0 vs with
  | nil => exact Or.inl hp
  | cons x hs ih =>
    simp only [App.fillRow] at hp
    rcases ih _ _ hp with h | ⟨j, hj, hv⟩
    · rcases JSObj.mem_set _ _ _ _ h with h2 | h2
      · exact Or.inl h2
      · refine Or.inr ⟨0, by simp, ?_⟩
        rw [h2]
        cases vs <;> simp
    · refine Or.inr ⟨j + 1, by simpa using hj, ?_⟩
      rw [hv]
      cases vs <;> simp

theorem replaceEscape_nil (e r : Char) : replaceEscape e r [] = [] := rfl

theorem cellValue_ne_nil_inv (cell : Option Str) (h : App.cellValue cell ≠ []) :
    ∃ t, cell = some t ∧ trim t ≠ [] := by
  cases cell with
  | none => exact absurd rfl h
  | some t =>
    refine ⟨t, rfl, ?_⟩
    intro ht
    apply h
    by_cases hne : t = []
    · simp [App.cellValue, hne, replaceEscape_nil]
    · simp [App.cellValue, hne, ht, replaceEscape_nil]

/-- With pairwise distinct header keys, the record built from a row holds a
value exactly when a column under a header is not empty after trimming. -/
theorem hasValue_fillRow_iff (host : Str → Str) (headers values : List Str)
    (hkeys : (headers.map (App.mappedKey host)).Nodup) :
    App.hasValue (App.fillRow host [] headers values) = true
      ↔ ∃ v ∈ values.take headers.length, trim v ≠ [] := by
  constructor
  · intro h
    simp only [App.hasValue, JSObj.values, List.any_eq_true, List.mem_map, ne_eq,
      decide_eq_true_eq] at h
    obtain ⟨val, ⟨p, hp, hpv⟩, hval⟩ := h
    rcases fillRow_mem host headers values [] p hp with h0 | ⟨j, hj, hv⟩
    · simp at h0
    · rw [← hpv, hv] at hval
      obtain ⟨t, ht, htrim⟩ := cellValue_ne_nil_inv _ hval
      refine ⟨t, ?_, htrim⟩
      apply List.mem_iff_getElem?.mpr
      exact ⟨j, by rw [List.getElem?_take_of_lt hj]; exact ht⟩
  · rintro ⟨v, hv, htrim⟩
    obtain ⟨j, hj⟩ := List.mem_iff_getElem?.mp hv
    have hjlt : j < headers.length := by
      by_contra hge
      rw [List.getElem?_take_eq_none (Nat.le_of_not_lt hge)] at hj
      simp at hj
    rw [List.getElem?_take_of_lt hjlt] at hj
    have hget := fillRow_get host headers values [] j headers[j] (by simp [hjlt])
      (later_keys_ne (App.mappedKey host) _ j _ hkeys (by simp [hjlt]))
    rw [hj] at hget
    exact hasValue_of_get _ _ _ hget (cellValue_ne_nil v htrim)

/-- C18, the claim as stated fails: under the header row `A,A` the data row
`x,` has a non-empty value in a column under a header, but the second column
writes the empty text under the same key and the row yields no record. -/
theorem parseCSV_duplicate_header_drops_row :
    App.tokenize "A,A\nx,\n".toList
      = [["A".toList, "A".toList], ["x".toList, "".toList]] ∧
    (∃ v ∈ ["x".toList, "".toList].take ["A".toList, "A".toList].length, trim v ≠ []) ∧
    App.parseCSV id "A,A\nx,\n".toList = .ok [] := by
  decide

/-- C18, amended: when the keys of the header columns are pairwise distinct,
the general `parseCSV` returns, in order, the records built from exactly those
tokenised data rows that hold a value non-empty after trimming in a column
that has a header; a row whose values under the headers are all empty yields
no record. -/
theorem parseCSV_keeps_rows_with_value (host : Str → Str) (text : Str) (headerRow : List Str)
    (dataRows : List (List Str)) (htok : App.tokenize text = headerRow :: dataRows)
    (hkeys : ((headerRow.map App.cleanHeader).map (App.mappedKey host)).Nodup) :
    App.parseCSV host text
      = .ok ((dataRows.filter (fun values =>
            decide (∃ v ∈ values.take headerRow.length, trim v ≠ []))).map
          (fun values => App.fillRow host [] (headerRow.map App.cleanHeader) values)) := by
  unfold App.parseCSV
  rw [htok]
  cases dataRows with
  | nil => simp
  | cons row rest =>
    have hlen : ¬ (headerRow :: row :: rest).length < 2 := by simp
    simp only [hlen, if_false, List.getElem?_cons_zero, List.drop_succ_cons, List.drop_zero]
    rw [List.filter_map]
    congr 2
    apply List.filter_congr
    intro values _
    have h := hasValue_fillRow_iff host (headerRow.map App.cleanHeader) values hkeys
    simp only [List.length_map] at h
    simp only [Function.comp]
    by_cases hv : ∃ v ∈ values.take headerRow.length, trim v ≠ []
    · rw [h.mpr hv]; simp [hv]
    · have : App.hasValue (App.fillRow host [] (headerRow.map App.cleanHeader) values)
          = false := by
        cases hh : App.hasValue (App.fillRow host [] (headerRow.map App.cleanHeader) values)
        · rfl
        · exact absurd (h.mp hh) hv
      rw [this]; simp [hv]

theorem parseCSV_keeps_rows_with_value_witness :
    App.tokenize "Title,City\n ,\nEng,\n\" \",Oslo\n".toList
      = ["Title".toList, "City".toList] ::
        [[" ".toList, "".toList], ["Eng".toList, "".toList], [" ".toList, "Oslo".toList]] ∧
    App.parseCSV id "Title,City\n ,\nEng,\n\" \",Oslo\n".toList
      = .ok (([[" ".toList, "".toList], ["Eng".toList, "".toList],
            [" ".toList, "Oslo".toList]].filter (fun values =>
              decide (∃ v ∈ values.take ["Title".toList, "City".toList].length,
                trim v ≠ []))).map
          (fun values => App.fillRow id []
            (["Title".toList, "City".toList].map App.cleanHeader) values)) :=
  ⟨by decide,
    parseCSV_keeps_rows_with_value id "Title,City\n ,\nEng,\n\" \",Oslo\n".toList
      ["Title".toList, "City".toList]
      [[" ".toList, "".toList], ["Eng".toList, "".toList], [" ".toList, "Oslo".toList]]
      (by decide) (by decide)⟩

/-! ### Hiring-signal parser: mapped rows -/

/-- Assigning properties with new, pairwise distinct keys that are not array
indices appends them in order. -/
theorem JSObj.foldl_set_fresh {α : Type} (entries : List (Str × α)) (acc : JSObj α)
    (hidx : ∀ e ∈ entries, arrayIndex e.1 = none)
    (hnd : (JSObj.keys acc ++ entries.map Prod.fst).Nodup) :
    entries.foldl (fun o e => JSObj.set o e.1 e.2) acc = acc ++ entries := by
  induction entries generalizing acc with
  | nil => simp
  | cons e rest ih =>
    have hfresh : e.1 ∉ JSObj.keys acc := by
      intro hmem
      have := (List.nodup_append.mp hnd).2.2
      exact this hmem (List.mem_cons_self _ _)
    have hget : JSObj.get acc e.1 = none := (JSObj.get_eq_none_iff acc e.1).mpr hfresh
    have hset : JSObj.set acc e.1 e.2 = acc ++ [e] := by
      simp [JSObj.set, hget, hidx e (List.mem_cons_self _ _)]
    simp only [List.foldl_cons, hset]
    rw [ih _ (fun x hx => hidx x (List.mem_cons_of_mem _ hx))]
    · rw [List.append_assoc, List.singleton_append]
    · have hk : JSObj.keys (acc ++ [e]) ++ rest.map Prod.fst
          = JSObj.keys acc ++ (e :: rest).map Prod.fst := by
        simp only [JSObj.keys, List.map_append, List.map_cons, List.map_nil, List.append_assoc,
          List.singleton_append]
      rw [hk]
      exact hnd

/-- C25: for every raw row, `mapRow` returns a record with exactly the
sixteen pairwise distinct keys of `COLUMN_MAP`, in column order, each holding
the raw row's value under the corresponding slug, or the empty text when the
raw row has none; no other key of the raw row is carried over. A raw row
with the company name, the news (under the slug spelt
`comapany_recent_news`) and the key `notes` gives these two values, fourteen
empty texts and no `notes`. -/
theorem mapRow_spec (raw : Record) :
    HiringSignals.mapRow raw
      = HiringSignals.COLUMN_MAP.map (fun col => (col.2, (raw.get col.1).getD [])) ∧
    JSObj.keys (HiringSignals.mapRow raw)
      = ["companyName", "companyWebsite", "fundingAmount", "fundingDate", "companySize",
         "industry", "companyDescription", "targetDecisionMaker", "contactEmail",
         "companyLinkedin", "companyRecentNews", "outreachMessage", "hiringScore",
         "impactLevel", "impactType", "seniorLinkedin"].map String.toList ∧
    (JSObj.keys (HiringSignals.mapRow raw)).Nodup ∧
    (JSObj.keys (HiringSignals.mapRow raw)).length = 16 ∧
    (∀ slug key, (slug, key) ∈ HiringSignals.COLUMN_MAP →
      (HiringSignals.mapRow raw).get key = some ((raw.get slug).getD [])) ∧
    HiringSignals.mapRow
        (mkRecord [("notes", "call back"), ("company_name", "Acme"),
          ("comapany_recent_news", "Raised a round")])
      = mkRecord [("companyName", "Acme"), ("companyWebsite", ""), ("fundingAmount", ""),
          ("fundingDate", ""), ("companySize", ""), ("industry", ""),
          ("companyDescription", ""), ("targetDecisionMaker", ""), ("contactEmail", ""),
          ("companyLinkedin", ""), ("companyRecentNews", "Raised a round"),
          ("outreachMessage", ""), ("hiringScore", ""), ("impactLevel", ""),
          ("impactType", ""), ("seniorLinkedin", "")] := by
  have hnd : (HiringSignals.COLUMN_MAP.map Prod.snd).Nodup := by decide
  have hidx : ∀ k ∈ HiringSignals.COLUMN_MAP.map Prod.snd, arrayIndex k = none := by decide
  have h : HiringSignals.mapRow raw
      = HiringSignals.COLUMN_MAP.map (fun col => (col.2, (raw.get col.1).getD [])) := by
    have hfold := JSObj.foldl_set_fresh
      (HiringSignals.COLUMN_MAP.map (fun col => (col.2, (raw.get col.1).getD []))) []
      (by
        intro e he
        obtain ⟨col, hcol, hce⟩ := List.mem_map.mp he
        rw [← hce]
        exact hidx _ (List.mem_map_of_mem _ hcol))
      (by simpa [JSObj.keys, List.map_map, Function.comp] using hnd)
    rw [List.foldl_map] at hfold
    simpa [HiringSignals.mapRow, HiringSignals.orEmpty] using hfold
  have hkeys : JSObj.keys (HiringSignals.mapRow raw) = HiringSignals.COLUMN_MAP.map Prod.snd := by
    rw [h, JSObj.keys, List.map_map]
    rfl
  refine ⟨h, ?_, ?_, ?_, ?_, by decide⟩
  · rw [hkeys]; decide
  · rw [hkeys]; exact hnd
  · rw [hkeys]; decide
  · intro slug key hmem
    have hmem2 : (key, (raw.get slug).getD []) ∈ HiringSignals.mapRow raw := by
      rw [h]
      exact List.mem_map.mpr ⟨(slug, key), hmem, rfl⟩
    have hnd2 : (JSObj.keys (HiringSignals.mapRow raw)).Nodup := by rw [hkeys]; exact hnd
    exact JSObj.get_of_mem (HiringSignals.mapRow raw) hnd2 (key, (raw.get slug).getD []) hmem2

/-! ### Hiring-signal parser: quoted fields with line feeds -/

theorem splitLines_quote (cs : Str) (q : Bool) (cur : Str) (lines : List Str) :
    HiringSignals.splitLines ('"' :: cs) q cur lines
      = HiringSignals.splitLines cs (!q) (cur ++ ['"']) lines := by
  simp [HiringSignals.splitLines]

theorem splitLines_inside (c : Char) (cs : Str) (cur : Str) (lines : List Str) (hc : c ≠ '"') :
    HiringSignals.splitLines (c :: cs) true cur lines
      = HiringSignals.splitLines cs true (cur ++ [c]) lines := by
  simp [HiringSignals.splitLines, hc]

theorem splitLines_escaped (s rest : Str) (cur : Str) (lines : List Str) :
    HiringSignals.splitLines (escapeQuotes s ++ rest) true cur lines
      = HiringSignals.splitLines rest true (cur ++ escapeQuotes s) lines := by
  induction s generalizing cur with
  | nil => simp [escapeQuotes]
  | cons c s ih =>
    by_cases hc : c = '"'
    · subst hc
      simp only [escapeQuotes, if_true, List.cons_append]
      rw [splitLines_quote, splitLines_quote, Bool.not_true, Bool.not_false, ih]
      simp
    · simp only [escapeQuotes, hc, if_false, List.cons_append]
      rw [splitLines_inside _ _ _ _ hc, ih]
      simp

theorem splitLines_quoteField (s rest : Str) (cur : Str) (lines : List Str) :
    HiringSignals.splitLines (quoteField s ++ rest) false cur lines
      = HiringSignals.splitLines rest false (cur ++ quoteField s) lines := by
  have h : quoteField s ++ rest = '"' :: (escapeQuotes s ++ '"' :: rest) := by
    simp [quoteField]
  rw [h, splitLines_quote, Bool.not_false, splitLines_escaped, splitLines_quote, Bool.not_true]
  simp [quoteField]

theorem scanLine_open (cs : Str) (cur : Str) (res : List Str) :
    HiringSignals.scanLine ('"' :: cs) false cur res = HiringSignals.scanLine cs true cur res := by
  cases cs <;> simp [HiringSignals.scanLine]

theorem scanLine_escaped (s : Str) (cur : Str) (res : List Str) :
    HiringSignals.scanLine (escapeQuotes s ++ ['"']) true cur res = res ++ [cur ++ s] := by
  induction s generalizing cur with
  | nil => simp [escapeQuotes, HiringSignals.scanLine]
  | cons c s ih =>
    by_cases hc : c = '"'
    · subst hc
      simp only [escapeQuotes, if_true, List.cons_append, HiringSignals.scanLine, and_self,
        List.append_eq]
      rw [ih]
      simp
    · have hstep : ∀ cs, HiringSignals.scanLine (c :: cs) true cur res
          = HiringSignals.scanLine cs true (cur ++ [c]) res := by
        intro cs
        cases cs <;> simp [HiringSignals.scanLine, hc]
      simp only [escapeQuotes, hc, if_false, List.cons_append]
      rw [hstep, ih]
      simp

theorem scanLine_plainText (t : Str) (cur : Str) (res : List Str)
    (ht : ∀ c ∈ t, c ≠ '"' ∧ c ≠ ',') :
    HiringSignals.scanLine t false cur res = res ++ [cur ++ t] := by
  induction t generalizing cur with
  | nil => simp [HiringSignals.scanLine]
  | cons c t ih =>
    have hc := ht c (List.mem_cons_self _ _)
    have hstep : HiringSignals.scanLine (c :: t) false cur res
        = HiringSignals.scanLine t false (cur ++ [c]) res := by
      cases t <;> simp [HiringSignals.scanLine, hc.1, hc.2]
    rw [hstep, ih _ (fun x hx => ht x (List.mem_cons_of_mem _ hx))]
    simp

theorem trim_quoteField_ne_nil (s : Str) : trim (quoteField s) ≠ [] := by
  have h1 : trimStart (quoteField s) = quoteField s := by
    simp [trimStart, quoteField, List.dropWhile, isWhiteSpace]
  have h2 : (quoteField s).reverse = '"' :: (escapeQuotes s).reverse ++ ['"'] := by
    simp [quoteField]
  unfold trim trimEnd
  rw [h1, h2]
  simp [List.dropWhile, isWhiteSpace]

/-- C11, the claim as stated fails: the text whose data row is the quoted
field `line one`, line feed, `line two` is parsed into one record that carries
the original value, because lines are cut only at line feeds outside double
quotes. -/
theorem hiringParseCSV_keeps_quoted_line_feed :
    HiringSignals.splitLines "note\n\"line one\nline two\"".toList false [] []
      = ["note".toList, "\"line one\nline two\"".toList] ∧
    HiringSignals.parseCSV "note\n\"line one\nline two\"".toList
      = .ok [[("note".toList, "line one\nline two".toList)]] := by
  decide

/-- C11, amended: the hiring-signal `parseCSV` cuts the text at the line
feeds that lie outside double quotes. For every header line without double
quote, comma and line feed, and every string `s` written as a quoted field
(double quotes doubled) in the data row, whatever line feeds `s` holds, the
row stays one line and the record carries the value `s`, trimmed. -/
theorem hiringParseCSV_quoted_field (hdr s : Str)
    (hhdr : ∀ c ∈ hdr, c ≠ '"' ∧ c ≠ ',' ∧ c ≠ '\n') :
    HiringSignals.splitLines (hdr ++ '\n' :: quoteField s) false [] [] = [hdr, quoteField s] ∧
    HiringSignals.parseCSV (hdr ++ '\n' :: quoteField s)
      = .ok [[(HiringSignals.slug hdr, trim s)]] := by
  have hcount : hdr.count '"' % 2 = 0 := by
    have : hdr.count '"' = 0 := List.count_eq_zero.mpr (fun h => (hhdr _ h).1 rfl)
    simp [this]
  have hsplit : HiringSignals.splitLines (hdr ++ '\n' :: quoteField s) false [] []
      = [hdr, quoteField s] := by
    rw [splitLines_line hdr _ false [] [] (fun h => (hhdr _ h).2.2 rfl)]
    have hlf : ∀ cs, HiringSignals.splitLines ('\n' :: cs) false hdr []
        = HiringSignals.splitLines cs false [] [hdr] := by
      intro cs
      simp [HiringSignals.splitLines]
    have h := splitLines_quoteField s [] [] [hdr]
    simp only [List.append_nil, List.nil_append] at h
    simp only [hcount, if_true, List.nil_append]
    rw [hlf, h]
    simp [HiringSignals.splitLines, trim_quoteField_ne_nil]
  refine ⟨hsplit, ?_⟩
  have hline : HiringSignals.parseCSVLine hdr = [hdr] := by
    unfold HiringSignals.parseCSVLine
    rw [scanLine_plainText hdr [] [] (fun c hc => ⟨(hhdr c hc).1, (hhdr c hc).2.1⟩)]
    simp
  have hfield : HiringSignals.parseCSVLine (quoteField s) = [s] := by
    unfold HiringSignals.parseCSVLine quoteField
    rw [scanLine_open, scanLine_escaped]
    simp
  have hset : ∀ (k v : Str), JSObj.set ([] : Record) k v = [(k, v)] := by
    intro k v
    unfold JSObj.set
    cases arrayIndex k <;> simp [JSObj.get, JSObj.insertIndex]
  unfold HiringSignals.parseCSV
  rw [hsplit]
  simp [hline, hfield, trim_quoteField_ne_nil, HiringSignals.fillRow, hset]

theorem hiringParseCSV_quoted_field_witness :
    (∀ c ∈ "Company Name".toList, c ≠ '"' ∧ c ≠ ',' ∧ c ≠ '\n') ∧
    HiringSignals.parseCSV ("Company Name".toList ++ '\n' :: quoteField " a\n\"b\",c ".toList)
      = .ok [[(HiringSignals.slug "Company Name".toList, trim " a\n\"b\",c ".toList)]] :=
  ⟨by decide,
    (hiringParseCSV_quoted_field "Company Name".toList " a\n\"b\",c ".toList (by decide)).2⟩

/-! ### Hiring-signal parser: the slug of a header -/

theorem char_eq_of_toNat (c d : Char) (h : c.toNat = d.toNat) : c = d := by
  apply Char.ext
  apply UInt32.ext
  exact h

theorem slugChar_ne_underscore (c : Char) (hc : HiringSignals.isSlugChar c = true) : c ≠ '_' := by
  intro h
  rw [h] at hc
  revert hc
  decide

theorem noDouble_of_not_infix (s : Str) (h : ¬ ['_', '_'] <:+: s) : NoDoubleUnderscore s := by
  unfold NoDoubleUnderscore
  induction s with
  | nil => exact List.chain'_nil
  | cons a t ih =>
    cases t with
    | nil => exact List.chain'_singleton a
    | cons b rest =>
      rw [List.chain'_cons]
      constructor
      · rintro ⟨ha, hb⟩
        apply h
        subst ha hb
        exact ⟨[], rest, by simp⟩
      · exact ih (fun hin => h (List.IsInfix.trans hin (List.suffix_cons a (b :: rest)).isInfix))

theorem not_infix_of_noDouble (s : Str) (h : NoDoubleUnderscore s) : ¬ ['_', '_'] <:+: s := by
  intro hin
  have h2 := List.Chain'.infix h hin
  rw [List.chain'_cons] at h2
  exact h2.1 ⟨rfl, rfl⟩

theorem replaceRuns_chars (b : Bool) (x : Str) :
    ∀ c ∈ HiringSignals.replaceRuns b x, HiringSignals.isSlugChar c = true ∨ c = '_' := by
  induction x generalizing b with
  | nil => intro c hc; simp [HiringSignals.replaceRuns] at hc
  | cons a x ih =>
    intro c hc
    simp only [HiringSignals.replaceRuns] at hc
    split at hc
    · rcases List.mem_cons.mp hc with h | h
      · rw [h]; exact Or.inl ‹_›
      · exact ih false c h
    · split at hc
      · exact ih true c hc
      · rcases List.mem_cons.mp hc with h | h
        · exact Or.inr h
        · exact ih true c h

theorem replaceRuns_chain (b : Bool) (x : Str) :
    NoDoubleUnderscore (HiringSignals.replaceRuns b x) ∧
    (b = true → (HiringSignals.replaceRuns b x).head? ≠ some '_') := by
  unfold NoDoubleUnderscore
  induction x generalizing b with
  | nil => simp [HiringSignals.replaceRuns]
  | cons a x ih =>
    simp only [HiringSignals.replaceRuns]
    by_cases ha : HiringSignals.isSlugChar a = true
    · have hne := slugChar_ne_underscore a ha
      simp only [ha, if_true]
      refine ⟨?_, fun _ => by simpa using hne⟩
      rw [List.chain'_cons']
      exact ⟨fun y _ h => hne h.1, (ih false).1⟩
    · simp only [ha, Bool.false_eq_true, if_false]
      cases b with
      | true =>
        simp only [if_true]
        exact ⟨(ih true).1, fun _ => (ih true).2 rfl⟩
      | false =>
        simp only [Bool.false_eq_true, if_false]
        refine ⟨?_, fun h => by simp at h⟩
        rw [List.chain'_cons']
        refine ⟨fun y hy h => ?_, (ih true).1⟩
        apply (ih true).2 rfl
        rw [Option.mem_def] at hy
        rw [hy, h.2]

theorem dropUnderscore_chars (u : Str)
    (h : ∀ c ∈ u, HiringSignals.isSlugChar c = true ∨ c = '_') :
    ∀ c ∈ HiringSignals.dropUnderscore u, HiringSignals.isSlugChar c = true ∨ c = '_' := by
  cases u with
  | nil => intro c hc; simp [HiringSignals.dropUnderscore] at hc
  | cons a rest =>
    intro c hc
    simp only [HiringSignals.dropUnderscore] at hc
    split at hc
    · exact h c (List.mem_cons_of_mem _ hc)
    · exact h c hc

theorem dropUnderscore_chain (u : Str) (h : NoDoubleUnderscore u) :
    NoDoubleUnderscore (HiringSignals.dropUnderscore u) ∧
    (HiringSignals.dropUnderscore u).head? ≠ some '_' := by
  unfold NoDoubleUnderscore at *
  cases u with
  | nil => simp [HiringSignals.dropUnderscore]
  | cons a rest =>
    simp only [HiringSignals.dropUnderscore]
    by_cases ha : a = '_'
    · simp only [ha, if_true]
      rw [List.chain'_cons'] at h
      refine ⟨h.2, fun hhead => ?_⟩
      exact h.1 _ (Option.mem_def.mpr hhead) ⟨ha, rfl⟩
    · simp only [ha, if_false]
      exact ⟨h, by simpa using ha⟩

theorem dropUnderscore_getLast (u : Str) (h : u.getLast? ≠ some '_') :
    (HiringSignals.dropUnderscore u).getLast? ≠ some '_' := by
  cases u with
  | nil => simp [HiringSignals.dropUnderscore]
  | cons a rest =>
    simp only [HiringSignals.dropUnderscore]
    split
    · cases rest with
      | nil => simp
      | cons b rest2 => simpa using h
    · exact h

theorem noDouble_reverse (u : Str) (h : NoDoubleUnderscore u) : NoDoubleUnderscore u.reverse := by
  unfold NoDoubleUnderscore at *
  rw [List.chain'_reverse]
  have hflip : (flip fun a b : Char => ¬ (a = '_' ∧ b = '_'))
      = fun a b : Char => ¬ (a = '_' ∧ b = '_') := by
    funext a b
    simp only [flip]
    exact propext ⟨fun h1 h2 => h1 ⟨h2.2, h2.1⟩, fun h1 h2 => h1 ⟨h2.2, h2.1⟩⟩
  rw [hflip]
  exact h

theorem stripUnderscores_form (r : Str)
    (hchars : ∀ c ∈ r, HiringSignals.isSlugChar c = true ∨ c = '_')
    (hchain : NoDoubleUnderscore r) : SlugForm (HiringSignals.stripUnderscores r) := by
  unfold HiringSignals.stripUnderscores
  have h1 := dropUnderscore_chain r hchain
  have c1 := dropUnderscore_chars r hchars
  have h2 := dropUnderscore_chain _ (noDouble_reverse _ h1.1)
  have c2 := dropUnderscore_chars (HiringSignals.dropUnderscore r).reverse
    (fun c hc => c1 c (List.mem_reverse.mp hc))
  have h3 := dropUnderscore_getLast (HiringSignals.dropUnderscore r).reverse
    (by rw [List.getLast?_reverse]; exact h1.2)
  refine ⟨fun c hc => c2 c (List.mem_reverse.mp hc), ?_, ?_, ?_⟩
  · rw [List.head?_reverse]; exact h3
  · rw [List.getLast?_reverse]; exact h2.2
  · exact not_infix_of_noDouble _ (noDouble_reverse _ h2.1)

theorem slugForm_codes (c : Char) (hc : HiringSignals.isSlugChar c = true ∨ c = '_') :
    (97 ≤ c.toNat ∧ c.toNat ≤ 122) ∨ (48 ≤ c.toNat ∧ c.toNat ≤ 57) ∨ c.toNat = 95 := by
  rcases hc with h | h
  · simp only [HiringSignals.isSlugChar, Bool.or_eq_true, Bool.and_eq_true,
      decide_eq_true_eq] at h
    rcases h with h | h
    · exact Or.inl h
    · exact Or.inr (Or.inl h)
  · right; right
    rw [h]
    rfl

theorem slugForm_not_whiteSpace (c : Char) (hc : HiringSignals.isSlugChar c = true ∨ c = '_') :
    isWhiteSpace c = false := by
  have h := slugForm_codes c hc
  simp only [isWhiteSpace, Bool.or_eq_false_iff, beq_eq_false_iff_ne, ne_eq,
    Bool.and_eq_false_iff, decide_eq_false_iff_not]
  omega

theorem trim_of_no_whiteSpace (s : Str) (h : ∀ c ∈ s, isWhiteSpace c = false) : trim s = s := by
  have hstart : ∀ (t : Str), (∀ c ∈ t, isWhiteSpace c = false) →
      t.dropWhile isWhiteSpace = t := by
    intro t ht
    cases t with
    | nil => rfl
    | cons a rest => simp [List.dropWhile, ht a (List.mem_cons_self _ _)]
  unfold trim trimEnd trimStart
  rw [hstart s h, hstart s.reverse (fun c hc => h c (List.mem_reverse.mp hc))]
  simp

theorem toLowerCase_of_slugForm (s : Str)
    (h : ∀ c ∈ s, HiringSignals.isSlugChar c = true ∨ c = '_') :
    toLowerCase s = s := by
  induction s with
  | nil => rfl
  | cons a rest ih =>
    have ha := slugForm_codes a (h a (List.mem_cons_self _ _))
    have h1 : ¬ a.toNat = 0x130 := by omega
    have h2 : ¬ a.toNat = 0x212A := by omega
    have h3 : ¬ (65 ≤ a.toNat ∧ a.toNat ≤ 90) := by omega
    have ih2 := ih (fun c hc => h c (List.mem_cons_of_mem _ hc))
    unfold toLowerCase at ih2 ⊢
    simp only [List.flatMap_cons, h1, h2, h3, if_false, List.singleton_append, ih2]

theorem replaceRuns_of_slugForm (s : Str) (b : Bool)
    (hchars : ∀ c ∈ s, HiringSignals.isSlugChar c = true ∨ c = '_')
    (hchain : NoDoubleUnderscore s) (hhead : b = true → s.head? ≠ some '_') :
    HiringSignals.replaceRuns b s = s := by
  unfold NoDoubleUnderscore at hchain
  induction s generalizing b with
  | nil => rfl
  | cons a rest ih =>
    rw [List.chain'_cons'] at hchain
    have hrest : ∀ c ∈ rest, HiringSignals.isSlugChar c = true ∨ c = '_' :=
      fun c hc => hchars c (List.mem_cons_of_mem _ hc)
    simp only [HiringSignals.replaceRuns]
    by_cases ha : HiringSignals.isSlugChar a = true
    · simp only [ha, if_true]
      rw [ih false hrest hchain.2 (fun h => by simp at h)]
    · have hu : a = '_' := by
        rcases hchars a (List.mem_cons_self _ _) with h | h
        · exact absurd h ha
        · exact h
      have hb : b = false := by
        cases b with
        | false => rfl
        | true => exact absurd (by simp [hu]) (hhead rfl)
      simp only [ha, Bool.false_eq_true, if_false, hb]
      rw [ih true hrest hchain.2
        (fun _ hh => hchain.1 _ (Option.mem_def.mpr hh) ⟨hu, rfl⟩), hu]

theorem dropUnderscore_of_head (u : Str) (h : u.head? ≠ some '_') :
    HiringSignals.dropUnderscore u = u := by
  cases u with
  | nil => rfl
  | cons a rest =>
    have ha : a ≠ '_' := by simpa using h
    simp [HiringSignals.dropUnderscore, ha]

/-- C26: for every header, the slug consists only of `a-z`, `0-9` and
underscore, neither begins nor ends with an underscore, holds no two
consecutive underscores, and is its own slug. -/
theorem slug_form (h : Str) :
    SlugForm (HiringSignals.slug h) ∧ HiringSignals.slug (HiringSignals.slug h)
      = HiringSignals.slug h := by
  have hform : SlugForm (HiringSignals.slug h) := by
    unfold HiringSignals.slug
    exact stripUnderscores_form _ (replaceRuns_chars false _) (replaceRuns_chain false _).1
  refine ⟨hform, ?_⟩
  obtain ⟨hchars, hhead, hlast, hinfix⟩ := hform
  generalize HiringSignals.slug h = s at hchars hhead hlast hinfix
  have hchain := noDouble_of_not_infix s hinfix
  unfold HiringSignals.slug
  rw [trim_of_no_whiteSpace s (fun c hc => slugForm_not_whiteSpace c (hchars c hc)),
    toLowerCase_of_slugForm s hchars,
    replaceRuns_of_slugForm s false hchars hchain (fun hb => by simp at hb)]
  unfold HiringSignals.stripUnderscores
  rw [dropUnderscore_of_head s hhead,
    dropUnderscore_of_head s.reverse (by rw [List.head?_reverse]; exact hlast)]
  simp

/-! ### Charts over fixed categories -/

theorem outreachCoverage_fold (data : List Record) (a b : Nat) :
    data.foldl
      (fun coverage item =>
        if App.hasEmail item then App.increment coverage "With Email".toList
        else App.increment coverage "Without Email".toList)
      [("With Email".toList, a), ("Without Email".toList, b)]
    = [("With Email".toList, a + (data.filter App.hasEmail).length),
       ("Without Email".toList, b + (data.filter (fun item => !App.hasEmail item)).length)] := by
  induction data generalizing a b with
  | nil => simp
  | cons item rest ih =>
    have hw : App.increment [("With Email".toList, a), ("Without Email".toList, b)]
        "With Email".toList = [("With Email".toList, a + 1), ("Without Email".toList, b)] := by
      simp [App.increment, JSObj.set, JSObj.get, JSObj.replace]
    have hn : App.increment [("With Email".toList, a), ("Without Email".toList, b)]
        "Without Email".toList = [("With Email".toList, a), ("Without Email".toList, b + 1)] := by
      simp [App.increment, JSObj.set, JSObj.get, JSObj.replace]
    simp only [List.foldl_cons]
    cases he : App.hasEmail item with
    | true =>
      simp only [if_true, hw, ih, List.filter_cons, he, Bool.not_true, Bool.false_eq_true,
        if_false, List.length_cons]
      simp only [Nat.add_assoc, Nat.add_comm 1]
    | false =>
      simp only [Bool.false_eq_true, if_false, hn, ih, List.filter_cons, he, Bool.not_false,
        if_true, List.length_cons]
      simp only [Nat.add_assoc, Nat.add_comm 1]

theorem length_filter_not (data : List Record) (p : Record → Bool) :
    (data.filter (fun item => !p item)).length = data.length - (data.filter p).length := by
  induction data with
  | nil => rfl
  | cons item rest ih =>
    have hle : (rest.filter p).length ≤ rest.length := List.length_filter_le _ _
    cases hp : p item with
    | true =>
      simp only [List.filter_cons, hp, Bool.not_true, Bool.false_eq_true, if_false, if_true,
        List.length_cons, ih]
      omega
    | false =>
      simp only [List.filter_cons, hp, Bool.not_false, Bool.false_eq_true, if_true, if_false,
        List.length_cons, ih]
      omega

/-- C30: for every dataset the outreach-coverage series is `With Email`,
`Without Email` with two counts that add up to the dataset size, and its
`With Email` count is the `outreachReady` metric: the number of records whose
`decisionMakerEmail` is not empty after trimming. -/
theorem outreachSeries_spec (data : List Record) :
    App.outreachSeries data
      = (["With Email".toList, "Without Email".toList],
         [App.outreachReady data, data.length - App.outreachReady data]) ∧
    App.outreachReady data + (data.length - App.outreachReady data) = data.length ∧
    App.outreachReady data = data.countP (fun item =>
      match item.get "decisionMakerEmail".toList with
      | some email => decide (trim email ≠ [])
      | none => false) := by
  have hle : App.outreachReady data ≤ data.length := List.length_filter_le _ _
  refine ⟨?_, by omega, ?_⟩
  · have h := outreachCoverage_fold data 0 0
    simp only [Nat.zero_add, length_filter_not] at h
    simp only [App.outreachSeries, App.outreachCoverage, h, JSObj.keys, JSObj.values,
      App.outreachReady, List.map_cons, List.map_nil]
  · unfold App.outreachReady
    rw [List.countP_eq_length_filter]
    congr 1
    apply List.filter_congr
    intro item _
    unfold App.hasEmail
    cases item.get "decisionMakerEmail".toList with
    | none => rfl
    | some email =>
      by_cases he : email = []
      · subst he
        simp [trim_nil]
      · simp [he]

theorem scoreBuckets_fold (parseFloat : Str → Option ℚ) (data : List Record) (a b c d : Nat) :
    data.foldl
      (fun buckets item =>
        match App.scoreOf parseFloat item with
        | none => buckets
        | some score =>
          if score ≤ 60 then App.increment buckets "0-60".toList
          else if score ≤ 75 then App.increment buckets "61-75".toList
          else if score ≤ 85 then App.increment buckets "76-85".toList
          else App.increment buckets "86-100".toList)
      [("0-60".toList, a), ("61-75".toList, b), ("76-85".toList, c), ("86-100".toList, d)]
    = [("0-60".toList, a + (App.numericScores parseFloat data).countP (fun s => s ≤ 60)),
       ("61-75".toList,
         b + (App.numericScores parseFloat data).countP (fun s => 60 < s ∧ s ≤ 75)),
       ("76-85".toList,
         c + (App.numericScores parseFloat data).countP (fun s => 75 < s ∧ s ≤ 85)),
       ("86-100".toList, d + (App.numericScores parseFloat data).countP (fun s => 85 < s))] := by
  induction data generalizing a b c d with
  | nil => simp [App.numericScores]
  | cons item rest ih =>
    have h1 : App.increment
        [("0-60".toList, a), ("61-75".toList, b), ("76-85".toList, c), ("86-100".toList, d)]
        "0-60".toList
        = [("0-60".toList, a + 1), ("61-75".toList, b), ("76-85".toList, c),
           ("86-100".toList, d)] := by
      simp [App.increment, JSObj.set, JSObj.get, JSObj.replace]
    have h2 : App.increment
        [("0-60".toList, a), ("61-75".toList, b), ("76-85".toList, c), ("86-100".toList, d)]
        "61-75".toList
        = [("0-60".toList, a), ("61-75".toList, b + 1), ("76-85".toList, c),
           ("86-100".toList, d)] := by
      simp [App.increment, JSObj.set, JSObj.get, JSObj.replace]
    have h3 : App.increment
        [("0-60".toList, a), ("61-75".toList, b), ("76-85".toList, c), ("86-100".toList, d)]
        "76-85".toList
        = [("0-60".toList, a), ("61-75".toList, b), ("76-85".toList, c + 1),
           ("86-100".toList, d)] := by
      simp [App.increment, JSObj.set, JSObj.get, JSObj.replace]
    have h4 : App.increment
        [("0-60".toList, a), ("61-75".toList, b), ("76-85".toList, c), ("86-100".toList, d)]
        "86-100".toList
        = [("0-60".toList, a), ("61-75".toList, b), ("76-85".toList, c),
           ("86-100".toList, d + 1)] := by
      simp [App.increment, JSObj.set, JSObj.get, JSObj.replace]
    simp only [List.foldl_cons, App.numericScores, List.filterMap_cons]
    cases hs : App.scoreOf parseFloat item with
    | none =>
      simp only []
      exact ih a b c d
    | some score =>
      simp only [List.countP_cons]
      by_cases c1 : score ≤ 60
      · have n2 : ¬ (60 < score ∧ score ≤ 75) := fun h => absurd c1 (not_le.mpr h.1)
        have n3 : ¬ (75 < score ∧ score ≤ 85) := fun h => by linarith [h.1]
        have n4 : ¬ (85 < score) := fun h => by linarith
        simp only [c1, n2, n3, n4, if_true, h1, decide_True, decide_False,
          Bool.false_eq_true, if_false, Nat.add_zero]
        rw [ih (a + 1) b c d]
        simp only [App.numericScores, Nat.add_assoc, Nat.add_comm 1]
      · by_cases c2 : score ≤ 75
        · have p2 : 60 < score ∧ score ≤ 75 := ⟨not_le.mp c1, c2⟩
          have n3 : ¬ (75 < score ∧ score ≤ 85) := fun h => by linarith [h.1]
          have n4 : ¬ (85 < score) := fun h => by linarith
          simp only [c1, c2, p2, n3, n4, and_self, if_true, h2, decide_True, decide_False,
            Bool.false_eq_true, if_false, Nat.add_zero]
          rw [ih a (b + 1) c d]
          simp only [App.numericScores, Nat.add_assoc, Nat.add_comm 1]
        · by_cases c3 : score ≤ 85
          · have n2 : ¬ (60 < score ∧ score ≤ 75) := fun h => c2 h.2
            have p3 : 75 < score ∧ score ≤ 85 := ⟨not_le.mp c2, c3⟩
            have n4 : ¬ (85 < score) := fun h => by linarith
            simp only [c1, c2, c3, n2, p3, n4, and_self, if_true, h3, decide_True,
              decide_False, Bool.false_eq_true, if_false, Nat.add_zero]
            rw [ih a b (c + 1) d]
            simp [App.numericScores, Nat.add_assoc, Nat.add_comm 1, c2]
          · have n2 : ¬ (60 < score ∧ score ≤ 75) := fun h => c2 h.2
            have n3 : ¬ (75 < score ∧ score ≤ 85) := fun h => c3 h.2
            have p4 : 85 < score := not_le.mp c3
            simp only [c1, c2, c3, n2, n3, p4, if_true, h4, decide_True, decide_False,
              Bool.false_eq_true, if_false, Nat.add_zero]
            rw [ih a b c (d + 1)]
            simp [App.numericScores, Nat.add_assoc, Nat.add_comm 1, c2, c3]

theorem bucket_counts_sum (scores : List ℚ) :
    scores.countP (fun s => s ≤ 60) + scores.countP (fun s => 60 < s ∧ s ≤ 75)
      + scores.countP (fun s => 75 < s ∧ s ≤ 85) + scores.countP (fun s => 85 < s)
      = scores.length := by
  induction scores with
  | nil => rfl
  | cons score rest ih =>
    simp only [List.countP_cons, List.length_cons]
    by_cases c1 : score ≤ 60
    · have n2 : ¬ (60 < score ∧ score ≤ 75) := fun h => absurd c1 (not_le.mpr h.1)
      have n3 : ¬ (75 < score ∧ score ≤ 85) := fun h => by linarith [h.1]
      have n4 : ¬ (85 < score) := fun h => by linarith
      simp only [c1, n2, n3, n4, decide_True, decide_False, if_true, Bool.false_eq_true,
        if_false]
      omega
    · by_cases c2 : score ≤ 75
      · have p2 : 60 < score ∧ score ≤ 75 := ⟨not_le.mp c1, c2⟩
        have n3 : ¬ (75 < score ∧ score ≤ 85) := fun h => by linarith [h.1]
        have n4 : ¬ (85 < score) := fun h => by linarith
        simp only [c1, p2, n3, n4, decide_True, decide_False, if_true, Bool.false_eq_true,
          if_false, and_self]
        omega
      · by_cases c3 : score ≤ 85
        · have n2 : ¬ (60 < score ∧ score ≤ 75) := fun h => c2 h.2
          have p3 : 75 < score ∧ score ≤ 85 := ⟨not_le.mp c2, c3⟩
          have n4 : ¬ (85 < score) := fun h => by linarith
          simp only [c1, n2, p3, n4, decide_True, decide_False, if_true, Bool.false_eq_true,
            if_false, and_self]
          omega
        · have n2 : ¬ (60 < score ∧ score ≤ 75) := fun h => c2 h.2
          have n3 : ¬ (75 < score ∧ score ≤ 85) := fun h => c3 h.2
          have p4 : 85 < score := not_le.mp c3
          simp only [c1, n2, n3, p4, decide_True, decide_False, if_true, Bool.false_eq_true,
            if_false]
          omega

/-- C14: for every dataset the match-score series counts each record with a
numeric score in exactly one of the buckets `0-60` (score at most 60), `61-75`
(above 60, at most 75), `76-85` (above 75, at most 85) and `86-100` (above
85), and no record without numeric score; the four counts add up to the
number of numeric scores, and the scores 60, 61, 85, 86 give one record per
bucket. -/
theorem matchScoreSeries_spec (parseFloat : Str → Option ℚ) (data : List Record) :
    App.matchScoreSeries parseFloat data
      = (["0-60".toList, "61-75".toList, "76-85".toList, "86-100".toList],
         [(App.numericScores parseFloat data).countP (fun s => s ≤ 60),
          (App.numericScores parseFloat data).countP (fun s => 60 < s ∧ s ≤ 75),
          (App.numericScores parseFloat data).countP (fun s => 75 < s ∧ s ≤ 85),
          (App.numericScores parseFloat data).countP (fun s => 85 < s)]) ∧
    (App.numericScores parseFloat data).countP (fun s => s ≤ 60)
      + (App.numericScores parseFloat data).countP (fun s => 60 < s ∧ s ≤ 75)
      + (App.numericScores parseFloat data).countP (fun s => 75 < s ∧ s ≤ 85)
      + (App.numericScores parseFloat data).countP (fun s => 85 < s)
      = (App.numericScores parseFloat data).length ∧
    App.matchScoreSeries parseDigits (scoreData ["60", "61", "n/a", "85", "86"])
      = (["0-60".toList, "61-75".toList, "76-85".toList, "86-100".toList], [1, 1, 1, 1]) := by
  have hgen : ∀ (pf : Str → Option ℚ) (d : List Record), App.matchScoreSeries pf d
      = (["0-60".toList, "61-75".toList, "76-85".toList, "86-100".toList],
         [(App.numericScores pf d).countP (fun s => s ≤ 60),
          (App.numericScores pf d).countP (fun s => 60 < s ∧ s ≤ 75),
          (App.numericScores pf d).countP (fun s => 75 < s ∧ s ≤ 85),
          (App.numericScores pf d).countP (fun s => 85 < s)]) := by
    intro pf d
    have h := scoreBuckets_fold pf d 0 0 0 0
    simp only [Nat.zero_add] at h
    simp only [App.matchScoreSeries, App.scoreBuckets, h, JSObj.keys, JSObj.values,
      List.map_cons, List.map_nil]
  refine ⟨hgen parseFloat data, bucket_counts_sum _, ?_⟩
  rw [hgen]
  have hscores : App.numericScores parseDigits (scoreData ["60", "61", "n/a", "85", "86"])
      = [60, 61, 85, 86] := by
    simp [App.numericScores, scoreData, mkRecord, App.scoreOf, JSObj.get, parseDigits]
  rw [hscores]
  norm_num [List.countP_cons]

theorem get_map_counts (K : List Str) (c : Str → Nat) (k0 : Str) (hk : k0 ∈ K) :
    JSObj.get (K.map (fun k => (k, c k))) k0 = some (c k0) := by
  induction K with
  | nil => simp at hk
  | cons k rest ih =>
    by_cases h : k = k0
    · simp [JSObj.get, h]
    · have hrest : k0 ∈ rest := by
        rcases List.mem_cons.mp hk with h2 | h2
        · exact absurd h2.symm h
        · exact h2
      simp only [List.map_cons, JSObj.get, h, if_false]
      exact ih hrest

theorem replace_map_counts (K : List Str) (hnd : K.Nodup) (c : Str → Nat) (k0 : Str) (v : Nat) :
    JSObj.replace (K.map (fun k => (k, c k))) k0 v
      = K.map (fun k => (k, if k = k0 then v else c k)) := by
  induction K with
  | nil => rfl
  | cons k rest ih =>
    rw [List.nodup_cons] at hnd
    by_cases h : k = k0
    · subst h
      simp only [List.map_cons, JSObj.replace, if_true]
      congr 1
      apply List.map_congr_left
      intro x hx
      have hne : x ≠ k := fun hxk => hnd.1 (hxk ▸ hx)
      simp [hne]
    · simp only [List.map_cons, JSObj.replace, h, if_false, ih hnd.2]

/-- Counting into an object created with the keys `K`: each record raises the
counter of its class by one. -/
theorem fold_increment (K : List Str) (hnd : K.Nodup) (classify : Record → Str)
    (hcl : ∀ item, classify item ∈ K) (c : Str → Nat) (data : List Record) :
    data.foldl (fun o item => App.increment o (classify item)) (K.map (fun k => (k, c k)))
      = K.map (fun k => (k, c k + data.countP (fun item => classify item = k))) := by
  induction data generalizing c with
  | nil => simp
  | cons item rest ih =>
    have hstep : App.increment (K.map (fun k => (k, c k))) (classify item)
        = K.map (fun k => (k, if k = classify item then c k + 1 else c k)) := by
      unfold App.increment JSObj.set
      rw [get_map_counts K c _ (hcl item)]
      simp only [Option.getD_some]
      rw [replace_map_counts K hnd c]
      apply List.map_congr_left
      intro k _
      by_cases hk : k = classify item
      · simp [hk]
      · simp [hk]
    simp only [List.foldl_cons, hstep]
    rw [ih]
    apply List.map_congr_left
    intro k _
    by_cases hk : k = classify item
    · have hk2 : classify item = k := hk.symm
      simp only [hk, if_true, List.countP_cons, decide_True, Nat.add_assoc, Nat.add_comm 1]
    · have hk2 : ¬ classify item = k := fun h => hk h.symm
      simp only [hk, if_false, List.countP_cons, hk2, decide_False, Bool.false_eq_true,
        Nat.add_zero]

theorem sum_class_counts (K : List Str) (hnd : K.Nodup) (classify : Record → Str)
    (hcl : ∀ item, classify item ∈ K) (data : List Record) :
    (K.map (fun k => data.countP (fun item => classify item = k))).sum = data.length := by
  have hone : ∀ (L : List Str), L.Nodup → ∀ (x : Str),
      (L.map (fun k => if x = k then 1 else 0)).sum = if x ∈ L then 1 else 0 := by
    intro L
    induction L with
    | nil => intro _ x; simp
    | cons k rest ih =>
      intro hL x
      rw [List.nodup_cons] at hL
      by_cases hx : x = k
      · subst hx
        simp [ih hL.2, hL.1]
      · simp [ih hL.2, hx]
  induction data with
  | nil => simp
  | cons item rest ih =>
    simp only [List.countP_cons, List.length_cons]
    have hsplit : ∀ (L : List Str) (f g : Str → Nat),
        (L.map (fun k => f k + g k)).sum = (L.map f).sum + (L.map g).sum := by
      intro L f g
      induction L with
      | nil => rfl
      | cons k rest2 ih2 =>
        simp only [List.map_cons, List.sum_cons, ih2]
        omega
    have hform : (K.map (fun k => rest.countP (fun item => decide (classify item = k))
        + if decide (classify item = k) = true then 1 else 0))
        = K.map (fun k => (fun k => rest.countP (fun item => decide (classify item = k))) k
          + (fun k => if classify item = k then 1 else 0) k) := by
      apply List.map_congr_left
      intro k _
      simp
    rw [hform, hsplit K, ih, hone K hnd, if_pos (hcl item)]

theorem roleCategory_mem (title : Str) : roleCategory title ∈ roleLabels := by
  unfold roleCategory
  split
  · decide
  · split
    · decide
    · split
      · decide
      · split
        · decide
        · decide

/-- The counters of the role chart, by the category of the lower-cased
title. -/
theorem roleSeries_counts (data : List Record) :
    App.roleSeries data
      = (roleLabels, roleLabels.map (fun label =>
          data.countP (fun item => roleCategory (App.lowerTitle item) = label))) ∧
    (roleLabels.map (fun label =>
      data.countP (fun item => roleCategory (App.lowerTitle item) = label))).sum
      = data.length := by
  have hnd : roleLabels.Nodup := by decide
  have hfun : (fun (categories : JSObj Nat) (item : Record) =>
      let title := App.lowerTitle item
      if includes title "seo".toList then App.increment categories "SEO".toList
      else if includes title "software engineer".toList || includes title "swe".toList then
        App.increment categories "Software Engineer".toList
      else if includes title "backend".toList then App.increment categories "Backend".toList
      else if includes title "founding engineer".toList then
        App.increment categories "Founding Engineer".toList
      else App.increment categories "Other".toList)
      = (fun o item => App.increment o (roleCategory (App.lowerTitle item))) := by
    funext categories item
    simp only [roleCategory]
    split
    · rfl
    · split
      · rfl
      · split
        · rfl
        · split
          · rfl
          · rfl
  have hinit : ([("SEO".toList, 0), ("Software Engineer".toList, 0), ("Backend".toList, 0),
      ("Founding Engineer".toList, 0), ("Other".toList, 0)] : JSObj Nat)
      = roleLabels.map (fun k => (k, (fun _ => 0) k)) := by
    rfl
  have hfold := fold_increment roleLabels hnd (fun item => roleCategory (App.lowerTitle item))
    (fun item => roleCategory_mem _) (fun _ => 0) data
  constructor
  · unfold App.roleSeries App.roleCategories
    rw [hfun, hinit, hfold]
    simp only [JSObj.keys, JSObj.values, List.map_map, Nat.zero_add]
    refine Prod.ext ?_ ?_
    · exact List.map_id'' (fun _ => rfl) roleLabels
    · rfl
  · exact sum_class_counts roleLabels hnd (fun item => roleCategory (App.lowerTitle item))
      (fun item => roleCategory_mem _) data

/-- C15: for every dataset the role-category series counts each record in
exactly one of SEO, Software Engineer, Backend, Founding Engineer and Other:
the first whose keyword (`seo`; `software engineer` or `swe`; `backend`;
`founding engineer`) occurs in the lower-cased title (the empty text for a
record without title), Other when none does; the five counts add up to the
dataset size. Eight sample titles give the counts 2, 2, 1, 1, 2. -/
theorem roleSeries_spec (data : List Record) :
    App.roleSeries data
      = (["SEO", "Software Engineer", "Backend", "Founding Engineer", "Other"].map String.toList,
         (["SEO", "Software Engineer", "Backend", "Founding Engineer", "Other"].map
            String.toList).map
           (fun label => data.countP (fun item =>
             roleCategory (toLowerCase ((item.get "title".toList).getD [])) = label))) ∧
    ((["SEO", "Software Engineer", "Backend", "Founding Engineer", "Other"].map
        String.toList).map
      (fun label => data.countP (fun item =>
        roleCategory (toLowerCase ((item.get "title".toList).getD [])) = label))).sum
      = data.length ∧
    App.roleSeries
        [mkRecord [("title", "Senior SEO Specialist")],
         mkRecord [("title", "Software Engineer (Backend)")],
         mkRecord [("title", "SWE Intern")],
         mkRecord [("title", "BACKEND developer")],
         mkRecord [("title", "Founding Engineer")],
         mkRecord [("title", "Nurse")],
         mkRecord [("companyName", "Acme")],
         mkRecord [("title", "Founding engineer, SEO")]]
      = (["SEO", "Software Engineer", "Backend", "Founding Engineer", "Other"].map String.toList,
         [2, 2, 1, 1, 2]) :=
  ⟨(roleSeries_counts data).1, (roleSeries_counts data).2, by decide⟩

/-! ### Metrics -/

theorem roundHalfEven_intCast (z : ℤ) : roundHalfEven (z : ℚ) = z := by
  simp [roundHalfEven]

theorem roundHalfEven_near (y : ℚ) : |(roundHalfEven y : ℚ) - y| ≤ 1 / 2 := by
  have h1 := Int.floor_le y
  have h2 := Int.lt_floor_add_one y
  unfold roundHalfEven
  split
  · rw [abs_le]; constructor <;> linarith
  · split
    · rw [abs_le]; push_cast; constructor <;> linarith
    · split
      · rw [abs_le]; constructor <;> linarith
      · rw [abs_le]; push_cast; constructor <;> linarith

theorem ulp_pos (x : ℚ) : 0 < ulp x := by
  unfold ulp
  positivity

theorem log_two_eq (x : ℚ) (e : ℤ) (hx : 0 < x) (h1 : (2 : ℚ) ^ e ≤ x) (h2 : x < (2 : ℚ) ^ (e + 1)) :
    Int.log 2 x = e := by
  have a : e ≤ Int.log 2 x := (Int.zpow_le_iff_le_log (by norm_num) hx).mp (by exact_mod_cast h1)
  have b : Int.log 2 x < e + 1 := (Int.lt_zpow_iff_log_lt (by norm_num) hx).mp (by exact_mod_cast h2)
  omega

theorem toBinary64_exact (x : ℚ) (z : ℤ) (hz : x = (z : ℚ) * ulp x)
    (hx : |x| < 2 ^ (1024 : ℕ)) : toBinary64 x = some x := by
  have hu := ulp_pos x
  have hy : x / ulp x = (z : ℚ) := (div_eq_iff (ne_of_gt hu)).mpr hz
  unfold toBinary64
  rw [hy, roundHalfEven_intCast, ← hz, if_pos hx]

theorem roundedValue_near (x : ℚ) :
    |(roundHalfEven (x / ulp x) : ℚ) * ulp x - x| ≤ ulp x / 2 := by
  have hu := ulp_pos x
  have h := roundHalfEven_near (x / ulp x)
  have hx2 : x = x / ulp x * ulp x := by field_simp
  have : (roundHalfEven (x / ulp x) : ℚ) * ulp x - x
      = ((roundHalfEven (x / ulp x) : ℚ) - x / ulp x) * ulp x := by
    rw [sub_mul, ← hx2]
  rw [this, abs_mul, abs_of_pos hu]
  calc |(roundHalfEven (x / ulp x) : ℚ) - x / ulp x| * ulp x ≤ 1 / 2 * ulp x :=
        mul_le_mul_of_nonneg_right h (le_of_lt hu)
    _ = ulp x / 2 := by ring

theorem ulp_of_normal (x : ℚ) (hx : 0 < x) (hlo : (2 : ℚ) ^ (-1022 : ℤ) ≤ x) :
    ulp x = 2 ^ (Int.log 2 x - 52) ∧ (2 : ℚ) ^ Int.log 2 x ≤ x ∧
    x < (2 : ℚ) ^ (Int.log 2 x + 1) := by
  have h1 : (2 : ℚ) ^ Int.log 2 x ≤ x := by
    have := Int.zpow_log_le_self (b := 2) (r := x) (by norm_num) hx
    exact_mod_cast this
  have h2 : x < (2 : ℚ) ^ (Int.log 2 x + 1) := by
    have := Int.lt_zpow_succ_log_self (b := 2) (by norm_num) x
    exact_mod_cast this
  have h3 : (-1022 : ℤ) ≤ Int.log 2 x :=
    (Int.zpow_le_iff_le_log (b := 2) (by norm_num) hx).mp (by exact_mod_cast hlo)
  refine ⟨?_, h1, h2⟩
  unfold ulp
  rw [abs_of_pos hx, max_eq_left h3]

/-- A positive number `a / 2 ^ j` with `a < 2 ^ 53`, not below `2 ^ -1022`, is a binary64
number. -/
theorem toBinary64_dyadic (a j : ℕ) (ha : 0 < a) (ha2 : a < 2 ^ 53)
    (hlo : (2 : ℚ) ^ (-1022 : ℤ) ≤ (a : ℚ) / 2 ^ j) :
    toBinary64 ((a : ℚ) / 2 ^ j) = some ((a : ℚ) / 2 ^ j) := by
  have hx : (0 : ℚ) < (a : ℚ) / 2 ^ j := by positivity
  obtain ⟨hu, h1, h2⟩ := ulp_of_normal _ hx hlo
  have haq : (a : ℚ) < 2 ^ (53 : ℕ) := by exact_mod_cast ha2
  have hlt : (a : ℚ) / 2 ^ j < (2 : ℚ) ^ ((53 : ℤ) - j) := by
    rw [zpow_sub₀ (by norm_num : (2 : ℚ) ≠ 0), zpow_natCast]
    apply div_lt_div_of_pos_right _ (by positivity)
    exact_mod_cast haq
  have he : Int.log 2 ((a : ℚ) / 2 ^ j) < (53 : ℤ) - j :=
    (Int.lt_zpow_iff_log_lt (b := 2) (by norm_num) hx).mp (by exact_mod_cast hlt)
  have hk : (0 : ℤ) ≤ 52 - Int.log 2 ((a : ℚ) / 2 ^ j) - j := by omega
  apply toBinary64_exact _ ((a : ℤ) * 2 ^ (52 - Int.log 2 ((a : ℚ) / 2 ^ j) - j).toNat)
  · rw [hu]
    generalize Int.log 2 ((a : ℚ) / 2 ^ j) = L at hk
    have key : ((2 : ℚ) ^ (52 - L - j).toNat) = (2 : ℚ) ^ (52 - L - j : ℤ) := by
      rw [← zpow_natCast, Int.toNat_of_nonneg hk]
    have h2ne : (2 : ℚ) ≠ 0 := by norm_num
    calc (a : ℚ) / 2 ^ j = a * (2 : ℚ) ^ (-(j : ℤ)) := by
          rw [zpow_neg, zpow_natCast, div_eq_mul_inv]
      _ = a * ((2 : ℚ) ^ (52 - L - j : ℤ) * 2 ^ (L - 52)) := by
          rw [← zpow_add₀ h2ne]
          congr 2
          ring
      _ = (((a : ℤ) * 2 ^ (52 - L - j).toNat : ℤ) : ℚ) * 2 ^ (L - 52) := by
          push_cast
          rw [key]
          ring
  · rw [abs_of_pos hx]
    calc (a : ℚ) / 2 ^ j ≤ a := div_le_self (by positivity) (one_le_pow₀ (by norm_num))
      _ < 2 ^ (53 : ℕ) := haq
      _ < 2 ^ (1024 : ℕ) := by norm_num

theorem toBinary64_zero : toBinary64 0 = some 0 :=
  toBinary64_exact 0 0 (by simp) (by norm_num)

theorem toBinary64_natCast (n : ℕ) (hn : n < 2 ^ 53) : toBinary64 (n : ℚ) = some (n : ℚ) := by
  rcases Nat.eq_zero_or_pos n with h | h
  · rw [h]; exact_mod_cast toBinary64_zero
  · have := toBinary64_dyadic n 0 h hn (by
      simp only [pow_zero, div_one]
      have h1 : (1 : ℚ) ≤ n := by exact_mod_cast h
      have h2 : (2 : ℚ) ^ (-1022 : ℤ) ≤ 1 := zpow_le_one_of_nonpos₀ (by norm_num) (by norm_num)
      linarith)
    simpa using this


/-- The quotient of a sum below `2 ^ 52` by a count, rounded to binary64, rounds to the same
integer as the exact quotient. -/
theorem toBinary64_quotient (S k : ℕ) (hk : 0 < k) (hS : S < 2 ^ 52) :
    ∃ r, toBinary64 ((S : ℚ) / k) = some r ∧ App.mathRound r = App.mathRound ((S : ℚ) / k) := by
  rcases Nat.eq_zero_or_pos S with h0 | hpos
  · refine ⟨0, ?_, ?_⟩
    · rw [h0]; simpa using toBinary64_zero
    · rw [h0]; simp
  have hkq : (0 : ℚ) < (k : ℚ) := by exact_mod_cast hk
  have hSq : (S : ℚ) < 4503599627370496 := by exact_mod_cast hS
  have hS1 : (1 : ℚ) ≤ (S : ℚ) := by exact_mod_cast hpos
  have hq : (0 : ℚ) < (S : ℚ) / k := by positivity
  have hqk : (S : ℚ) / k * k = S := div_mul_cancel₀ _ (ne_of_gt hkq)
  by_cases hqlo : (2 : ℚ) ^ (-1022 : ℤ) ≤ (S : ℚ) / k
  swap
  · -- a quotient below the normal range: it and its rounding are close to zero
    have hsub : (S : ℚ) / k < (2 : ℚ) ^ (-1022 : ℤ) := not_le.mp hqlo
    have hlog : Int.log 2 ((S : ℚ) / k) < -1022 :=
      (Int.lt_zpow_iff_log_lt (b := 2) (by norm_num) hq).mp (by exact_mod_cast hsub)
    have hu : ulp ((S : ℚ) / k) = (2 : ℚ) ^ (-1074 : ℤ) := by
      unfold ulp
      rw [abs_of_pos hq, max_eq_right (le_of_lt hlog)]
      norm_num
    have hsmall1 : (2 : ℚ) ^ (-1022 : ℤ) ≤ 1 / 4 := by
      have h : (2 : ℚ) ^ (-1022 : ℤ) ≤ (2 : ℚ) ^ (-2 : ℤ) :=
        zpow_le_zpow_right₀ (by norm_num) (by norm_num)
      have h2 : (2 : ℚ) ^ (-2 : ℤ) = 1 / 4 := by norm_num
      linarith
    have hsmall2 : (2 : ℚ) ^ (-1074 : ℤ) ≤ 1 / 4 := by
      have h : (2 : ℚ) ^ (-1074 : ℤ) ≤ (2 : ℚ) ^ (-2 : ℤ) :=
        zpow_le_zpow_right₀ (by norm_num) (by norm_num)
      have h2 : (2 : ℚ) ^ (-2 : ℤ) = 1 / 4 := by norm_num
      linarith
    have hnear := roundedValue_near ((S : ℚ) / k)
    rw [hu, abs_le] at hnear
    have hbig : (1 : ℚ) < 2 ^ (1024 : ℕ) := by norm_num
    refine ⟨(roundHalfEven ((S : ℚ) / k / (2 : ℚ) ^ (-1074 : ℤ)) : ℚ) * (2 : ℚ) ^ (-1074 : ℤ),
      ?_, ?_⟩
    · unfold toBinary64
      rw [hu, if_pos]
      rw [abs_lt]
      constructor <;> linarith
    · unfold App.mathRound
      have e1 : ⌊(roundHalfEven ((S : ℚ) / k / (2 : ℚ) ^ (-1074 : ℤ)) : ℚ)
          * (2 : ℚ) ^ (-1074 : ℤ) + 1 / 2⌋ = (0 : ℤ) :=
        Int.floor_eq_iff.mpr ⟨by push_cast; linarith, by push_cast; linarith⟩
      have e2 : ⌊(S : ℚ) / k + 1 / 2⌋ = (0 : ℤ) :=
        Int.floor_eq_iff.mpr ⟨by push_cast; linarith, by push_cast; linarith⟩
      rw [e1, e2]
  obtain ⟨hu, h1, -⟩ := ulp_of_normal _ hq hqlo
  have hm1 : ((App.mathRound ((S : ℚ) / k) : ℤ) : ℚ) ≤ (S : ℚ) / k + 1 / 2 := Int.floor_le _
  have hm2 : (S : ℚ) / k + 1 / 2 < ((App.mathRound ((S : ℚ) / k) : ℤ) : ℚ) + 1 :=
    Int.lt_floor_add_one _
  generalize App.mathRound ((S : ℚ) / k) = m at hm1 hm2 ⊢
  have hA : (2 * m - 1) * (k : ℤ) ≤ 2 * (S : ℤ) := by
    have : (2 * (m : ℚ) - 1) * (k : ℚ) ≤ 2 * (S : ℚ) := by nlinarith
    exact_mod_cast this
  have hB : 2 * (S : ℤ) + 1 ≤ (2 * m + 1) * (k : ℤ) := by
    have : 2 * (S : ℚ) < (2 * (m : ℚ) + 1) * (k : ℚ) := by nlinarith
    have h : 2 * (S : ℤ) < (2 * m + 1) * (k : ℤ) := by exact_mod_cast this
    omega
  by_cases hedge : (2 * m - 1) * (k : ℤ) = 2 * (S : ℤ)
  · -- the quotient is the half-integer `m - 1/2`, a binary64 number
    have hkz : (0 : ℤ) < (k : ℤ) := by exact_mod_cast hk
    have hSz : (0 : ℤ) < (S : ℤ) := by exact_mod_cast hpos
    have hpos2 : 0 < 2 * m - 1 := by
      by_contra hcon
      have : (2 * m - 1) * (k : ℤ) ≤ 0 :=
        mul_nonpos_of_nonpos_of_nonneg (not_lt.mp hcon) (le_of_lt hkz)
      omega
    have hle : 2 * m - 1 ≤ 2 * (S : ℤ) := by
      have : (2 * m - 1) * 1 ≤ (2 * m - 1) * (k : ℤ) :=
        mul_le_mul_of_nonneg_left (by omega) (le_of_lt hpos2)
      omega
    have hSz2 : (S : ℤ) < 4503599627370496 := by exact_mod_cast hS
    have heq : (S : ℚ) / k = (((2 * m - 1).toNat : ℕ) : ℚ) / 2 ^ 1 := by
      have hcast : (((2 * m - 1).toNat : ℕ) : ℚ) = 2 * (m : ℚ) - 1 := by
        have : (((2 * m - 1).toNat : ℕ) : ℤ) = 2 * m - 1 := Int.toNat_of_nonneg (le_of_lt hpos2)
        exact_mod_cast this
      rw [hcast, div_eq_div_iff (ne_of_gt hkq) (by norm_num)]
      have : (2 * (m : ℚ) - 1) * (k : ℚ) = 2 * (S : ℚ) := by exact_mod_cast hedge
      linarith
    have hexact := toBinary64_dyadic (2 * m - 1).toNat 1 (by omega) (by omega)
      (by rw [← heq]; exact hqlo)
    rw [← heq] at hexact
    refine ⟨_, hexact, ?_⟩
    unfold App.mathRound
    exact Int.floor_eq_iff.mpr ⟨hm1, hm2⟩
  · have hA2 : (2 * m - 1) * (k : ℤ) + 1 ≤ 2 * (S : ℤ) := by omega
    have hA3 : (2 * (m : ℚ) - 1) * (k : ℚ) + 1 ≤ 2 * (S : ℚ) := by exact_mod_cast hA2
    have hB3 : 2 * (S : ℚ) + 1 ≤ (2 * (m : ℚ) + 1) * (k : ℚ) := by exact_mod_cast hB
    have hnear := roundedValue_near ((S : ℚ) / k)
    have hulp : ulp ((S : ℚ) / k) / 2 * (2 * k) < 1 := by
      rw [hu, zpow_sub₀ (by norm_num : (2 : ℚ) ≠ 0)]
      have h52 : (2 : ℚ) ^ (52 : ℤ) = 4503599627370496 := by norm_num
      rw [h52]
      have : (2 : ℚ) ^ Int.log 2 ((S : ℚ) / k) * k ≤ S := by
        calc (2 : ℚ) ^ Int.log 2 ((S : ℚ) / k) * k ≤ (S : ℚ) / k * k :=
              mul_le_mul_of_nonneg_right h1 (le_of_lt hkq)
          _ = S := hqk
      have hgoal : (2 : ℚ) ^ Int.log 2 ((S : ℚ) / k) / 4503599627370496 / 2 * (2 * k)
          = (2 : ℚ) ^ Int.log 2 ((S : ℚ) / k) * k / 4503599627370496 := by ring
      rw [hgoal, div_lt_one (by norm_num)]
      linarith
    generalize hr : (roundHalfEven ((S : ℚ) / k / ulp ((S : ℚ) / k)) : ℚ) * ulp ((S : ℚ) / k) = r
      at hnear
    generalize ulp ((S : ℚ) / k) = u at hnear hulp
    rw [abs_le] at hnear
    have h2k : (0 : ℚ) < 2 * k := by linarith
    have hq2 : (S : ℚ) / k * (2 * k) = 2 * S := by
      calc (S : ℚ) / k * (2 * k) = 2 * ((S : ℚ) / k * k) := by ring
        _ = 2 * S := by rw [hqk]
    have hr1 : (m : ℚ) - 1 / 2 < r := by
      have e1 : ((S : ℚ) / k - r) * (2 * k) ≤ u / 2 * (2 * k) :=
        mul_le_mul_of_nonneg_right (by linarith) (le_of_lt h2k)
      have e2 : ((S : ℚ) / k - r) * (2 * k) = 2 * S - r * (2 * k) := by
        rw [sub_mul, hq2]
      have e3 : ((m : ℚ) - 1 / 2) * (2 * k) = (2 * (m : ℚ) - 1) * k := by ring
      have e4 : ((m : ℚ) - 1 / 2) * (2 * k) < r * (2 * k) := by linarith
      exact lt_of_mul_lt_mul_right e4 (le_of_lt h2k)
    have hr2 : r < (m : ℚ) + 1 / 2 := by
      have e1 : (r - (S : ℚ) / k) * (2 * k) ≤ u / 2 * (2 * k) :=
        mul_le_mul_of_nonneg_right (by linarith) (le_of_lt h2k)
      have e2 : (r - (S : ℚ) / k) * (2 * k) = r * (2 * k) - 2 * S := by
        rw [sub_mul, hq2]
      have e3 : ((m : ℚ) + 1 / 2) * (2 * k) = (2 * (m : ℚ) + 1) * k := by ring
      have e4 : r * (2 * k) < ((m : ℚ) + 1 / 2) * (2 * k) := by linarith
      exact lt_of_mul_lt_mul_right e4 (le_of_lt h2k)
    have hr3 : |r| < 2 ^ (1024 : ℕ) := by
      have hm0 : (m : ℚ) ≤ (S : ℚ) + 1 / 2 := by
        have : (S : ℚ) / k ≤ S := div_le_self (by linarith) (by exact_mod_cast hk)
        linarith
      have hm00 : (0 : ℚ) ≤ (m : ℚ) := by
        have : (0 : ℤ) ≤ m := by
          by_contra hneg
          have hmz : m ≤ -1 := by omega
          have : (m : ℚ) ≤ -1 := by exact_mod_cast hmz
          linarith
        exact_mod_cast this
      rw [abs_lt]
      constructor
      · have : (-(2 : ℚ) ^ (1024 : ℕ)) < -1 := by norm_num
        linarith
      · have : (4503599627370497 : ℚ) < 2 ^ (1024 : ℕ) := by norm_num
        linarith
    refine ⟨r, ?_, ?_⟩
    · unfold toBinary64
      rw [hr, if_pos hr3]
    · unfold App.mathRound
      exact Int.floor_eq_iff.mpr ⟨by linarith, by linarith⟩


/-- The sum `2 ^ 53 + 1` lies half-way between two binary64 numbers and is rounded to the even
one, `2 ^ 53`. -/
theorem toBinary64_tie : toBinary64 9007199254740993 = some 9007199254740992 := by
  have hlog : Int.log 2 (9007199254740993 : ℚ) = 53 :=
    log_two_eq _ 53 (by norm_num) (by norm_num) (by norm_num)
  have hulp : ulp 9007199254740993 = 2 := by
    unfold ulp
    rw [abs_of_pos (by norm_num), hlog]
    norm_num
  have hfloor : ⌊(9007199254740993 : ℚ) / 2⌋ = 4503599627370496 :=
    Int.floor_eq_iff.mpr ⟨by norm_num, by norm_num⟩
  have hround : roundHalfEven ((9007199254740993 : ℚ) / 2) = 4503599627370496 := by
    unfold roundHalfEven
    rw [hfloor]
    norm_num
  unfold toBinary64
  rw [hulp, hround]
  norm_num

theorem numericScores_natural (parseFloat : Str → Option ℚ) (data : List Record)
    (hint : ∀ item ∈ data, App.scoreOf parseFloat item = none ∨
      ∃ n : ℕ, App.scoreOf parseFloat item = some (n : ℚ)) :
    ∃ ns : List ℕ, App.numericScores parseFloat data = List.map (Nat.cast : ℕ → ℚ) ns := by
  induction data with
  | nil => exact ⟨[], rfl⟩
  | cons item rest ih =>
    obtain ⟨ns, hns⟩ := ih (fun x hx => hint x (List.mem_cons_of_mem _ hx))
    unfold App.numericScores at hns ⊢
    rcases hint item (List.mem_cons_self _ _) with h | ⟨n, h⟩
    · exact ⟨ns, by simp only [List.filterMap_cons, h, hns]⟩
    · exact ⟨n :: ns, by simp only [List.filterMap_cons, h, hns, List.map_cons]⟩

theorem sumScores_cons (b : ℚ) (rest : List ℚ) (a total : ℚ)
    (h : toBinary64 (a + b) = some total) :
    App.sumScores (b :: rest) a = App.sumScores rest total := by
  show (match toBinary64 (a + b) with
    | some total => App.sumScores rest total
    | none => none) = _
  rw [h]

/-- Sums of natural numbers below `2 ^ 53` are exact. -/
theorem sumScores_natural (ns : List ℕ) (a : ℕ) (h : a + ns.sum < 9007199254740992) :
    App.sumScores (List.map (Nat.cast : ℕ → ℚ) ns) (a : ℚ) = some ((a + ns.sum : ℕ) : ℚ) := by
  induction ns generalizing a with
  | nil =>
    show some (a : ℚ) = some ((a + 0 : ℕ) : ℚ)
    rw [Nat.add_zero]
  | cons n rest ih =>
    rw [List.sum_cons] at h
    have hstep : toBinary64 ((a : ℚ) + (n : ℚ)) = some (((a + n : ℕ)) : ℚ) := by
      have h0 := toBinary64_natCast (a + n) (by omega)
      have e : ((a + n : ℕ) : ℚ) = (a : ℚ) + (n : ℚ) := Nat.cast_add a n
      rw [← e]
      exact h0
    show (match toBinary64 ((a : ℚ) + (n : ℚ)) with
      | some total => App.sumScores (List.map (Nat.cast : ℕ → ℚ) rest) total
      | none => none) = _
    rw [hstep]
    show App.sumScores (List.map (Nat.cast : ℕ → ℚ) rest) ((a + n : ℕ) : ℚ) = _
    rw [ih (a + n) (by omega), List.sum_cons, Nat.add_assoc]

/-- C13 (as amended): for every dataset in which each match score is either
not numeric or a natural number, and the numeric scores add up to less than
`2 ^ 52`,
`avgMatchScore` is 0 when no score is numeric, and otherwise the integer `m`
nearest to the mean of the numeric scores, a half rounding up:
`m - 1/2 ≤ mean < m + 1/2`, stated here without division as
`(2m - 1) k ≤ 2 S < (2m + 1) k` for the sum `S` of the `k` numeric scores. -/
theorem avgMatchScore_spec (parseFloat : Str → Option ℚ) (data : List Record)
    (hint : ∀ item ∈ data, App.scoreOf parseFloat item = none ∨
      ∃ n : ℕ, App.scoreOf parseFloat item = some (n : ℚ))
    (hsum : (App.numericScores parseFloat data).sum < 2 ^ 52) :
    (App.numericScores parseFloat data = [] → App.avgMatchScore parseFloat data = some 0) ∧
    ∃ (ns : List ℕ) (m : ℤ),
      App.numericScores parseFloat data = List.map (Nat.cast : ℕ → ℚ) ns ∧
      App.avgMatchScore parseFloat data = some m ∧
      (ns ≠ [] →
        (2 * m - 1) * (ns.length : ℤ) ≤ 2 * (ns.sum : ℤ) ∧
        2 * (ns.sum : ℤ) < (2 * m + 1) * (ns.length : ℤ)) := by
  constructor
  · intro h
    simp [App.avgMatchScore, h]
  · obtain ⟨ns, hns⟩ := numericScores_natural parseFloat data hint
    by_cases hne : ns = []
    · refine ⟨ns, 0, hns, ?_, fun h => absurd hne h⟩
      simp [App.avgMatchScore, hns, hne]
    · have hk : 0 < ns.length := List.length_pos.mpr hne
      have hsumq : (List.map (Nat.cast : ℕ → ℚ) ns).sum = ((ns.sum : ℕ) : ℚ) := by
        rw [Nat.cast_list_sum]
      have hS : ns.sum < 2 ^ 52 := by
        rw [hns, hsumq] at hsum
        exact_mod_cast hsum
      have htotal : App.sumScores (List.map (Nat.cast : ℕ → ℚ) ns) 0
          = some ((ns.sum : ℕ) : ℚ) := by
        have h0 := sumScores_natural ns 0 (by omega)
        rw [Nat.zero_add, Nat.cast_zero] at h0
        exact h0
      obtain ⟨r, hr, hround⟩ := toBinary64_quotient ns.sum ns.length hk hS
      have havg : App.avgMatchScore parseFloat data
          = some (App.mathRound ((ns.sum : ℚ) / (ns.length : ℚ))) := by
        simp only [App.avgMatchScore, hns, List.length_map, hk, if_true, htotal, hr,
          Option.map_some', hround, gt_iff_lt]
      refine ⟨ns, _, hns, havg, fun _ => ?_⟩
      have hkq : (0 : ℚ) < (ns.length : ℚ) := by exact_mod_cast hk
      have h1 : ((App.mathRound ((ns.sum : ℚ) / (ns.length : ℚ)) : ℤ) : ℚ)
          ≤ ((ns.sum : ℕ) : ℚ) / (ns.length : ℚ) + 1 / 2 := Int.floor_le _
      have h2 : ((ns.sum : ℕ) : ℚ) / (ns.length : ℚ) + 1 / 2
          < ((App.mathRound ((ns.sum : ℚ) / (ns.length : ℚ)) : ℤ) : ℚ) + 1 :=
        Int.lt_floor_add_one _
      have hdiv : ((ns.sum : ℕ) : ℚ) / (ns.length : ℚ) * (ns.length : ℚ) = ((ns.sum : ℕ) : ℚ) :=
        div_mul_cancel₀ _ (ne_of_gt hkq)
      generalize App.mathRound ((ns.sum : ℚ) / (ns.length : ℚ)) = m at h1 h2
      constructor
      · have h3 : (2 * (m : ℚ) - 1) * (ns.length : ℚ) ≤ 2 * ((ns.sum : ℕ) : ℚ) := by
          nlinarith
        have h4 : (((2 * m - 1) * (ns.length : ℤ) : ℤ) : ℚ)
            ≤ (((2 * ns.sum : ℕ) : ℤ) : ℚ) := by
          simp only [Int.cast_mul, Int.cast_sub, Int.cast_add, Int.cast_ofNat, Int.cast_one,
            Int.cast_natCast, Nat.cast_mul, Nat.cast_ofNat]
          exact h3
        exact Int.cast_le.mp h4
      · have h3 : 2 * ((ns.sum : ℕ) : ℚ) < (2 * (m : ℚ) + 1) * (ns.length : ℚ) := by
          nlinarith
        have h4 : ((((2 * ns.sum : ℕ) : ℤ)) : ℚ)
            < (((2 * m + 1) * (ns.length : ℤ) : ℤ) : ℚ) := by
          simp only [Int.cast_mul, Int.cast_sub, Int.cast_add, Int.cast_ofNat, Int.cast_one,
            Int.cast_natCast, Nat.cast_mul, Nat.cast_ofNat]
          exact h3
        exact Int.cast_lt.mp h4

theorem avgMatchScore_spec_witness :
    (App.numericScores parseDigits (scoreData ["80", "x", "85"])).sum < 2 ^ 52 ∧
    App.avgMatchScore parseDigits (scoreData ["80", "x", "85"]) = some 83 := by
  have hint : ∀ item ∈ scoreData ["80", "x", "85"], App.scoreOf parseDigits item = none ∨
      ∃ n : ℕ, App.scoreOf parseDigits item = some (n : ℚ) := by
    intro item hitem
    simp only [scoreData, List.map_cons, List.map_nil, List.mem_cons, List.mem_singleton,
      List.not_mem_nil, or_false] at hitem
    rcases hitem with h | h | h
    · subst h; exact Or.inr ⟨80, rfl⟩
    · subst h; exact Or.inl rfl
    · subst h; exact Or.inr ⟨85, rfl⟩
  have hns2 : App.numericScores parseDigits (scoreData ["80", "x", "85"])
      = List.map (Nat.cast : ℕ → ℚ) [80, 85] := rfl
  have hsum : (App.numericScores parseDigits (scoreData ["80", "x", "85"])).sum < 2 ^ 52 := by
    rw [hns2]
    norm_num
  refine ⟨hsum, ?_⟩
  obtain ⟨-, ns, m, hns, havg, hm⟩ :=
    avgMatchScore_spec parseDigits (scoreData ["80", "x", "85"]) hint hsum
  have heq : ns = [80, 85] :=
    List.map_injective_iff.mpr Nat.cast_injective (hns.symm.trans hns2)
  subst heq
  have h := hm (by decide)
  simp only [List.length_cons, List.length_nil, List.sum_cons, List.sum_nil] at h
  rw [havg]
  congr 1
  omega

/-- C13 (counterexample): for the two scores 9007199254740992 and 1 the sum
9007199254740993 is no binary64 number and is rounded to 9007199254740992,
so `avgMatchScore` is 4503599627370496, whereas the mean
4503599627370496.5 rounds to 4503599627370497. -/
theorem avgMatchScore_rounds_sum :
    App.avgMatchScore parseDigits (scoreData ["9007199254740992", "1"])
      = some 4503599627370496 ∧
    App.mathRound ((9007199254740992 + 1) / 2) = 4503599627370497 := by
  have hns : App.numericScores parseDigits (scoreData ["9007199254740992", "1"])
      = [9007199254740992, 1] := by
    have h : App.numericScores parseDigits (scoreData ["9007199254740992", "1"])
        = List.map (Nat.cast : ℕ → ℚ) [9007199254740992, 1] := rfl
    rw [h]
    simp
  have hlog : Int.log 2 (9007199254740992 : ℚ) = 53 :=
    log_two_eq _ 53 (by norm_num) (by norm_num) (by norm_num)
  have hulp : ulp 9007199254740992 = 2 := by
    unfold ulp
    rw [abs_of_pos (by norm_num), hlog]
    norm_num
  have h1 : toBinary64 (0 + 9007199254740992) = some 9007199254740992 := by
    rw [zero_add]
    exact toBinary64_exact _ 4503599627370496 (by rw [hulp]; norm_num) (by norm_num)
  have h2 : toBinary64 (9007199254740992 + 1) = some 9007199254740992 := by
    have : (9007199254740992 : ℚ) + 1 = 9007199254740993 := by norm_num
    rw [this]
    exact toBinary64_tie
  have h3 : toBinary64 (9007199254740992 / 2) = some 4503599627370496 := by
    have : (9007199254740992 : ℚ) / 2 = ((4503599627370496 : ℕ) : ℚ) := by norm_num
    rw [this]
    have := toBinary64_natCast 4503599627370496 (by norm_num)
    simpa using this
  constructor
  · have hsumScores : App.sumScores [9007199254740992, 1] 0 = some 9007199254740992 := by
      rw [sumScores_cons _ _ _ _ h1, sumScores_cons _ _ _ _ h2]
      rfl
    have hlen : ((([9007199254740992, 1] : List ℚ).length : ℕ) : ℚ) = 2 := by norm_num
    unfold App.avgMatchScore
    rw [hns]
    simp only [List.length_cons, List.length_nil, Nat.zero_add, Nat.reduceAdd, gt_iff_lt,
      Nat.ofNat_pos, if_true, hsumScores, Nat.cast_ofNat, h3, Option.map_some']
    congr 1
    exact Int.floor_eq_iff.mpr ⟨by norm_num, by norm_num⟩
  · unfold App.mathRound
    exact Int.floor_eq_iff.mpr ⟨by norm_num, by norm_num⟩

/-! ### City labels -/

theorem latinLowerCase_cons (c : Char) (s : Str) :
    latinLowerCase (c :: s) = latinLowerCase [c] ++ latinLowerCase s := by
  simp [latinLowerCase, List.flatMap_cons]

theorem splitOnSpace_ne_nil (s : Str) : App.splitOnSpace s ≠ [] := by
  cases s with
  | nil => simp [App.splitOnSpace]
  | cons c cs =>
    by_cases hc : c = ' '
    · simp [App.splitOnSpace, hc]
    · cases h : App.splitOnSpace cs <;> simp [App.splitOnSpace, hc, h]

/-- The call `split(' ')` cuts the text at every space. -/
theorem splitOnSpace_eq (s : Str) : App.splitOnSpace s = s.splitOn ' ' := by
  induction s with
  | nil => rfl
  | cons c cs ih =>
    have hsplit : (c :: cs).splitOn ' '
        = if (c == ' ') = true then [] :: cs.splitOn ' '
          else (cs.splitOn ' ').modifyHead (List.cons c) :=
      List.splitOnP_cons (fun x => x == ' ') c cs
    rw [hsplit]
    by_cases hc : c = ' '
    · simp [App.splitOnSpace, hc, ih]
    · have hb : ¬ (c == ' ') = true := by simpa using hc
      rw [if_neg hb, ← ih]
      cases h : App.splitOnSpace cs with
      | nil => exact absurd h (splitOnSpace_ne_nil cs)
      | cons w ws => simp [App.splitOnSpace, hc, h, List.modifyHead]

/-- The call `join(' ')` puts one space between the words. -/
theorem joinWithSpace_eq (ws : List Str) : App.joinWithSpace ws = [' '].intercalate ws := by
  induction ws with
  | nil => rfl
  | cons w rest ih =>
    cases rest with
    | nil => simp [App.joinWithSpace, List.intercalate, List.intersperse]
    | cons w2 rest2 =>
      have h1 : App.joinWithSpace (w :: w2 :: rest2)
          = w ++ ' ' :: App.joinWithSpace (w2 :: rest2) := by
        simp [App.joinWithSpace]
      rw [h1, ih]
      simp [List.intercalate, List.intersperse]

theorem cityLabel_eq (host : App.CaseHost) (item : Record) (city : Str)
    (hcity : item.get "city".toList = some city) (hne : city ≠ []) :
    App.cityLabel host item
      = App.joinWithSpace ((App.splitOnSpace (trim city)).map (App.capitalize host)) := by
  simp only [App.cityLabel, hcity, hne, if_false]

theorem caseVariant_whiteSpace (host : App.CaseHost) (c d : Char) (h : CaseVariant host c d) :
    isWhiteSpace c = isWhiteSpace d := by
  rcases h with h | ⟨h1, h2, _⟩
  · rw [h]
  · rw [h1, h2]

theorem caseVariant_space (host : App.CaseHost) (c d : Char) (h : CaseVariant host c d) :
    c = ' ' ↔ d = ' ' := by
  rcases h with h | ⟨h1, h2, _⟩
  · rw [h]
  · constructor
    · intro hc
      rw [hc] at h1
      exact absurd h1 (by decide)
    · intro hd
      rw [hd] at h2
      exact absurd h2 (by decide)

theorem sameUpToCase_dropWhile (host : App.CaseHost) (a b : Str)
    (h : List.Forall₂ (CaseVariant host) a b) :
    List.Forall₂ (CaseVariant host) (a.dropWhile isWhiteSpace) (b.dropWhile isWhiteSpace) := by
  induction h with
  | nil => exact List.Forall₂.nil
  | @cons c d l1 l2 hcd hl ih =>
    have hw := caseVariant_whiteSpace host c d hcd
    cases hd : isWhiteSpace d with
    | true =>
      rw [hd] at hw
      simp only [List.dropWhile_cons, hw, hd, if_true]
      exact ih
    | false =>
      rw [hd] at hw
      simp only [List.dropWhile_cons, hw, hd]
      exact List.Forall₂.cons hcd hl

theorem sameUpToCase_trim (host : App.CaseHost) (a b : Str)
    (h : List.Forall₂ (CaseVariant host) a b) :
    List.Forall₂ (CaseVariant host) (trim a) (trim b) := by
  unfold trim trimEnd trimStart
  apply List.forall₂_reverse_iff.mpr
  apply sameUpToCase_dropWhile
  apply List.forall₂_reverse_iff.mpr
  exact sameUpToCase_dropWhile host a b h

theorem sameUpToCase_splitOnSpace (host : App.CaseHost) (a b : Str)
    (h : List.Forall₂ (CaseVariant host) a b) :
    List.Forall₂ (List.Forall₂ (CaseVariant host)) (App.splitOnSpace a) (App.splitOnSpace b) := by
  induction h with
  | nil => exact List.Forall₂.cons List.Forall₂.nil List.Forall₂.nil
  | @cons c d l1 l2 hcd hl ih =>
    have hsp := caseVariant_space host c d hcd
    by_cases hc : c = ' '
    · have hd : d = ' ' := hsp.mp hc
      simp only [App.splitOnSpace, hc, hd, if_true]
      exact List.Forall₂.cons List.Forall₂.nil ih
    · have hd : ¬ d = ' ' := fun h => hc (hsp.mpr h)
      simp only [App.splitOnSpace, hc, hd, if_false]
      cases h1 : App.splitOnSpace l1 with
      | nil => exact absurd h1 (splitOnSpace_ne_nil l1)
      | cons w1 r1 =>
        cases h2 : App.splitOnSpace l2 with
        | nil => exact absurd h2 (splitOnSpace_ne_nil l2)
        | cons w2 r2 =>
          rw [h1, h2] at ih
          cases ih with
          | cons hw hr => exact List.Forall₂.cons (List.Forall₂.cons hcd hw) hr

theorem capitalize_sameUpToCase (host : App.CaseHost) (hlower : LowerCaseBlind host)
    (w1 w2 : Str) (h : List.Forall₂ (CaseVariant host) w1 w2) :
    App.capitalize host w1 = App.capitalize host w2 := by
  cases h with
  | nil => rfl
  | @cons c d r1 r2 hcd hr =>
    have hrest : host.toLowerCase r1 = host.toLowerCase r2 := hlower r1 r2 hr
    rcases hcd with heq | ⟨_, _, hc, hd, hup, _⟩
    · rw [heq]
      simp only [App.capitalize, hrest]
    · simp only [App.capitalize, hc, hd, if_true, hup, hrest]

theorem map_capitalize_sameUpToCase (host : App.CaseHost) (hlower : LowerCaseBlind host)
    (ws1 ws2 : List Str) (h : List.Forall₂ (List.Forall₂ (CaseVariant host)) ws1 ws2) :
    ws1.map (App.capitalize host) = ws2.map (App.capitalize host) := by
  induction h with
  | nil => rfl
  | @cons w1 w2 r1 r2 hw _ ih =>
    simp only [List.map_cons, ih, capitalize_sameUpToCase host hlower w1 w2 hw]

/-- The sample conversions do not tell apart texts that differ only in letter
case. -/
theorem latinCase_lowerCaseBlind : LowerCaseBlind latinCase := by
  intro s t h
  induction h with
  | nil => rfl
  | @cons c d r1 r2 hcd _ ih =>
    have ih2 : latinLowerCase r1 = latinLowerCase r2 := ih
    have hhead : latinLowerCase [c] = latinLowerCase [d] := by
      rcases hcd with heq | ⟨_, _, _, _, _, hlow⟩
      · rw [heq]
      · exact hlow
    show latinLowerCase (c :: r1) = latinLowerCase (d :: r2)
    rw [latinLowerCase_cons c r1, latinLowerCase_cons d r2, hhead, ih2]

theorem sameUpToCase_of_zip (host : App.CaseHost) (a b : Str) (hlen : a.length = b.length)
    (hzip : ∀ p ∈ a.zip b, CaseVariant host p.1 p.2) : SameUpToCase host a b :=
  List.forall₂_iff_zip.mpr ⟨hlen, fun hab => hzip _ hab⟩

/-- C16 (as amended): for every record with a non-empty city, the label under
which the city series counts the record is the trimmed city value cut at
every single space, with each piece capitalised and the pieces joined by one
space again. Capitalising a word puts its first character in upper case and
the rest of the word in lower case, except that a first character outside
the Basic Multilingual Plane is kept as it is. Hence a record whose city
differs from it only in letter case, character by character, is counted
under the same label, the lower-case conversion being blind to such
differences. With the conversions of Latin-1 text,
`  ZÜRICH  éire ßen<TAB>x ` is counted under `Zürich  Éire SSen<TAB>x`. -/
theorem cityLabel_spec (host : App.CaseHost) (item : Record) (city : Str)
    (hcity : item.get "city".toList = some city) (hne : city ≠ []) :
    App.cityLabel host item
      = [' '].intercalate (((trim city).splitOn ' ').map (App.capitalize host)) ∧
    App.capitalize host [] = [] ∧
    (∀ c rest, c.toNat < 0x10000 →
      App.capitalize host (c :: rest) = host.toUpperCase [c] ++ host.toLowerCase rest) ∧
    (∀ c rest, ¬ c.toNat < 0x10000 →
      App.capitalize host (c :: rest) = c :: host.toLowerCase rest) ∧
    (LowerCaseBlind host →
      ∀ (item2 : Record) (city2 : Str), item2.get "city".toList = some city2 →
        SameUpToCase host city city2 → App.cityLabel host item2 = App.cityLabel host item) ∧
    App.cityLabel latinCase (mkRecord [("city", "  ZÜRICH  éire ßen\tx ")])
      = "Zürich  Éire SSen\tx".toList := by
  refine ⟨?_, rfl, ?_, ?_, ?_, by decide⟩
  · rw [cityLabel_eq host item city hcity hne, joinWithSpace_eq, splitOnSpace_eq]
  · intro c rest hc
    simp only [App.capitalize, hc, if_true]
  · intro c rest hc
    simp only [App.capitalize, hc, if_false]
  · intro hlower item2 city2 hcity2 hsame
    have hne2 : city2 ≠ [] := by
      intro h2
      rw [h2] at hsame
      cases hsame
      exact hne rfl
    rw [cityLabel_eq host item city hcity hne, cityLabel_eq host item2 city2 hcity2 hne2]
    rw [map_capitalize_sameUpToCase host hlower _ _
      (sameUpToCase_splitOnSpace host _ _ (sameUpToCase_trim host city city2 hsame))]

theorem cityLabel_spec_witness :
    App.cityLabel latinCase (mkRecord [("city", " new york ")]) = "New York".toList ∧
    App.cityLabel latinCase (mkRecord [("city", " NEW yORK ")])
      = App.cityLabel latinCase (mkRecord [("city", " new york ")]) := by
  have h := cityLabel_spec latinCase (mkRecord [("city", " new york ")]) " new york ".toList
    rfl (by decide)
  refine ⟨h.1.trans (by decide), ?_⟩
  exact h.2.2.2.2.1 latinCase_lowerCaseBlind (mkRecord [("city", " NEW yORK ")])
    " NEW yORK ".toList rfl
    (sameUpToCase_of_zip latinCase _ _ (by decide) (by decide))

/-- C16 (counterexample): the city `new<TAB>york` is counted under the label
`New<TAB>york`, whereas capitalising each white-space-separated word gives
`New<TAB>York`; and a record without city is counted under
`Remote/unknown`. -/
theorem cityLabel_not_whiteSpace_words :
    App.cityLabel latinCase (mkRecord [("city", "new\tyork")]) = "New\tyork".toList ∧
    capitalizeWords latinCase isWhiteSpace true (trim "new\tyork".toList)
      = "New\tYork".toList ∧
    App.cityLabel latinCase (mkRecord [("city", "new\tyork")])
      ≠ capitalizeWords latinCase isWhiteSpace true (trim "new\tyork".toList) ∧
    App.cityLabel latinCase (mkRecord []) = "Remote/unknown".toList := by
  decide

/-! ### The company series -/

/-- The reducer on labels that name no member of `Object.prototype`: the
result has distinct keys, holds exactly the labels met besides the keys it
started with, and raises each count by the number of occurrences. -/
theorem countLabels_get (ls : List Str) (acc : JSObj Nat) (hnd : (JSObj.keys acc).Nodup)
    (hls : ∀ l ∈ ls, l ∉ objectPrototypeKeys) :
    ∃ res, App.countLabels acc ls = some res ∧ (JSObj.keys res).Nodup ∧
      (∀ x, x ∈ JSObj.keys res ↔ x ∈ JSObj.keys acc ∨ x ∈ ls) ∧
      ∀ x, (JSObj.get res x).getD 0 = (JSObj.get acc x).getD 0 + ls.count x := by
  induction ls generalizing acc with
  | nil => exact ⟨acc, rfl, hnd, by simp, by simp⟩
  | cons l ls ih =>
    have hl := hls l (List.mem_cons_self _ _)
    have hne : l ≠ "__proto__".toList := by
      intro h
      apply hl
      rw [h]
      decide
    have hstep : App.countLabel acc l
        = some (JSObj.set acc l ((JSObj.get acc l).getD 0 + 1)) := by
      unfold App.countLabel
      cases hget : JSObj.get acc l with
      | some n => rfl
      | none =>
        simp only [hl, if_false, Option.getD_none, Nat.zero_add]
        rw [if_neg hne]
    obtain ⟨res, hres, hnd2, hkeys, hcount⟩ :=
      ih (JSObj.set acc l ((JSObj.get acc l).getD 0 + 1)) (JSObj.keys_set_nodup _ _ _ hnd)
        (fun x hx => hls x (List.mem_cons_of_mem _ hx))
    refine ⟨res, ?_, hnd2, ?_, ?_⟩
    · simp only [App.countLabels, hstep]
      exact hres
    · intro x
      rw [hkeys x, JSObj.mem_keys_iff, JSObj.mem_keys_iff]
      by_cases hx : x = l
      · subst hx
        simp [JSObj.get_set_self]
      · rw [JSObj.get_set_other _ _ _ _ hx]
        simp [hx]
    · intro x
      rw [hcount x]
      by_cases hx : x = l
      · subst hx
        rw [JSObj.get_set_self]
        simp only [Option.getD_some, List.count_cons_self]
        omega
      · rw [JSObj.get_set_other _ _ _ _ hx, List.count_cons_of_ne hx]

theorem sortByCountDesc_sorted (es : List (Str × Nat)) :
    (App.sortByCountDesc es).Pairwise (fun a b => b.2 ≤ a.2) := by
  haveI : IsTotal (Str × Nat) (fun a b => b.2 ≤ a.2) := ⟨fun a b => Nat.le_total b.2 a.2⟩
  haveI : IsTrans (Str × Nat) (fun a b => b.2 ≤ a.2) :=
    ⟨fun a b c hab hbc => Nat.le_trans hbc hab⟩
  exact List.sorted_insertionSort (fun a b : Str × Nat => b.2 ≤ a.2) es

theorem sortByCountDesc_perm (es : List (Str × Nat)) : (App.sortByCountDesc es).Perm es :=
  List.perm_insertionSort _ es

/-- For every dataset in which no company name is the name
of a member of `Object.prototype`, the company series has at most ten
entries with distinct labels, its counts are in non-increasing order, each
count is the number of records counted under the label (the company name,
or `undefined` for a record without one), and every label left out has a
count no greater than that of every label included. -/
theorem companySeries_spec (data : List Record)
    (hlabels : ∀ item ∈ data, App.companyLabel item ∉ objectPrototypeKeys) :
    ∃ top : List (Str × Nat),
      App.companySeries data = some (top.map Prod.fst, top.map Prod.snd) ∧
      top.length ≤ 10 ∧
      (top.map Prod.snd).Pairwise (fun a b => b ≤ a) ∧
      (top.map Prod.fst).Nodup ∧
      (∀ e ∈ top, e.2 = (data.map App.companyLabel).count e.1) ∧
      ∀ item ∈ data, App.companyLabel item ∉ top.map Prod.fst →
        ∀ e ∈ top, (data.map App.companyLabel).count (App.companyLabel item) ≤ e.2 := by
  obtain ⟨res, hres, hnd, hkeys, hcount⟩ :=
    countLabels_get (data.map App.companyLabel) [] List.nodup_nil
      (by
        intro l hl
        obtain ⟨item, hitem, rfl⟩ := List.mem_map.mp hl
        exact hlabels item hitem)
  have hsorted := sortByCountDesc_sorted res
  have hperm := sortByCountDesc_perm res
  have hval : ∀ e ∈ res, e.2 = (data.map App.companyLabel).count e.1 := by
    intro e he
    have h1 := hcount e.1
    rw [JSObj.get_of_mem res hnd e he] at h1
    simpa [JSObj.get] using h1
  have htake : ∀ e ∈ (App.sortByCountDesc res).take 10, e ∈ res := fun e he =>
    hperm.subset (List.mem_of_mem_take he)
  refine ⟨(App.sortByCountDesc res).take 10, ?_, ?_, ?_, ?_, ?_, ?_⟩
  · simp only [App.companySeries, App.topCompanies, App.companyCounts, hres, Option.map_some']
  · exact List.length_take_le _ _
  · rw [List.pairwise_map]
    exact hsorted.sublist (List.take_sublist _ _)
  · have h1 : ((App.sortByCountDesc res).map Prod.fst).Nodup :=
      (hperm.map Prod.fst).nodup_iff.mpr hnd
    exact h1.sublist ((List.take_sublist _ _).map Prod.fst)
  · intro e he
    exact hval e (htake e he)
  · intro item hitem hout e he
    have hk : App.companyLabel item ∈ JSObj.keys res :=
      (hkeys _).mpr (Or.inr (List.mem_map_of_mem _ hitem))
    obtain ⟨p, hp, hp1⟩ := List.mem_map.mp hk
    have hps : p ∈ App.sortByCountDesc res := hperm.symm.subset hp
    rw [← List.take_append_drop 10 (App.sortByCountDesc res)] at hps hsorted
    rcases List.mem_append.mp hps with h | h
    · exact absurd (hp1 ▸ List.mem_map_of_mem Prod.fst h) hout
    · have := (List.pairwise_append.mp hsorted).2.2 e he p h
      rw [← hp1, ← hval p hp]
      exact this

theorem companySeries_spec_witness :
    ∃ top : List (Str × Nat),
      App.companySeries [sampleItem, sampleItem2, sampleItem]
        = some (top.map Prod.fst, top.map Prod.snd) ∧
      top.length ≤ 10 ∧
      (top.map Prod.snd).Pairwise (fun a b => b ≤ a) ∧
      (top.map Prod.fst).Nodup ∧
      (∀ e ∈ top, e.2
        = ([sampleItem, sampleItem2, sampleItem].map App.companyLabel).count e.1) ∧
      ∀ item ∈ [sampleItem, sampleItem2, sampleItem],
        App.companyLabel item ∉ top.map Prod.fst →
        ∀ e ∈ top, ([sampleItem, sampleItem2, sampleItem].map App.companyLabel).count
          (App.companyLabel item) ≤ e.2 :=
  companySeries_spec [sampleItem, sampleItem2, sampleItem] (by decide)

/-- C27 (failing input): of two records of the company `__proto__` and one
of the company `A`, the company series holds only `A` with the count 1; the
company left out has the count 2. -/
theorem companySeries_leaves_out_proto :
    App.companySeries
        [mkRecord [("companyName", "__proto__")], mkRecord [("companyName", "A")],
         mkRecord [("companyName", "__proto__")]]
      = some (["A".toList], [1]) ∧
    ([mkRecord [("companyName", "__proto__")], mkRecord [("companyName", "A")],
      mkRecord [("companyName", "__proto__")]].map App.companyLabel).count "__proto__".toList
      = 2 := by
  decide

/-! ### Table rendering -/

/-- C22: for the empty dataset `calculateMetrics` returns `totalJobs = 0`,
`avgMatchScore = 0` and `outreachReady = 0` (and no companies, no cities and
the job type `N/A`), and both table renderers write an empty table body,
show the empty-state element and set the count text to `0 records` and
`0 signals`. -/
theorem empty_dataset (parseFloat : Str → Option ℚ) (host : HiringSignals.Host) :
    App.calculateMetrics parseFloat []
      = some { totalJobs := 0, uniqueCompanies := 0, topJobType := "N/A".toList,
               uniqueCities := 0, avgMatchScore := 0, outreachReady := 0 } ∧
    (App.renderTable []).tableBody = [] ∧
    (App.renderTable []).emptyState = "block".toList ∧
    (App.renderTable []).tableCount = "0 records".toList ∧
    (HiringSignals.renderTable host []).tableBody = [] ∧
    (HiringSignals.renderTable host []).emptyState = "block".toList ∧
    (HiringSignals.renderTable host []).recordCount = "0 signals".toList :=
  ⟨rfl, rfl, rfl, rfl, rfl, rfl, rfl⟩

theorem filterRecords_nil (filter : Str) : HiringSignals.filterRecords filter [] = [] := by
  unfold HiringSignals.filterRecords
  split
  · rfl
  · split
    · rfl
    · split <;> rfl

/-- The view after the dataset is rendered and a filter is applied: the
table body is the markup of one row per record that the filter keeps, in
order, and the count text is `k signals` for `all` and for the empty
dataset, and `k of n signals` for the other filters on a dataset of `n`
records. -/
theorem applyFilter_view (host : HiringSignals.Host) (data : List Record) (filter : Str) :
    (HiringSignals.applyFilter host filter (HiringSignals.renderTable host data)).tableBody
      = ((HiringSignals.filterRecords filter data).map (HiringSignals.renderRow host)).flatten ∧
    HiringSignals.filterRecords "all".toList data = data ∧
    HiringSignals.filterRecords "news".toList data
      = data.filter (fun r => HiringSignals.hasText (r.get "companyRecentNews".toList)) ∧
    HiringSignals.filterRecords "funded".toList data
      = data.filter (fun r => HiringSignals.hasText (r.get "fundingAmount".toList)) ∧
    HiringSignals.filterRecords "jobchange".toList data
      = data.filter (fun r => HiringSignals.mentionsJob (r.get "impactType".toList) ||
          HiringSignals.hasText (r.get "seniorLinkedin".toList)) ∧
    (HiringSignals.applyFilter host filter (HiringSignals.renderTable host data)).recordCount
      = (if data = [] ∨ filter = "all".toList then
          numberText (HiringSignals.filterRecords filter data).length ++ " signals".toList
        else
          numberText (HiringSignals.filterRecords filter data).length ++ " of ".toList ++
            numberText data.length ++ " signals".toList) := by
  cases data with
  | nil =>
    refine ⟨?_, rfl, rfl, rfl, rfl, ?_⟩
    · rw [filterRecords_nil]; rfl
    · rw [filterRecords_nil]; rfl
  | cons a rest =>
    refine ⟨?_, rfl, rfl, rfl, rfl, ?_⟩
    · simp [HiringSignals.applyFilter, HiringSignals.renderTable]
    · by_cases hf : filter = "all".toList
      · simp [HiringSignals.applyFilter, HiringSignals.renderTable, hf]
      · simp [HiringSignals.applyFilter, HiringSignals.renderTable, hf]

set_option maxRecDepth 100000 in
/-- C23 (failing input): for a dataset of one record whose `impactLevel` is
`</td></tr><tr><td>:x`, the table body written under the filter `all` holds
the label `</td></tr><tr><td>` as markup, which closes the row and opens a
second one: besides the text that `encodeURIComponent` returns, the body has
two `<tr>`, while the count text is `1 signals`. -/
theorem applyFilter_label_opens_row (host : HiringSignals.Host) :
    (HiringSignals.applyFilter host "all".toList
        (HiringSignals.renderTable host [mkRecord [("impactLevel", "</td></tr><tr><td>:x")]])).tableBody
      = rowBreakerBefore ++ host.encodeURIComponent "</td></tr><tr><td>:x".toList
          ++ rowBreakerAfter ∧
    countOccurrences "<tr>".toList rowBreakerBefore = 1 ∧
    countOccurrences "<tr>".toList rowBreakerAfter = 1 ∧
    (HiringSignals.applyFilter host "all".toList
        (HiringSignals.renderTable host [mkRecord [("impactLevel", "</td></tr><tr><td>:x")]])).recordCount
      = "1 signals".toList := by
  refine ⟨?_, by decide, by decide, ?_⟩
  swap
  · rw [(applyFilter_view host [mkRecord [("impactLevel", "</td></tr><tr><td>:x")]]
      "all".toList).2.2.2.2.2]
    decide
  have hview := (applyFilter_view host [mkRecord [("impactLevel", "</td></tr><tr><td>:x")]]
    "all".toList).1
  have hlabel : HiringSignals.impactLabel "</td></tr><tr><td>:x".toList
      = "</td></tr><tr><td>".toList := by decide
  have hcell : HiringSignals.renderCell host "</td></tr><tr><td>:x".toList "impactLevel".toList
        (mkRecord [("impactLevel", "</td></tr><tr><td>:x")])
      = "<td class=\"hs-cell\">".toList ++
        HiringSignals.renderViewButton host "</td></tr><tr><td>:x".toList "Impact Details".toList
          (HiringSignals.impactLabel "</td></tr><tr><td>:x".toList) [] ++ "</td>".toList := rfl
  have hrow : HiringSignals.renderRow host (mkRecord [("impactLevel", "</td></tr><tr><td>:x")])
      = "<tr>".toList ++ ((List.replicate 13 "<td class=\"hs-cell\">-</td>".toList).flatten ++
          HiringSignals.renderCell host "</td></tr><tr><td>:x".toList "impactLevel".toList
            (mkRecord [("impactLevel", "</td></tr><tr><td>:x")]) ++
          (List.replicate 2 "<td class=\"hs-cell\">-</td>".toList).flatten) ++ "</tr>".toList := rfl
  rw [hview]
  have hfilter : HiringSignals.filterRecords "all".toList
      [mkRecord [("impactLevel", "</td></tr><tr><td>:x")]]
      = [mkRecord [("impactLevel", "</td></tr><tr><td>:x")]] := rfl
  rw [hfilter]
  simp only [List.map_cons, List.map_nil, List.flatten_cons, List.flatten_nil, List.append_nil]
  rw [hrow, hcell, hlabel]
  unfold HiringSignals.renderViewButton
  rw [if_neg (by decide)]
  simp only [ne_eq, not_true_eq_false, if_false, List.append_nil, List.append_assoc,
    rowBreakerBefore, rowBreakerAfter]
  rfl

theorem escapeHtml_no_tag (text : Str) : '<' ∉ App.escapeHtml text := by
  intro h
  unfold App.escapeHtml at h
  obtain ⟨c, -, hc⟩ := List.mem_flatMap.mp h
  by_cases h1 : c = '&'
  · rw [if_pos h1] at hc; revert hc; decide
  · rw [if_neg h1] at hc
    by_cases h2 : c = '<'
    · rw [if_pos h2] at hc; revert hc; decide
    · rw [if_neg h2] at hc
      by_cases h3 : c = '>'
      · rw [if_pos h3] at hc; revert hc; decide
      · rw [if_neg h3] at hc
        by_cases h4 : c.toNat = 0xA0
        · rw [if_pos h4] at hc; revert hc; decide
        · rw [if_neg h4] at hc
          exact h2 (List.mem_singleton.mp hc).symm

theorem substring_prefix (n : Nat) (s : Str) : substring n s <+: s := by
  induction s generalizing n with
  | nil => exact List.prefix_refl _
  | cons c cs ih =>
    unfold substring
    by_cases h : (if c.toNat < 0x10000 then 1 else 2) ≤ n
    · rw [if_pos h]; exact (List.prefix_cons_inj c).mpr (ih _)
    · rw [if_neg h]; exact List.nil_prefix

theorem utf16Length_cons (c : Char) (s : Str) :
    utf16Length (c :: s) = (if c.toNat < 0x10000 then 1 else 2) + utf16Length s := by
  simp [utf16Length]

theorem utf16Length_append (s t : Str) :
    utf16Length (s ++ t) = utf16Length s + utf16Length t := by
  simp [utf16Length]

theorem utf16Length_substring (n : Nat) (s : Str) : utf16Length (substring n s) ≤ n := by
  induction s generalizing n with
  | nil => simp [substring, utf16Length]
  | cons c cs ih =>
    unfold substring
    by_cases h : (if c.toNat < 0x10000 then 1 else 2) ≤ n
    · rw [if_pos h, utf16Length_cons]
      have := ih (n - (if c.toNat < 0x10000 then 1 else 2))
      omega
    · rw [if_neg h]
      simp [utf16Length]

theorem utf16Length_escapeHtml (text : Str) :
    utf16Length text ≤ utf16Length (App.escapeHtml text) := by
  induction text with
  | nil => exact Nat.le_refl _
  | cons c cs ih =>
    have hstep : App.escapeHtml (c :: cs) = App.escapeHtml [c] ++ App.escapeHtml cs := by
      simp [App.escapeHtml, List.flatMap_cons]
    have hone : (if c.toNat < 0x10000 then 1 else 2) ≤ utf16Length (App.escapeHtml [c]) := by
      unfold App.escapeHtml
      simp only [List.flatMap_cons, List.flatMap_nil, List.append_nil]
      by_cases h1 : c = '&'
      · rw [if_pos h1, h1]; decide
      · rw [if_neg h1]
        by_cases h2 : c = '<'
        · rw [if_pos h2, h2]; decide
        · rw [if_neg h2]
          by_cases h3 : c = '>'
          · rw [if_pos h3, h3]; decide
          · rw [if_neg h3]
            by_cases h4 : c.toNat = 0xA0
            · rw [if_pos h4, h4]; decide
            · rw [if_neg h4]
              simp [utf16Length]
    rw [hstep, utf16Length_append, utf16Length_cons]
    omega

/-- C24: for every text and threshold, `renderExpandableCell` returns the
HTML-escaped text, which holds no markup, when the text has at most
`maxLength` UTF-16 code units. Otherwise it returns the expandable block,
which holds the whole escaped text in the hidden `text-content` part and, in
the `truncated-text` part, the first `maxLength` code units of the escaped
text followed by three dots: a proper prefix of the escaped text. The table
row calls it with the thresholds 100 for `jd` and `outreachEmailText` and 80
for `companyDescription`. -/
theorem renderExpandableCell_spec (text : Str) (maxLength : Nat) :
    (utf16Length text ≤ maxLength →
      App.renderExpandableCell text maxLength = App.escapeHtml text ∧
      '<' ∉ App.renderExpandableCell text maxLength) ∧
    (maxLength < utf16Length text →
      App.renderExpandableCell text maxLength
        = "\n        <div class=\"expandable-text\" title=\"Click to view full text\">\n            <div class=\"text-content\" style=\"display:none;\">".toList ++
          App.escapeHtml text ++
          "</div>\n            <div class=\"truncated-text\">".toList ++
          substring maxLength (App.escapeHtml text) ++
          "...</div>\n            <div class=\"expand-hint\">Click to expand</div>\n        </div>\n    ".toList ∧
      substring maxLength (App.escapeHtml text) <+: App.escapeHtml text ∧
      utf16Length (substring maxLength (App.escapeHtml text)) ≤ maxLength ∧
      substring maxLength (App.escapeHtml text) ≠ App.escapeHtml text) ∧
    ∀ row : Record,
      App.renderRow row
        = "\n        <tr>\n            <td>".toList ++
          App.escapeHtml ((row.get "companyName".toList).getD []) ++
          "</td>\n            <td>".toList ++
          App.escapeHtml ((row.get "jobType".toList).getD []) ++
          "</td>\n            <td>".toList ++
          App.escapeHtml ((row.get "city".toList).getD []) ++
          "</td>\n            <td class=\"wrap\">".toList ++
          App.renderExpandableCell ((row.get "jd".toList).getD []) 100 ++
          "</td>\n            <td>".toList ++
          App.formatUrl ((row.get "companyJobUrl".toList).getD []) ++
          "</td>\n            <td>".toList ++
          App.escapeHtml ((row.get "salary".toList).getD []) ++
          "</td>\n            <td class=\"wrap\">".toList ++
          App.renderExpandableCell ((row.get "companyDescription".toList).getD []) 80 ++
          "</td>\n            <td>".toList ++
          App.escapeHtml ((row.get "title".toList).getD []) ++
          "</td>\n            <td>".toList ++
          App.escapeHtml ((row.get "matchScore".toList).getD []) ++
          "</td>\n            <td>".toList ++
          App.formatUrl ((row.get "website".toList).getD []) ++
          "</td>\n            <td>".toList ++
          App.escapeHtml ((row.get "decisionMakerEmail".toList).getD []) ++
          "</td>\n            <td class=\"wrap outreach-cell\">\n                ".toList ++
          App.renderExpandableCell ((row.get "outreachEmailText".toList).getD []) 100 ++
          "\n                <button class=\"btn-send-email\" title=\"Send Email\">Send</button>\n            </td>\n        </tr>\n    ".toList := by
  refine ⟨?_, ?_, ?_⟩
  · intro hle
    have heq : App.renderExpandableCell text maxLength = App.escapeHtml text := by
      unfold App.renderExpandableCell
      by_cases ht : text = []
      · rw [if_pos ht, ht]; rfl
      · rw [if_neg ht, if_pos hle]
    exact ⟨heq, heq ▸ escapeHtml_no_tag text⟩
  · intro hlt
    have hne : text ≠ [] := by
      intro h
      rw [h] at hlt
      simp [utf16Length] at hlt
    refine ⟨?_, substring_prefix _ _, utf16Length_substring _ _, ?_⟩
    · unfold App.renderExpandableCell
      rw [if_neg hne, if_neg (Nat.not_le.mpr hlt)]
      unfold App.expandableBlock App.displayedTruncation
      simp only [List.append_assoc]
      rfl
    · intro heq
      have h1 := utf16Length_substring maxLength (App.escapeHtml text)
      rw [heq] at h1
      have h2 := utf16Length_escapeHtml text
      omega
  · intro row
    rfl

set_option maxRecDepth 100000 in
theorem renderExpandableCell_spec_witness :
    (App.renderExpandableCell "a<b".toList 100 = "a&lt;b".toList ∧
      '<' ∉ App.renderExpandableCell "a<b".toList 100) ∧
    App.renderExpandableCell "ab<cdef".toList 2
      = "\n        <div class=\"expandable-text\" title=\"Click to view full text\">\n            <div class=\"text-content\" style=\"display:none;\">".toList ++
        "ab&lt;cdef".toList ++
        "</div>\n            <div class=\"truncated-text\">".toList ++
        "ab".toList ++
        "...</div>\n            <div class=\"expand-hint\">Click to expand</div>\n        </div>\n    ".toList := by
  have h1 := (renderExpandableCell_spec "a<b".toList 100).1 (by decide)
  have h2 := ((renderExpandableCell_spec "ab<cdef".toList 2).2.1 (by decide)).1
  refine ⟨⟨h1.1.trans (by decide), h1.2⟩, h2.trans (by decide)⟩

set_option maxRecDepth 100000 in
/-- C29 (failing input): for a text of 81 characters whose character 78 is
an ampersand, the truncation that `renderExpandableCell` displays for the
threshold 80 ends in the partial entity `&a`, whereas `truncateText` gives
the escaped first 80 characters, ending in `&amp;b`. -/
theorem displayedTruncation_partial_entity :
    App.displayedTruncation longText 80 = List.replicate 78 'a' ++ "&a...".toList ∧
    App.truncateText longText 80 = List.replicate 78 'a' ++ "&amp;b...".toList ∧
    App.renderExpandableCell longText 80
      = App.expandableBlock (App.escapeHtml longText)
          (List.replicate 78 'a' ++ "&a...".toList) := by
  decide

/-- C12 (failing input): for the `impactLevel` value `<b>High</b>` the label
is the value itself, and the cell holds it between `>` and `</button>` as it
is, with its `<` and `>` unescaped. -/
theorem renderCell_impactLevel_label (host : HiringSignals.Host) (row : Record) :
    HiringSignals.impactLabel "<b>High</b>".toList = "<b>High</b>".toList ∧
    HiringSignals.renderCell host "<b>High</b>".toList "impactLevel".toList row
      = "<td class=\"hs-cell\"><button class=\"btn-view\" \n            data-full-text=\"".toList
        ++ host.encodeURIComponent "<b>High</b>".toList
        ++ ("\" \n            data-modal-title=\"Impact Details\"\n            >".toList
        ++ "<b>High</b>".toList ++ "</button></td>".toList) := by
  have h1 : HiringSignals.impactLabel "<b>High</b>".toList = "<b>High</b>".toList := by decide
  have h2 : HiringSignals.renderCell host "<b>High</b>".toList "impactLevel".toList row
      = "<td class=\"hs-cell\">".toList ++
        HiringSignals.renderViewButton host "<b>High</b>".toList "Impact Details".toList
          (HiringSignals.impactLabel "<b>High</b>".toList) [] ++ "</td>".toList := rfl
  refine ⟨h1, ?_⟩
  rw [h2, h1]
  unfold HiringSignals.renderViewButton
  rw [if_neg (by decide)]
  simp only [ne_eq, not_true_eq_false, if_false, List.append_nil, List.append_assoc]
  rfl

/-! ### Saving an edit and loading again -/

/-- With distinct keys in `b`, a read of the spread `{ ...a, ...b }` yields the
property of `b` when it has one, else that of `a`. -/
theorem JSObj.get_spread {α : Type} (b : JSObj α) (hnd : (JSObj.keys b).Nodup) (a : JSObj α)
    (f : Str) :
    JSObj.get (JSObj.spread a b) f
      = (match JSObj.get b f with
        | some x => some x
        | none => JSObj.get a f) := by
  induction b generalizing a with
  | nil => rfl
  | cons kv rest ih =>
    obtain ⟨k1, v1⟩ := kv
    simp only [JSObj.keys, List.map_cons, List.nodup_cons] at hnd
    have hrest : JSObj.get rest k1 = none := (JSObj.get_eq_none_iff rest k1).mpr hnd.1
    have hstep : JSObj.spread a ((k1, v1) :: rest) = JSObj.spread (JSObj.set a k1 v1) rest := rfl
    rw [hstep, ih hnd.2]
    by_cases hf : k1 = f
    · subst hf
      simp only [JSObj.get, if_true, hrest, JSObj.get_set_self]
    · have hf2 : f ≠ k1 := fun h => hf h.symm
      simp only [JSObj.get, hf, if_false, JSObj.get_set_other a k1 f v1 hf2]

/-- Setting a field of the overlay entry and merging is, field by field,
merging and then setting the field of the record. -/
theorem JSObj.get_spread_set (item entry : Record) (hnd : (JSObj.keys entry).Nodup)
    (k v field : Str) :
    JSObj.get (JSObj.spread item (assignText entry k v)) field
      = JSObj.get (assignText (JSObj.spread item entry) k v) field := by
  unfold assignText
  by_cases hp : k = "__proto__".toList
  · rw [if_pos hp, if_pos hp]
  · rw [if_neg hp, if_neg hp, JSObj.get_spread _ (JSObj.keys_set_nodup entry k v hnd)]
    by_cases hf : field = k
    · subst hf
      simp only [JSObj.get_set_self]
    · rw [JSObj.get_set_other _ _ _ _ hf, JSObj.get_set_other _ _ _ _ hf,
        JSObj.get_spread entry hnd]

/-- The state that `saveChanges` leaves for a valid index and a non-empty
field key. -/
theorem saveChanges_ok (st : App.State) (i : Nat) (item : Record) (k v : Str)
    (hitem : st.sheetData[i]? = some item) (hk : k ≠ []) :
    ∃ edits, App.saveChanges st (i : Int) k v
        = .ok ⟨st.sheetData.set i (assignText item k v), edits⟩ ∧
      edits.get (App.editKey item)
        = some (assignText ((st.localEdits.get (App.editKey item)).getD []) k v) ∧
      ∀ key, key ≠ App.editKey item → edits.get key = st.localEdits.get key := by
  have hne : ((i : Nat) : Int) ≠ -1 := by omega
  have hat : App.itemAt st.sheetData (i : Int) = some item := by
    simp [App.itemAt, hitem]
  cases hold : st.localEdits.get (App.editKey item) with
  | none =>
    refine ⟨(st.localEdits.set (App.editKey item) []).set (App.editKey item)
      (assignText ([] : Record) k v), ?_, ?_, ?_⟩
    · simp only [App.saveChanges, hne, hk, ne_eq, not_false_eq_true, and_self, if_true, hat,
        hold, JSObj.get_set_self, Option.getD_some, Int.toNat_ofNat]
    · simp [JSObj.get_set_self]
    · intro key hkey
      simp [JSObj.get_set_other _ _ key _ hkey]
  | some entry =>
    refine ⟨st.localEdits.set (App.editKey item) (assignText entry k v), ?_, ?_, ?_⟩
    · simp only [App.saveChanges, hne, hk, ne_eq, not_false_eq_true, and_self, if_true, hat,
        hold, Option.getD_some, Int.toNat_ofNat]
    · simp [JSObj.get_set_self]
    · intro key hkey
      simp [JSObj.get_set_other _ _ key _ hkey]

/-- C28 (as amended): let `D` be the merge of a source with an overlay whose
entries are objects (distinct keys), such that no two records of `D` share a
composite key and every record of `D` has the composite key of its source
record. For a valid index, a non-empty field key and a text, `saveChanges`
succeeds, and merging the same source with the overlay it leaves gives a
dataset with as many records as the dataset it leaves, equal to it record by
record on every field. -/
theorem saveChanges_reload (source : List Record) (localEdits : JSObj Record) (i : Nat)
    (k v : Str) (hi : i < source.length) (hk : k ≠ [])
    (hobjects : ∀ entry ∈ localEdits, (JSObj.keys entry.2).Nodup)
    (hdistinct : ((App.mergeLocalEdits localEdits source).map App.editKey).Nodup)
    (hkeys : ∀ item ∈ source, App.editKey (App.mergeItem localEdits item) = App.editKey item) :
    ∃ st, App.saveChanges ⟨App.mergeLocalEdits localEdits source, localEdits⟩ (i : Int) k v
        = .ok st ∧
      (App.mergeLocalEdits st.localEdits source).length = st.sheetData.length ∧
      ∀ (j : Nat) (field : Str),
        ((App.mergeLocalEdits st.localEdits source)[j]?).map (fun r => r.get field)
          = (st.sheetData[j]?).map (fun r => r.get field) := by
  have hsrc : (source.map App.editKey).Nodup := by
    have : (App.mergeLocalEdits localEdits source).map App.editKey = source.map App.editKey := by
      unfold App.mergeLocalEdits
      rw [List.map_map]
      exact List.map_congr_left (fun item hitem => hkeys item hitem)
    rw [← this]
    exact hdistinct
  have hitem : (App.mergeLocalEdits localEdits source)[i]?
      = some (App.mergeItem localEdits source[i]) := by
    simp [App.mergeLocalEdits, List.getElem?_eq_getElem hi]
  have hkey : App.editKey (App.mergeItem localEdits source[i]) = App.editKey source[i] :=
    hkeys _ (List.getElem_mem hi)
  obtain ⟨edits, hsave, hself, hother⟩ :=
    saveChanges_ok ⟨App.mergeLocalEdits localEdits source, localEdits⟩ i
      (App.mergeItem localEdits source[i]) k v hitem hk
  rw [hkey] at hself hother
  refine ⟨_, hsave, by simp [App.mergeLocalEdits], ?_⟩
  intro j field
  simp only [App.mergeLocalEdits, List.getElem?_map]
  by_cases hj : j < source.length
  · rw [List.getElem?_eq_getElem hj]
    by_cases hji : j = i
    · subst hji
      rw [List.getElem?_set_eq_of_lt _ (by simpa using hj)]
      simp only [Option.map_some']
      congr 1
      have hnd : (JSObj.keys ((localEdits.get (App.editKey source[j])).getD [])).Nodup := by
        cases hget : localEdits.get (App.editKey source[j]) with
        | none => exact List.nodup_nil
        | some entry => exact hobjects _ (JSObj.mem_of_get localEdits _ entry hget)
      have hmerge : App.mergeItem localEdits source[j]
          = JSObj.spread source[j] ((localEdits.get (App.editKey source[j])).getD []) := by
        unfold App.mergeItem
        cases localEdits.get (App.editKey source[j]) <;> rfl
      rw [hmerge]
      unfold App.mergeItem
      rw [hself]
      exact JSObj.get_spread_set _ _ hnd k v field
    · rw [List.getElem?_set_ne (fun h => hji h.symm)]
      simp only [List.getElem?_map, List.getElem?_eq_getElem hj, Option.map_some']
      congr 2
      have hne : App.editKey source[j] ≠ App.editKey source[i] := by
        intro heq
        apply hji
        have hj2 : j < (source.map App.editKey).length := by simpa using hj
        have hi2 : i < (source.map App.editKey).length := by simpa using hi
        have h1 : (source.map App.editKey)[j] = (source.map App.editKey)[i] := by
          simpa using heq
        exact (hsrc.getElem_inj_iff).mp h1
      unfold App.mergeItem
      rw [hother _ hne]
  · have h1 : source[j]? = none := List.getElem?_eq_none (Nat.le_of_not_lt hj)
    have h2 : ((List.map (App.mergeItem localEdits) source).set i
        (assignText (App.mergeItem localEdits source[i]) k v))[j]? = none := by
      apply List.getElem?_eq_none
      simpa using Nat.le_of_not_lt hj
    rw [h1, h2]
    rfl

theorem saveChanges_reload_witness :
    ∃ st, App.saveChanges ⟨App.mergeLocalEdits sampleEdits [sampleItem, sampleItem2], sampleEdits⟩
        ((1 : Nat) : Int) "outreachEmailText".toList "Hey".toList = .ok st ∧
      (App.mergeLocalEdits st.localEdits [sampleItem, sampleItem2]).length
        = st.sheetData.length ∧
      ∀ (j : Nat) (field : Str),
        ((App.mergeLocalEdits st.localEdits [sampleItem, sampleItem2])[j]?).map
            (fun r => r.get field)
          = (st.sheetData[j]?).map (fun r => r.get field) :=
  saveChanges_reload [sampleItem, sampleItem2] sampleEdits 1 "outreachEmailText".toList
    "Hey".toList (by decide) (by decide) (by decide) (by decide) (by decide)

/-- C28 (counterexample): the overlay entry of the source record `A|X`
overrides its title, so the merged record has the composite key `A|Y`, under
which `saveChanges` stores the edit of `jd`; merging the source again with
the overlay it leaves does not find that entry, and the record has no `jd`,
whereas the in-memory record has it. -/
theorem saveChanges_reload_loses_edit :
    ((App.mergeLocalEdits driftEdits driftSource).map App.editKey).Nodup ∧
    ∃ st, App.saveChanges ⟨App.mergeLocalEdits driftEdits driftSource, driftEdits⟩ 0
        "jd".toList "v".toList = .ok st ∧
      st.sheetData.map (fun r => r.get "jd".toList) = [some "v".toList] ∧
      (App.mergeLocalEdits st.localEdits driftSource).map (fun r => r.get "jd".toList)
        = [none] :=
  ⟨by decide, _, rfl, by decide, by decide⟩

/-- C4: the text `Company name,Title`, line feed, `Acme,Eng`, line feed is
parsed by the general variant into exactly one record, with the two keys
`companyName` and `title` holding `Acme` and `Eng`. -/
theorem parseCSV_scenario (host : Str → Str) :
    App.parseCSV host "Company name,Title\nAcme,Eng\n".toList
      = .ok [[("companyName".toList, "Acme".toList), ("title".toList, "Eng".toList)]] := by
  rfl

/-- C5: on every input text both parsers return a sequence of records; the
member accesses that could raise a `TypeError` are never reached on
`undefined`. The loops are structural recursions on the remaining input, so
they end on every text, malformed quoting included. -/
theorem parseCSV_never_throws (host : Str → Str) (text : Str) :
    (∃ records, App.parseCSV host text = .ok records) ∧
    (∃ records, HiringSignals.parseCSV text = .ok records) := by
  constructor
  · unfold App.parseCSV
    cases hrows : App.tokenize text with
    | nil => exact ⟨[], by simp⟩
    | cons headerRow others =>
      by_cases h : (headerRow :: others).length < 2
      · exact ⟨[], by simp only [h, if_true]⟩
      · refine ⟨(others.map (App.fillRow host [] (headerRow.map App.cleanHeader))).filter
          App.hasValue, ?_⟩
        simp only [h, if_false, List.getElem?_cons_zero]
        rfl
  · unfold HiringSignals.parseCSV
    cases hlines : HiringSignals.splitLines text false [] [] with
    | nil => exact ⟨[], by simp⟩
    | cons headerLine others => simp

end RecruitmentOS
